import Mathlib

/-!
# intelHexCRC: a shallow embedding of `main.cpp`

The program reads Intel HEX text, rebuilds the binary image, computes a
CRC-32 over it, patches the CRC into the last four bytes and can write the
image back as Intel HEX.

Modelling conventions.

* A byte array object (`IntelHexASCII`, `IntelHexBinary`, `pgmData`) is a
  function `Nat → Nat` from offsets to byte values together with the size of
  the object.  Both unions of the source are packed and expose a flat
  `array` member, so a field is modelled by its offset in that array.
* An indexed access whose offset lies outside the object is undefined
  behaviour in the source.  The model reports it as a `Fault` value naming
  the object and the offset, through `Except Fault`.
* Machine integers are natural numbers, reduced modulo `2 ^ w` where the
  source arithmetic can wrap.
-/

namespace IntelHexCRC

/-! ## Memory objects -/

/-- Byte contents of an object, by offset. -/
abbrev Mem := Nat → Nat

/-- An access outside one of the fixed size arrays of the program. -/
inductive Fault where
  | asciiOutOfBounds (offset : Nat)
  | binOutOfBounds (offset : Nat)
  | pgmDataOutOfBounds (offset : Nat)
  deriving DecidableEq, Repr

deriving instance DecidableEq for Except

/-- Size of `IntelHexASCII` (`char array[44]`). -/
def asciiSize : Nat := 44

/-- Size of `IntelHexBinary` (`uint8_t array[21]`). -/
def binSize : Nat := 21

/-- Size of `pgmData` (`uint8_t pgmData[1048576]`). -/
def pgmDataSize : Nat := 1048576

/-- Store of one byte, `m[i] = v`. -/
def setByte (m : Mem) (i v : Nat) : Mem := fun j => if j = i then v else m j

/-- Checked read of an object of the given size. -/
def readAt (size : Nat) (flt : Nat → Fault) (m : Mem) (i : Nat) : Except Fault Nat :=
  if i < size then .ok (m i) else .error (flt i)

/-- Checked store into an object of the given size. -/
def writeAt (size : Nat) (flt : Nat → Fault) (m : Mem) (i v : Nat) : Except Fault Mem :=
  if i < size then .ok (setByte m i v) else .error (flt i)

/-- Read of `ascii->array[i]`. -/
def readAscii (ascii : Mem) (i : Nat) : Except Fault Nat :=
  readAt asciiSize Fault.asciiOutOfBounds ascii i

/-- Store into `ascii->array[i]`. -/
def writeAscii (ascii : Mem) (i v : Nat) : Except Fault Mem :=
  writeAt asciiSize Fault.asciiOutOfBounds ascii i v

/-- Read of `bin->array[i]`. -/
def readBin (bin : Mem) (i : Nat) : Except Fault Nat :=
  readAt binSize Fault.binOutOfBounds bin i

/-- Store into `bin->array[i]`. -/
def writeBin (bin : Mem) (i v : Nat) : Except Fault Mem :=
  writeAt binSize Fault.binOutOfBounds bin i v

/-! ### Field offsets of `IntelHexASCII` -/

/-- Offset of `colon`. -/
def asciiColon : Nat := 0
/-- Offset of `byteCount[2]`. -/
def asciiByteCount : Nat := 1
/-- Offset of `address[4]`. -/
def asciiAddress : Nat := 3
/-- Offset of `recordType[2]`. -/
def asciiRecordType : Nat := 7
/-- Offset of `data[32]`. -/
def asciiData : Nat := 9
/-- Offset of `checksum[2]`. -/
def asciiChecksum : Nat := 41
/-- Offset of `newLine`. -/
def asciiNewLine : Nat := 43

/-! ### Field offsets of `IntelHexBinary` -/

/-- Offset of `byteCount`. -/
def binByteCount : Nat := 0
/-- Offset of `address.byte[0]`, the low byte of `address.half`. -/
def binAddress0 : Nat := 1
/-- Offset of `address.byte[1]`, the high byte of `address.half`. -/
def binAddress1 : Nat := 2
/-- Offset of `recordType`. -/
def binRecordType : Nat := 3
/-- Offset of `data.byte[16]`. -/
def binData : Nat := 4
/-- Offset of `checksum`. -/
def binChecksum : Nat := 20

/-- Value of `bin->address.half` on the little-endian host. -/
def addressHalf (bin : Mem) : Nat := bin binAddress0 + 256 * bin binAddress1

/-! ### Record types and program status -/

/-- `RecordType::addr16bitAndData`. -/
def addr16bitAndData : Nat := 0
/-- `RecordType::endOfFile`. -/
def endOfFile : Nat := 1
/-- `RecordType::addr20bit`. -/
def addr20bit : Nat := 2
/-- `RecordType::start20bit`. -/
def start20bit : Nat := 3
/-- `RecordType::addr32bit`. -/
def addr32bit : Nat := 4
/-- `RecordType::start32bit`. -/
def start32bit : Nat := 5

/-- `ProgramStatus::success`. -/
def success : Int := 0
/-- `ProgramStatus::lineCRCerr`. -/
def lineCRCerr : Int := -5
/-- `ProgramStatus::unsupportedFeature`. -/
def unsupportedFeature : Int := -6

/-! ## Hexadecimal conversion -/

/-- Value of one character in `charHex2uint`: `'0'..'9'`, `'A'..'F'`,
`'a'..'f'`; `none` is the `else break` branch. -/
def hexVal (c : Nat) : Option Nat :=
  if 48 ≤ c ∧ c ≤ 57 then some (c - 48)
  else if 65 ≤ c ∧ c ≤ 70 then some (c - 55)
  else if 97 ≤ c ∧ c ≤ 102 then some (c - 87)
  else none

/-- Loop of `charHex2uint<T>`: `n` iterations remain, `x` is the loop counter.
`rd` reads `str[x]`. -/
def charHex2uintLoop (sizeofT : Nat) (rd : Nat → Except Fault Nat) :
    Nat → Nat → Nat → Except Fault Nat
  | 0, _, ret => .ok ret
  | n + 1, x, ret =>
    let ret := (ret <<< 4) % 2 ^ (8 * sizeofT)
    match rd x with
    | .error f => .error f
    | .ok c =>
      match hexVal c with
      | some d => charHex2uintLoop sizeofT rd n (x + 1) (ret ||| d)
      | none => .ok ret

/-- `charHex2uint<T>( str )` with `sizeof(T) = sizeofT`. -/
def charHex2uint (sizeofT : Nat) (rd : Nat → Except Fault Nat) : Except Fault Nat :=
  charHex2uintLoop sizeofT rd (sizeofT <<< 1) 0 0

/-- `charHex2uint<uint8_t>( &ascii->array[off] )`. -/
def charHex2uint8 (ascii : Mem) (off : Nat) : Except Fault Nat :=
  charHex2uint 1 (fun x => readAscii ascii (off + x))

/-- Character written by `uint2charHex` for one nibble. -/
def hexChar (mask : Nat) : Nat :=
  if mask < 10 then mask + 48 else mask - 10 + 65

/-- The `while( 1 )` loop of `uint2charHex`, from position `pos` down to 0. -/
def uint2charHexLoop (wr : Mem → Nat → Nat → Except Fault Mem) :
    Nat → Nat → Mem → Except Fault Mem
  | pos, val, buf =>
    match wr buf pos (hexChar (val &&& 0xF)) with
    | .error f => .error f
    | .ok buf1 =>
      match pos with
      | 0 => .ok buf1
      | p + 1 => uint2charHexLoop wr p (val >>> 4) buf1

/-- `uint2charHex<T>( val, buf, len )`; `wr` stores into `buf[pos]`.  The
result is the buffer; with `len < sizeof(T)*2` nothing is written. -/
def uint2charHex (sizeofT : Nat) (wr : Mem → Nat → Nat → Except Fault Mem)
    (val : Nat) (buf : Mem) (len : Nat) : Except Fault Mem :=
  if len < sizeofT * 2 then .ok buf
  else
    match (if len ≥ sizeofT * 2 + 1 then wr buf (sizeofT * 2) 0 else .ok buf) with
    | .error f => .error f
    | .ok buf1 => uint2charHexLoop wr (sizeofT * 2 - 1) val buf1

/-- `uint2charHex<uint8_t>( val, &ascii->array[off], 2 )`. -/
def uint2charHex8 (val : Nat) (ascii : Mem) (off : Nat) : Except Fault Mem :=
  uint2charHex 1 (fun buf pos v => writeAscii buf (off + pos) v) val ascii 2

/-! ## Record codec -/

/-- The payload loop of `calcIntelHexCRC`: `n` iterations remain, `d` is the
loop counter, `crc` the 16-bit accumulator. -/
def calcIntelHexCRCLoop (bin : Mem) : Nat → Nat → Nat → Except Fault Nat
  | 0, _, crc => .ok crc
  | n + 1, d, crc =>
    match readBin bin (binData + d) with
    | .error f => .error f
    | .ok v => calcIntelHexCRCLoop bin n (d + 1) ((crc + v) % 65536)

/-- `calcIntelHexCRC( bin )`. -/
def calcIntelHexCRC (bin : Mem) : Except Fault Nat :=
  let crc := 0
  let crc := (crc + bin binByteCount) % 65536
  let crc := (crc + bin binAddress0) % 65536
  let crc := (crc + bin binAddress1) % 65536
  let crc := (crc + bin binRecordType) % 65536
  match calcIntelHexCRCLoop bin (bin binByteCount) 0 crc with
  | .error f => .error f
  | .ok crc =>
    let crc := crc &&& 0xFF
    let crc := if crc ≠ 0 then 0x100 - crc else crc
    .ok (crc % 256)

/-- The payload loop of `convertToBinary`: `n` iterations remain, `c` is the
loop counter.  The loop bound `bin->byteCount` is not changed by the body,
which stores at offsets `binData + c` only. -/
def convertToBinaryLoop (ascii : Mem) : Nat → Nat → Mem → Except Fault Mem
  | 0, _, bin => .ok bin
  | n + 1, c, bin =>
    match charHex2uint8 ascii (asciiData + (c <<< 1)) with
    | .error f => .error f
    | .ok v =>
      match writeBin bin (binData + c) v with
      | .error f => .error f
      | .ok bin1 => convertToBinaryLoop ascii n (c + 1) bin1

/-- `convertToBinary( ascii, bin )`: the returned flag and the contents of
`*bin` afterwards. -/
def convertToBinary (ascii bin : Mem) : Except Fault (Bool × Mem) :=
  if ascii asciiColon ≠ 58 then .ok (false, bin)
  else
    match charHex2uint8 ascii asciiByteCount with
    | .error f => .error f
    | .ok bc =>
    let bin := setByte bin binByteCount bc
    match charHex2uint8 ascii (asciiAddress + 2) with
    | .error f => .error f
    | .ok a0 =>
    let bin := setByte bin binAddress0 a0
    match charHex2uint8 ascii (asciiAddress + 0) with
    | .error f => .error f
    | .ok a1 =>
    let bin := setByte bin binAddress1 a1
    match charHex2uint8 ascii asciiRecordType with
    | .error f => .error f
    | .ok rt =>
    let bin := setByte bin binRecordType rt
    match convertToBinaryLoop ascii (bin binByteCount) 0 bin with
    | .error f => .error f
    | .ok bin =>
    match (if bin binByteCount = 16 then charHex2uint8 ascii asciiChecksum
           else charHex2uint8 ascii (asciiData + (bin binByteCount <<< 1))) with
    | .error f => .error f
    | .ok cs =>
    let bin := setByte bin binChecksum cs
    match calcIntelHexCRC bin with
    | .error f => .error f
    | .ok crc => if crc ≠ bin binChecksum then .ok (false, bin) else .ok (true, bin)

/-- The payload loop of `convertToText`: `n` iterations remain, `c` is the
loop counter. -/
def convertToTextLoop (bin : Mem) : Nat → Nat → Mem → Except Fault Mem
  | 0, _, ascii => .ok ascii
  | n + 1, c, ascii =>
    match readBin bin (binData + c) with
    | .error f => .error f
    | .ok v =>
      match uint2charHex8 v ascii (asciiData + c * 2) with
      | .error f => .error f
      | .ok ascii1 => convertToTextLoop bin n (c + 1) ascii1

/-- `convertToText( bin, ascii )`: the contents of `*ascii` afterwards (the
function always returns `true`). -/
def convertToText (bin ascii : Mem) : Except Fault Mem :=
  let ascii : Mem := fun s => if s < asciiSize then 0 else ascii s
  let ascii := setByte ascii asciiColon 58
  match uint2charHex8 (bin binByteCount) ascii asciiByteCount with
  | .error f => .error f
  | .ok ascii =>
  match uint2charHex8 (bin binAddress0) ascii (asciiAddress + 2) with
  | .error f => .error f
  | .ok ascii =>
  match uint2charHex8 (bin binAddress1) ascii (asciiAddress + 0) with
  | .error f => .error f
  | .ok ascii =>
  match uint2charHex8 (bin binRecordType) ascii asciiRecordType with
  | .error f => .error f
  | .ok ascii =>
  match convertToTextLoop bin (bin binByteCount) 0 ascii with
  | .error f => .error f
  | .ok ascii =>
  match calcIntelHexCRC bin with
  | .error f => .error f
  | .ok crc =>
    if bin binByteCount = 16 then
      match uint2charHex8 crc ascii asciiChecksum with
      | .error f => .error f
      | .ok ascii => .ok (setByte ascii asciiNewLine 0)
    else
      match uint2charHex8 crc ascii (asciiData + bin binByteCount * 2) with
      | .error f => .error f
      | .ok ascii => writeAscii ascii (asciiData + (bin binByteCount * 2 + 2)) 0

/-! ## Text lines -/

/-- Character codes of a string literal. -/
def strBytes (s : String) : List Nat := s.toList.map Char.toNat

/-- Contents of the line buffer after `getline` stored `line` and the
terminating NUL; the rest of the buffer keeps its old contents. -/
def loadLine (buf : Mem) (line : List Nat) : Mem :=
  fun i => if i < line.length then line.getD i 0 else if i = line.length then 0 else buf i

/-- The C string starting at `ascii->array[0]`: the characters before the
first NUL.  `n` bounds the scan, `i` is the current offset. -/
def cString (ascii : Mem) : Nat → Nat → Except Fault (List Nat)
  | 0, i => .error (Fault.asciiOutOfBounds i)
  | n + 1, i =>
    if ascii i = 0 then .ok []
    else
      match cString ascii n (i + 1) with
      | .error f => .error f
      | .ok cs => .ok (ascii i :: cs)

/-- The text written by `outputFile << iha.array`. -/
def asciiText (ascii : Mem) : Except Fault (List Nat) := cString ascii asciiSize 0

/-- First bytes of an object, as a list. -/
def bytesOf (m : Mem) (n : Nat) : List Nat := (List.range n).map m

/-! ## Addresses -/

/-- The `base` view of `Address`: bits 0..15 of `word`. -/
def addrBase (word : Nat) : Nat := word % 65536

/-- The `ext32bit` view of `Address`: bits 16..31 of `word`. -/
def addrExt32bit (word : Nat) : Nat := word / 65536 % 65536

/-- Assignment `a.base = v`: bits 0..15 replaced, the rest of `word` kept. -/
def setBase (word v : Nat) : Nat := word / 65536 * 65536 + v % 65536

/-- Assignment `a.ext32bit = v`: bits 16..31 replaced, the rest of `word` kept. -/
def setExt32bit (word v : Nat) : Nat := v % 65536 * 65536 + word % 65536

/-! ## CRC engine -/

/-- One round of the loop in `calculateDataCRC`:
`buf & (1<<31) ? (buf = (buf<<1)^poly) : (buf<<=1)` on 32 bits. -/
def crcRound (poly buf : Nat) : Nat :=
  if buf &&& (1 <<< 31) ≠ 0 then ((buf <<< 1) % 2 ^ 32) ^^^ poly else (buf <<< 1) % 2 ^ 32

/-- The `for` loop of `calculateDataCRC`, `n` rounds. -/
def crcRounds (poly : Nat) : Nat → Nat → Nat
  | 0, buf => buf
  | n + 1, buf => crcRounds poly n (crcRound poly buf)

/-- `calculateDataCRC( init, data )` with the global `poly`. -/
def calculateDataCRC (poly init data : Nat) : Nat :=
  crcRounds poly 32 (init ^^^ data)

/-- Byte `e` of a register in a `Caster` union (little-endian host). -/
def casterByte (reg e : Nat) : Nat := reg >>> (8 * e) % 256

/-- Value of `Caster<T>::reg` for the bytes `byte[0..sizeofT)`. -/
def casterReg (byte : Mem) : Nat → Nat
  | 0 => 0
  | n + 1 => casterReg byte n + byte n <<< (8 * n)

/-- The loop of `switchEndian<T>`: `n` iterations remain, `e` is the counter,
`a` and `b` are the byte views of the two `Caster` unions. -/
def switchEndianLoop (sizeofT : Nat) : Nat → Nat → Mem → Mem → Mem
  | 0, _, _, b => b
  | n + 1, e, a, b =>
    let temp := a e
    let a1 := setByte a e (b (sizeofT - 1 - e))
    let b1 := setByte b (sizeofT - 1 - e) temp
    switchEndianLoop sizeofT n (e + 1) a1 b1

/-- `switchEndian<T>( in )`; `b` is the uninitialised content of the local
union `b`. -/
def switchEndian (sizeofT : Nat) (b : Mem) (x : Nat) : Nat :=
  casterReg (switchEndianLoop sizeofT sizeofT 0 (fun e => casterByte x e) b) sizeofT

/-! ## The program -/

/-- The global configuration variables `poly` and `fillment`, as set by the
`-p` and `-f` flags. -/
structure Config where
  poly : Nat
  fillment : Nat
  deriving DecidableEq, Repr

/-- The initial values of the globals: `poly = 0x04C11DB7`, `fillment = 0xFFFF`. -/
def defaultConfig : Config := { poly := 0x04C11DB7, fillment := 0xFFFF }

/-- The local variables of `main` that the processing loop uses. -/
structure MainState where
  lineASCII : Mem
  lineInteger : Mem
  currentAddress : Nat
  firstAddress : Nat
  extAddrInitDone : Bool
  baseAddrInitDone : Bool
  pgmData : Mem
  pgmDataIdx : Nat
  lineCnt : Nat
  result : Nat
  ret : Int

/-- State at the start of the read loop; the three arrays are uninitialised
locals, their contents are parameters. -/
def initialState (lineASCII lineInteger pgmData : Mem) : MainState :=
  { lineASCII := lineASCII, lineInteger := lineInteger,
    currentAddress := 0, firstAddress := 0,
    extAddrInitDone := false, baseAddrInitDone := false,
    pgmData := pgmData, pgmDataIdx := 0,
    lineCnt := 0xFFFFFFFF, result := 0xFFFFFFFF, ret := success }

/-- How one pass of the read loop body ends. -/
inductive Control where
  | next
  | stop
  | abort
  deriving DecidableEq, Repr

/-- The gap loop `while( firstAddress.word + pgmDataIdx < currentAddress.word )`.
`room` is `pgmDataSize - pgmDataIdx`, the number of elements of `pgmData` from
`pgmDataIdx` on: with no room left the store is outside the array. -/
def gapFillLoop (firstAddress currentAddress : Nat) :
    Nat → Mem → Nat → Bool → Except Fault (Mem × Nat × Bool)
  | room, pgmData, idx, filledGap =>
    if (firstAddress + idx) % 2 ^ 32 < currentAddress then
      match room with
      | 0 => .error (Fault.pgmDataOutOfBounds idx)
      | r + 1 =>
        gapFillLoop firstAddress currentAddress r (setByte pgmData idx 0xFF) (idx + 1) true
    else .ok (pgmData, idx, filledGap)

/-- The copy loop `for( uint8_t c=0; c<lineInteger.byteCount; c++ )`: `n`
iterations remain, `c` is the counter. -/
def copyLoop (lineInteger : Mem) : Nat → Nat → Mem → Nat → Except Fault (Mem × Nat)
  | 0, _, pgmData, idx => .ok (pgmData, idx)
  | n + 1, c, pgmData, idx =>
    match readBin lineInteger (binData + c) with
    | .error f => .error f
    | .ok v =>
      match writeAt pgmDataSize Fault.pgmDataOutOfBounds pgmData idx v with
      | .error f => .error f
      | .ok pgmData1 => copyLoop lineInteger n (c + 1) pgmData1 (idx + 1)

/-- The part of the read loop body after the address records: fill the gap,
then copy the payload of a data record. -/
def fillAndCopy (s : MainState) : Except Fault (Control × MainState) :=
  match gapFillLoop s.firstAddress s.currentAddress (pgmDataSize - s.pgmDataIdx)
      s.pgmData s.pgmDataIdx false with
  | .error f => .error f
  | .ok (pgmData, idx, _) =>
    if s.lineInteger binRecordType = addr16bitAndData then
      match copyLoop s.lineInteger (s.lineInteger binByteCount) 0 pgmData idx with
      | .error f => .error f
      | .ok (pgmData1, idx1) => .ok (Control.next, { s with pgmData := pgmData1, pgmDataIdx := idx1 })
    else .ok (Control.next, { s with pgmData := pgmData, pgmDataIdx := idx })

/-- The read loop body after `getline` and `lineCnt++`. -/
def lineBody (s : MainState) : Except Fault (Control × MainState) :=
  match convertToBinary s.lineASCII s.lineInteger with
  | .error f => .error f
  | .ok (false, bin) => .ok (Control.abort, { s with lineInteger := bin, ret := lineCRCerr })
  | .ok (true, bin) =>
    let s := { s with lineInteger := bin }
    let recordType := bin binRecordType
    if recordType = endOfFile then .ok (Control.stop, s)
    else if recordType = start20bit then .ok (Control.next, s)
    else if recordType = start32bit then .ok (Control.next, s)
    else if recordType = addr16bitAndData then
      let s := { s with currentAddress := setBase s.currentAddress (addressHalf bin) }
      let s := if !s.baseAddrInitDone then
          { s with firstAddress := setBase s.firstAddress (addressHalf bin),
                   baseAddrInitDone := true }
        else s
      fillAndCopy s
    else if recordType = addr20bit then
      .ok (Control.stop, { s with ret := unsupportedFeature })
    else if recordType = addr32bit then
      let ext := (bin (binData + 0) <<< 8) ||| bin (binData + 1)
      let s := { s with currentAddress := setExt32bit s.currentAddress ext }
      let s := if !s.extAddrInitDone then
          { s with firstAddress := setExt32bit s.firstAddress ext, extAddrInitDone := true }
        else s
      .ok (Control.next, s)
    else fillAndCopy s

/-- The read loop `while( inputFile.getline( lineASCII.array, sizeof(IntelHexASCII) ) )`
over the lines of the input file.  `getline` fails, and the loop ends, at the
end of the input and at a line of more than 43 characters.  The flag of the
result tells whether `goto end` was taken. -/
def readLoop : List (List Nat) → MainState → Except Fault (Bool × MainState)
  | [], s => .ok (false, s)
  | line :: rest, s =>
    if line.length < asciiSize then
      let s := { s with lineASCII := loadLine s.lineASCII line,
                        lineCnt := (s.lineCnt + 1) % 2 ^ 32 }
      match lineBody s with
      | .error f => .error f
      | .ok (Control.next, s1) => readLoop rest s1
      | .ok (Control.stop, s1) => .ok (false, s1)
      | .ok (Control.abort, s1) => .ok (true, s1)
    else .ok (false, s)

/-- The padding loop `for( uint8_t x=0; x<pgmDataIdx%4; x++ )`.  `n` is
`4 - x`: at `x = 4` the condition `x < pgmDataIdx%4` is false. -/
def alignLoop : Nat → Nat → Mem → Nat → Except Fault (Mem × Nat)
  | 0, _, pgmData, idx => .ok (pgmData, idx)
  | n + 1, x, pgmData, idx =>
    if x < idx % 4 then
      match writeAt pgmDataSize Fault.pgmDataOutOfBounds pgmData idx 0xFF with
      | .error f => .error f
      | .ok pgmData1 => alignLoop n (x + 1) pgmData1 (idx + 1)
    else .ok (pgmData, idx)

/-- The step "Fill array to multiple of 4". -/
def alignImage (s : MainState) : Except Fault MainState :=
  if s.pgmDataIdx % 4 ≠ 0 then
    match alignLoop 4 0 s.pgmData s.pgmDataIdx with
    | .error f => .error f
    | .ok (pgmData, idx) => .ok { s with pgmData := pgmData, pgmDataIdx := idx }
  else .ok s

/-- The word `pgmData[i+3]<<24 | pgmData[i+2]<<16 | pgmData[i+1]<<8 | pgmData[i+0]`
as a `uint32_t`. -/
def leWord (pgmData : Mem) (i : Nat) : Nat :=
  ((pgmData (i + 3) <<< 24) ||| (pgmData (i + 2) <<< 16) ||| (pgmData (i + 1) <<< 8)
    ||| pgmData (i + 0)) % 2 ^ 32

/-- The loop `for( uint32_t i=0; i<pgmDataIdx-4; i+=4 )` with `bound` the
`uint32_t` value of `pgmDataIdx-4`.  `words` is the number of whole words of
`pgmData` from offset `i` on: with none left the read is outside the array. -/
def crcLoop (poly : Nat) (pgmData : Mem) (bound : Nat) : Nat → Nat → Nat → Except Fault Nat
  | words, i, result =>
    if i < bound then
      match words with
      | 0 => .error (Fault.pgmDataOutOfBounds (i + 3))
      | w + 1 =>
        match readAt pgmDataSize Fault.pgmDataOutOfBounds pgmData (i + 3) with
        | .error f => .error f
        | .ok _ =>
          crcLoop poly pgmData bound w ((i + 4) % 2 ^ 32)
            (calculateDataCRC poly result (leWord pgmData i))
    else .ok result

/-- The steps "Calculate CRC from array" and "Write CRC result to last 4
bytes". -/
def crcAndPatch (cfg : Config) (s : MainState) : Except Fault MainState :=
  match crcLoop cfg.poly s.pgmData ((2 ^ 32 + s.pgmDataIdx - 4) % 2 ^ 32)
      (pgmDataSize / 4) 0 s.result with
  | .error f => .error f
  | .ok result =>
    let wr := writeAt pgmDataSize Fault.pgmDataOutOfBounds
    match wr s.pgmData ((2 ^ 32 + s.pgmDataIdx - 4) % 2 ^ 32) (casterByte result 0) with
    | .error f => .error f
    | .ok m =>
    match wr m ((2 ^ 32 + s.pgmDataIdx - 3) % 2 ^ 32) (casterByte result 1) with
    | .error f => .error f
    | .ok m =>
    match wr m ((2 ^ 32 + s.pgmDataIdx - 2) % 2 ^ 32) (casterByte result 2) with
    | .error f => .error f
    | .ok m =>
    match wr m ((2 ^ 32 + s.pgmDataIdx - 1) % 2 ^ 32) (casterByte result 3) with
    | .error f => .error f
    | .ok m => .ok { s with pgmData := m, result := result }

/-- The program from the read loop to the patched image.  The flag of the
result tells whether the CRC steps were reached; without them the state is
the one at `goto end`. -/
def mainRun (cfg : Config) (lines : List (List Nat)) (s0 : MainState) :
    Except Fault (Bool × MainState) :=
  match readLoop lines s0 with
  | .error f => .error f
  | .ok (true, s) => .ok (false, s)
  | .ok (false, s) =>
    if s.ret = unsupportedFeature then .ok (false, s)
    else
      match alignImage s with
      | .error f => .error f
      | .ok s1 =>
        match crcAndPatch cfg s1 with
        | .error f => .error f
        | .ok s2 => .ok (true, s2)

/-! ## The re-encoder

The block "Write data to file" of `main`, after the output file was opened.
The lines written to `outputFile` are collected in a list, each without its
`'\n'`. -/

/-- Assignment to a `uint16_t` member at byte offset `off` of a packed union
(little-endian host). -/
def setHalf (bin : Mem) (off v : Nat) : Mem :=
  setByte (setByte bin off (v % 256)) (off + 1) (v / 256 % 256)

/-- Value of a `uint16_t` member at byte offset `off`. -/
def getHalf (bin : Mem) (off : Nat) : Nat := bin off + 256 * bin (off + 1)

/-- The local variables `w`, `iha`, `ihb`, `wrtAddr`, `bytes` and
`writeExtAddr` of the block, and the lines written so far. -/
structure WriterState where
  w : Nat
  iha : Mem
  ihb : Mem
  wrtAddr : Nat
  bytes : Nat
  writeExtAddr : Bool
  output : List (List Nat)

/-- `convertToText( &ihb, &iha ); outputFile << iha.array << '\n';` -/
def writeRecord (t : WriterState) : Except Fault WriterState :=
  match convertToText t.ihb t.iha with
  | .error f => .error f
  | .ok iha =>
    match asciiText iha with
    | .error f => .error f
    | .ok text => .ok { t with iha := iha, output := t.output ++ [text] }

/-- The branch `RecordType::endOfFile` up to its `break`. -/
def writeEndOfFile (t : WriterState) : Except Fault WriterState :=
  let ihb := setByte t.ihb binByteCount 0
  let ihb := setHalf ihb binAddress0 0
  let ihb := setByte ihb binRecordType endOfFile
  writeRecord { t with ihb := ihb }

/-- The branch `RecordType::addr32bit`; `junk` is the uninitialised content
of the local union `b` of `switchEndian`. -/
def writeExtendedAddress (firstAddress : Nat) (junk : Mem) (t : WriterState) :
    Except Fault WriterState :=
  let ihb := setByte t.ihb binByteCount 2
  let ihb := setHalf ihb binAddress0 0
  let ihb := setByte ihb binRecordType addr32bit
  let wrtAddr := (firstAddress + t.w) % 2 ^ 32
  let ihb := setHalf ihb binData (addrExt32bit wrtAddr)
  let ihb := setHalf ihb binData (switchEndian 2 junk (getHalf ihb binData))
  match writeRecord { t with ihb := ihb, wrtAddr := wrtAddr } with
  | .error f => .error f
  | .ok t1 => .ok { t1 with writeExtAddr := false }

/-- The loop `for( uint8_t n=0; n<bytes; n++ ) ihb.data.byte[n] = pgmData[w+n];`:
`k` iterations remain, `n` is the counter. -/
def payloadLoop (pgmData : Mem) (w : Nat) : Nat → Nat → Mem → Except Fault Mem
  | 0, _, ihb => .ok ihb
  | k + 1, n, ihb =>
    match readAt pgmDataSize Fault.pgmDataOutOfBounds pgmData ((w + n) % 2 ^ 32) with
    | .error f => .error f
    | .ok v =>
      match writeBin ihb (binData + n) v with
      | .error f => .error f
      | .ok ihb1 => payloadLoop pgmData w k (n + 1) ihb1

/-- The branch `RecordType::addr16bitAndData` with the update of `w` and
`writeExtAddr` that follows it. -/
def writeData (pgmData : Mem) (pgmDataIdx firstAddress : Nat) (t : WriterState) :
    Except Fault WriterState :=
  let bytes := if (t.w + 16) % 2 ^ 32 ≤ pgmDataIdx then 16
    else (2 ^ 32 + pgmDataIdx % 256 - t.w) % 2 ^ 32 % 256
  let ihb := setByte t.ihb binByteCount bytes
  let wrtAddr := (firstAddress + t.w) % 2 ^ 32
  let ihb := setHalf ihb binAddress0 (addrBase wrtAddr)
  let ihb := setByte ihb binRecordType addr16bitAndData
  match payloadLoop pgmData t.w bytes 0 ihb with
  | .error f => .error f
  | .ok ihb =>
    match writeRecord { t with ihb := ihb, wrtAddr := wrtAddr, bytes := bytes } with
    | .error f => .error f
    | .ok t1 =>
      let w := (t1.w + bytes) % 2 ^ 32
      let wrtAddr := (firstAddress + w) % 2 ^ 32
      .ok { t1 with w := w, wrtAddr := wrtAddr,
                    writeExtAddr := if addrBase wrtAddr = 0 then true else t1.writeExtAddr }

/-- The loop `while( 1 )` of the block.  `fuel` bounds the number of passes:
`none` when it is used up before the `break`. -/
def writeLoop (pgmData : Mem) (pgmDataIdx firstAddress : Nat) (junk : Mem) :
    Nat → WriterState → Option (Except Fault WriterState)
  | 0, _ => none
  | fuel + 1, t =>
    if t.w ≥ pgmDataIdx then some (writeEndOfFile t)
    else
      match (if t.writeExtAddr then writeExtendedAddress firstAddress junk t else .ok t) with
      | .error f => some (.error f)
      | .ok t1 =>
        match writeData pgmData pgmDataIdx firstAddress t1 with
        | .error f => some (.error f)
        | .ok t2 => writeLoop pgmData pgmDataIdx firstAddress junk fuel t2

/-- The state of the block before the loop: `w = 0`, `writeExtAddr = true`,
the other locals uninitialised. -/
def writerStart (iha ihb : Mem) (wrtAddr bytes : Nat) : WriterState :=
  { w := 0, iha := iha, ihb := ihb, wrtAddr := wrtAddr, bytes := bytes,
    writeExtAddr := true, output := [] }

/-- The lines that the block writes for the image of the state `s`. -/
def reencode (s : MainState) (junk : Mem) (fuel : Nat) (t : WriterState) :
    Option (Except Fault (List (List Nat))) :=
  match writeLoop s.pgmData s.pgmDataIdx s.firstAddress junk fuel t with
  | none => none
  | some (.error f) => some (.error f)
  | some (.ok t1) => some (.ok t1.output)

/-- The program with the flag `-w`: the run, and after its CRC steps the
re-encoder; the result is the list of lines written to the output file, empty
when the run ends at `end` before. -/
def mainWrite (cfg : Config) (lines : List (List Nat)) (s0 : MainState) (junk : Mem)
    (fuel : Nat) (t : WriterState) : Option (Except Fault (List (List Nat))) :=
  match mainRun cfg lines s0 with
  | .error f => some (.error f)
  | .ok (false, _) => some (.ok [])
  | .ok (true, s) => reencode s junk fuel t

/-! ## Functions used to state the properties -/

/-- High hexadecimal digit character of a byte. -/
def hexHi (v : Nat) : Nat := hexChar (v >>> 4 &&& 0xF)
/-- Low hexadecimal digit character of a byte. -/
def hexLo (v : Nat) : Nat := hexChar (v &&& 0xF)

/-- Sum of the payload bytes `data.byte[d .. d+n)`. -/
def sumFrom (bin : Mem) : Nat → Nat → Nat
  | _, 0 => 0
  | d, n + 1 => bin (binData + d) + sumFrom bin (d + 1) n

/-- Sum of the fields that the line checksum covers. -/
def fieldSum (bin : Mem) : Nat :=
  bin binByteCount + bin binAddress0 + bin binAddress1 + bin binRecordType
    + sumFrom bin 0 (bin binByteCount)

/-- Two's complement modulo 256. -/
def twosComplement (total : Nat) : Nat := (256 - total % 256) % 256

/-- The buffer `out` holds the text of the record `bin`: the layout that
`convertToText` produces for a byte count of at most 16. -/
def TextOf (bin out : Mem) : Prop :=
  out 0 = 58 ∧ out 1 = hexHi (bin 0) ∧ out 2 = hexLo (bin 0) ∧
  out 3 = hexHi (bin 2) ∧ out 4 = hexLo (bin 2) ∧
  out 5 = hexHi (bin 1) ∧ out 6 = hexLo (bin 1) ∧
  out 7 = hexHi (bin 3) ∧ out 8 = hexLo (bin 3) ∧
  (∀ k, k < bin 0 →
    out (9 + 2 * k) = hexHi (bin (4 + k)) ∧ out (9 + 2 * k + 1) = hexLo (bin (4 + k))) ∧
  out (9 + 2 * bin 0) = hexHi (twosComplement (fieldSum bin)) ∧
  out (9 + 2 * bin 0 + 1) = hexLo (twosComplement (fieldSum bin)) ∧
  (∀ j, 11 + 2 * bin 0 ≤ j → j < 44 → out j = 0)

/-- The data record `:0200000048694D` as an `IntelHexBinary`. -/
def sampleRecord : Mem := fun j => [2, 0, 0, 0, 0x48, 0x69, 0, 0, 0, 0, 0, 0, 0, 0, 0, 0, 0, 0, 0, 0, 0x4D].getD j 0

/-- An array holding zero bytes. -/
def zeroMem : Mem := fun _ => 0

/-! ### Lines of text -/

/-- A hexadecimal digit as `charHex2uint` reads it: `0-9`, `A-F` or `a-f`. -/
def isHexDigit (c : Nat) : Bool := (hexVal c).isSome

/-- A hexadecimal digit as `uint2charHex` writes it: `0-9` or `A-F`. -/
def isUpperHexDigit (c : Nat) : Bool := (48 ≤ c && c ≤ 57) || (65 ≤ c && c ≤ 70)

/-- Value of a hexadecimal digit character. -/
def digitVal (c : Nat) : Nat := (hexVal c).getD 0

/-- Value of the two digit field at position `i` of a line. -/
def pairVal (l : List Nat) (i : Nat) : Nat :=
  16 * digitVal (l.getD i 0) + digitVal (l.getD (i + 1) 0)

/-- Sum of the values of `n` two digit fields from position `i` on. -/
def sumPairs (l : List Nat) : Nat → Nat → Nat
  | _, 0 => 0
  | i, n + 1 => pairVal l i + sumPairs l (i + 2) n

/-- The grammar `:BBAAAATT[DD...]CC` over the digit class `digit`: a colon,
digits only, byte count `BB` at most 16, exactly `2*BB` payload digits and
a checksum `CC` that is the two's complement of the sum of the bytes before
it. -/
def ValidLine (digit : Nat → Bool) (l : List Nat) : Prop :=
  l.getD 0 0 = 58 ∧
  (∀ i, i < l.length → 1 ≤ i → digit (l.getD i 0) = true) ∧
  pairVal l 1 ≤ 16 ∧
  l.length = 11 + 2 * pairVal l 1 ∧
  pairVal l (9 + 2 * pairVal l 1) = twosComplement (sumPairs l 1 (4 + pairVal l 1))

instance (digit : Nat → Bool) (l : List Nat) : Decidable (ValidLine digit l) := by
  unfold ValidLine; infer_instance

/-- Decode the line `l` and encode the decoded record again: the flag of
`convertToBinary` and the text that `convertToText` leaves in its buffer.
`lineASCII`, `lineInteger` and `iha` are the previous contents of the three
buffers. -/
def recodeLine (lineASCII lineInteger iha : Mem) (l : List Nat) :
    Except Fault (Bool × List Nat) :=
  match convertToBinary (loadLine lineASCII l) lineInteger with
  | .error f => .error f
  | .ok (accepted, bin) =>
    match convertToText bin iha with
    | .error f => .error f
    | .ok text =>
      match asciiText text with
      | .error f => .error f
      | .ok t => .ok (accepted, t)

/-- Sum of the `byteCount` payload bytes of a record. -/
def payloadSum (bin : Mem) : Nat :=
  ((List.range (bin binByteCount)).map (fun c => bin (binData + c))).sum

/-! ### The reference CRC-32 -/

/-- One step of a bit-serial CRC-32 register, most significant bit first and
not reflected: the bit leaving the register is compared with the message
bit, the register moves up by one place, and the polynomial is added when
the two bits differ. -/
def refCrcBit (p crc : Nat) (bit : Bool) : Nat :=
  let shifted := crc * 2 % 2 ^ 32
  if (crc.testBit 31 != bit) then shifted ^^^ p else shifted

/-- The bits of a byte, most significant first. -/
def byteBits (b : Nat) : List Bool :=
  [b.testBit 7, b.testBit 6, b.testBit 5, b.testBit 4,
   b.testBit 3, b.testBit 2, b.testBit 1, b.testBit 0]

/-- The bit-serial CRC register after the bytes of a stream, from the
register value `crc`. -/
def refCrcBytes (p : Nat) : Nat → List Nat → Nat
  | crc, [] => crc
  | crc, b :: bs => refCrcBytes p ((byteBits b).foldl (refCrcBit p) crc) bs

/-- The reference CRC-32 of a byte stream: polynomial `p`, initial value
`0xFFFFFFFF`, no final XOR. -/
def refCrc32 (p : Nat) (bytes : List Nat) : Nat := refCrcBytes p 0xFFFFFFFF bytes

/-- The fold `result = calculateDataCRC( result, temp )` over `n` words of an
image, from offset `i` on. -/
def crcWords (poly : Nat) (pgmData : Mem) : Nat → Nat → Nat → Nat
  | 0, _, result => result
  | n + 1, i, result =>
    crcWords poly pgmData n (i + 4) (calculateDataCRC poly result (leWord pgmData i))

/-- The byte stream of `n` words of an image from offset `i` on, each word
with its most significant byte first. -/
def msbFirstBytes (pgmData : Mem) : Nat → Nat → List Nat
  | 0, _ => []
  | n + 1, i =>
    pgmData (i + 3) :: pgmData (i + 2) :: pgmData (i + 1) :: pgmData (i + 0)
      :: msbFirstBytes pgmData n (i + 4)

/-- The message bits that `n` rounds of the register consume from the 32 bit
message word `m`, first to last. -/
def msgBits : Nat → Nat → List Bool
  | 0, _ => []
  | n + 1, m => m.testBit 31 :: msgBits n (m * 2 % 2 ^ 32)

/-- The message word after `n` rounds. -/
def msgRest : Nat → Nat → Nat
  | 0, m => m
  | n + 1, m => msgRest n (m * 2 % 2 ^ 32)

/-! ### The address tracker at a data record -/

/-- The value of `currentAddress.word` after the address of the data record `bin`
was taken: the linear address of the record. -/
def linearAfter (s : MainState) (bin : Mem) : Nat :=
  setBase s.currentAddress (addressHalf bin)

/-- The value of `firstAddress.word` after the data record `bin`: the base is
latched by the first data record. -/
def firstAfter (s : MainState) (bin : Mem) : Nat :=
  if s.baseAddrInitDone then s.firstAddress else setBase s.firstAddress (addressHalf bin)

/-- A state of the read loop in which the two bytes `48 69` were assembled at
address 0 and `getline` has stored the data record `:02001000AABB89`, two
bytes at address `0x0010`. -/
def gapState : MainState :=
  { lineASCII := loadLine zeroMem (strBytes ":02001000AABB89"),
    lineInteger := sampleRecord,
    currentAddress := 0, firstAddress := 0,
    extAddrInitDone := false, baseAddrInitDone := true,
    pgmData := setByte (setByte zeroMem 0 0x48) 1 0x69, pgmDataIdx := 2,
    lineCnt := 1, result := 0xFFFFFFFF, ret := success }

/-- A state of the read loop in which two bytes were assembled at address
`0x0000FFF0` and `getline` has stored the extended-linear-address record
`:020000040010EA`. -/
def extState : MainState :=
  { lineASCII := loadLine zeroMem (strBytes ":020000040010EA"),
    lineInteger := sampleRecord,
    currentAddress := 0xFFF0, firstAddress := 0xFFF0,
    extAddrInitDone := false, baseAddrInitDone := true,
    pgmData := setByte (setByte zeroMem 0 0x48) 1 0x69, pgmDataIdx := 2,
    lineCnt := 1, result := 0xFFFFFFFF, ret := success }

/-! ### The CRC step with the offsets of the checksum bytes as parameters -/

/-- The body of `crcAndPatch` with the loop bound `i4`, which is also the
offset of the first checksum byte, and the offsets `i3`, `i2`, `i1` of the
other three as parameters. -/
def patchAt (poly : Nat) (s : MainState) (i4 i3 i2 i1 : Nat) : Except Fault MainState :=
  match crcLoop poly s.pgmData i4 (pgmDataSize / 4) 0 s.result with
  | .error f => .error f
  | .ok result =>
    let wr := writeAt pgmDataSize Fault.pgmDataOutOfBounds
    match wr s.pgmData i4 (casterByte result 0) with
    | .error f => .error f
    | .ok m =>
    match wr m i3 (casterByte result 1) with
    | .error f => .error f
    | .ok m =>
    match wr m i2 (casterByte result 2) with
    | .error f => .error f
    | .ok m =>
    match wr m i1 (casterByte result 3) with
    | .error f => .error f
    | .ok m => .ok { s with pgmData := m, result := result }

/-! ### The read loop, line by line -/

/-- The state in which the read loop body runs for the line `l`: `getline`
has stored the line and `lineCnt` was incremented. -/
def afterGetline (s : MainState) (l : List Nat) : MainState :=
  { s with lineASCII := loadLine s.lineASCII l, lineCnt := (s.lineCnt + 1) % 2 ^ 32 }

/-- The address field `AAAA` of a line, high byte first. -/
def lineAddr (l : List Nat) : Nat := pairVal l 5 + 256 * pairVal l 3

/-- The linear address of the data line `l` in the state `s`. -/
def lineLinear (s : MainState) (l : List Nat) : Nat := setBase s.currentAddress (lineAddr l)

/-- The first address after the data line `l` in the state `s`. -/
def lineFirst (s : MainState) (l : List Nat) : Nat :=
  if s.baseAddrInitDone then s.firstAddress else setBase s.firstAddress (lineAddr l)

/-- The extension that the first two payload bytes of a line carry, high
byte first. -/
def lineExt (l : List Nat) : Nat := (pairVal l 9 <<< 8) ||| pairVal l 11

/-- The state in which the read loop has consumed `lines`, every one of them
ending its pass of the loop body with the next `getline` (no `break`, no
`goto end`); `none` when some line ends the loop. -/
def readPrefix : List (List Nat) → MainState → Option MainState
  | [], s => some s
  | l :: rest, s =>
    if l.length < asciiSize then
      match lineBody (afterGetline s l) with
      | .ok (Control.next, s1) => readPrefix rest s1
      | _ => none
    else none

/-! ### Lines of text as the encoder writes them -/

/-- The hexadecimal digit character of a value below 16: `0`-`9`, `A`-`F`. -/
def digitChar (d : Nat) : Nat := if d < 10 then 48 + d else 55 + d

/-- Two hexadecimal digits for every byte of a list, the high digit first. -/
def hexDigits : List Nat → List Nat
  | [] => []
  | v :: vs => digitChar (v / 16) :: digitChar (v % 16) :: hexDigits vs

/-- The text of a record: `:`, then two digits each for the byte count, the
high byte of the address, the low byte of the address, the record type, the
payload bytes in order and the checksum. -/
def recordText (count address type : Nat) (payload : List Nat) (checksum : Nat) : List Nat :=
  58 :: hexDigits (count :: address / 256 :: address % 256 :: type :: (payload ++ [checksum]))

/-- The payload bytes `data.byte[0 .. byteCount)` of a record. -/
def payloadOf (bin : Mem) : List Nat :=
  (List.range (bin binByteCount)).map (fun c => bin (binData + c))

/-! ### The record stream of the re-encoder -/

/-- The checksum of a line: the two's complement of the sum of its bytes. -/
def lineChecksum (count address type : Nat) (payload : List Nat) : Nat :=
  twosComplement (count + address / 256 + address % 256 + type + payload.sum)

/-- The data record number `k` of an image of `n` bytes with first address
`first`: `min(16, n - 16k)` bytes from offset `16k` on, at the low 16 bits of
`first + 16k`. -/
def dataLine (pgmData : Mem) (first n k : Nat) : List Nat :=
  recordText (min 16 (n - 16 * k)) ((first + 16 * k) % 65536) 0
    ((List.range (min 16 (n - 16 * k))).map (fun c => pgmData (16 * k + c)))
    (lineChecksum (min 16 (n - 16 * k)) ((first + 16 * k) % 65536) 0
      ((List.range (min 16 (n - 16 * k))).map (fun c => pgmData (16 * k + c))))

/-- The extended-linear-address record for the extension `e`, high byte
first. -/
def extLine (e : Nat) : List Nat :=
  recordText 2 0 4 [e / 256, e % 256] (lineChecksum 2 0 4 [e / 256, e % 256])

/-- The end-of-file record. -/
def eofLine : List Nat := strBytes ":00000001FF"

/-- The record type of a line is `00`. -/
def isDataLine (l : List Nat) : Bool := l.getD 7 0 == 48 && l.getD 8 0 == 48

/-- The lines that the re-encoder writes before the end-of-file record, from
data record `k` on, `r` data records remaining; `ext` is the value of
`writeExtAddr`. -/
def emittedBody (pgmData : Mem) (first n : Nat) : Nat → Nat → Bool → List (List Nat)
  | 0, _, _ => []
  | r + 1, k, ext =>
    (if ext then [extLine (addrExt32bit ((first + 16 * k) % 2 ^ 32))] else [])
      ++ dataLine pgmData first n k
        :: emittedBody pgmData first n r (k + 1)
            (decide (addrBase ((first + (16 * k + min 16 (n - 16 * k))) % 2 ^ 32) = 0))

/-- An image of twenty zero bytes at first address 0. -/
def sampleImage : MainState :=
  { initialState zeroMem zeroMem zeroMem with pgmDataIdx := 20 }

/-! ## The record codec -/

@[simp] theorem setByte_apply (m : Mem) (i v j : Nat) :
    setByte m i v j = if j = i then v else m j := rfl

theorem setByte_same (m : Mem) (i v : Nat) : setByte m i v i = v := by
  simp

theorem setByte_other (m : Mem) (i v j : Nat) (h : j ≠ i) : setByte m i v j = m j := by
  simp [h]

theorem hexVal_lt (c d : Nat) (h : hexVal c = some d) : d < 16 := by
  unfold hexVal at h
  split_ifs at h <;> simp at h <;> omega

theorem hexVal_hexChar : ∀ m, m < 16 → hexVal (hexChar m) = some m := by decide

theorem nibbles_join : ∀ v, v < 256 →
    (((v >>> 4 &&& 0xF) <<< 4) % 2 ^ (8 * 1)) ||| (v &&& 0xF) = v := by decide!

theorem nibbles_value : ∀ d0, d0 < 16 → ∀ d1, d1 < 16 →
    ((d0 <<< 4) % 2 ^ (8 * 1)) ||| d1 = 16 * d0 + d1 := by decide!

theorem charHex2uint8_eq (ascii : Mem) (off : Nat) :
    charHex2uint8 ascii off =
      if off < 44 then
        match hexVal (ascii off) with
        | none => .ok 0
        | some d0 =>
          if off + 1 < 44 then
            match hexVal (ascii (off + 1)) with
            | none => .ok ((d0 <<< 4) % 2 ^ (8 * 1))
            | some d1 => .ok (((d0 <<< 4) % 2 ^ (8 * 1)) ||| d1)
          else .error (Fault.asciiOutOfBounds (off + 1))
      else .error (Fault.asciiOutOfBounds off) := by
  have h2 : (1 : Nat) <<< 1 = 2 := rfl
  unfold charHex2uint8 charHex2uint
  rw [h2]
  simp only [charHex2uintLoop, readAscii, readAt, asciiSize, Nat.add_zero, Nat.zero_shiftLeft,
    Nat.zero_mod, Nat.zero_or, Nat.zero_add]
  by_cases h1 : off < 44
  · by_cases h3 : off + 1 < 44
    · cases h : hexVal (ascii off) <;> cases h' : hexVal (ascii (off + 1)) <;> simp [h1, h3, h, h']
    · cases h : hexVal (ascii off) <;> simp [h1, h3, h]
  · simp [h1]

theorem uint2charHex8_eq (val : Nat) (ascii : Mem) (off : Nat) :
    uint2charHex8 val ascii off =
      if off + 1 < 44 then
        .ok (setByte (setByte ascii (off + 1) (hexChar (val &&& 0xF))) off
          (hexChar (val >>> 4 &&& 0xF)))
      else .error (Fault.asciiOutOfBounds (off + 1)) := by
  unfold uint2charHex8 uint2charHex
  simp only [uint2charHexLoop, writeAscii, writeAt, asciiSize]
  by_cases h1 : off + 1 < 44
  · have h0 : off < 44 := by omega
    simp [h1, h0]
  · simp [h1]

theorem charHex2uint8_hex (ascii : Mem) (off v : Nat) (hoff : off + 1 < 44) (hv : v < 256)
    (h0 : ascii off = hexHi v) (h1 : ascii (off + 1) = hexLo v) :
    charHex2uint8 ascii off = .ok v := by
  have a0 : hexVal (ascii off) = some (v >>> 4 &&& 0xF) := by
    rw [h0]; exact hexVal_hexChar _ (by
      have := @Nat.and_le_right (v >>> 4) 0xF; omega)
  have a1 : hexVal (ascii (off + 1)) = some (v &&& 0xF) := by
    rw [h1]; exact hexVal_hexChar _ (by
      have := @Nat.and_le_right v 0xF; omega)
  have hlt : off < 44 := by omega
  rw [charHex2uint8_eq]
  simp only [hlt, hoff, if_true, a0, a1]
  rw [nibbles_join v hv]

theorem convertToTextLoop_spec (bin : Mem) : ∀ n c ascii, c + n ≤ 17 →
    ∃ out, convertToTextLoop bin n c ascii = .ok out ∧
      (∀ j, (j < 9 + 2 * c ∨ 9 + 2 * (c + n) ≤ j) → out j = ascii j) ∧
      (∀ k, c ≤ k → k < c + n →
        out (9 + 2 * k) = hexHi (bin (4 + k)) ∧ out (9 + 2 * k + 1) = hexLo (bin (4 + k))) := by
  intro n
  induction n with
  | zero =>
    intro c ascii _
    exact ⟨ascii, rfl, fun _ _ => rfl, fun k h1 h2 => by omega⟩
  | succ n ih =>
    intro c ascii hc
    have hr : readBin bin (binData + c) = .ok (bin (4 + c)) := by
      have : 4 + c < 21 := by omega
      simp only [readBin, readAt, binData, binSize, this, if_true]
    have hw : asciiData + c * 2 + 1 < 44 := by simp [asciiData]; omega
    obtain ⟨out, ho, hframe, hval⟩ := ih (c + 1)
      (setByte (setByte ascii (asciiData + c * 2 + 1) (hexChar (bin (4 + c) &&& 0xF)))
        (asciiData + c * 2) (hexChar (bin (4 + c) >>> 4 &&& 0xF))) (by omega)
    refine ⟨out, ?_, ?_, ?_⟩
    · simp only [convertToTextLoop, hr, uint2charHex8_eq, hw, if_true]
      exact ho
    · intro j hj
      rw [hframe j (by omega)]
      simp only [asciiData]
      simp (disch := omega) only [setByte_other]
    · intro k hk1 hk2
      by_cases hkc : k = c
      · subst hkc
        rw [hframe _ (by omega), hframe _ (by omega)]
        simp only [setByte_apply, asciiData, hexHi, hexLo]
        constructor
        · rw [if_pos (by omega)]
        · rw [if_neg (by omega), if_pos (by omega)]
      · exact hval k (by omega) (by omega)

theorem calcIntelHexCRCLoop_eq (bin : Mem) : ∀ n d crc, d + n ≤ 17 →
    calcIntelHexCRCLoop bin n d crc = .ok (if n = 0 then crc else (crc + sumFrom bin d n) % 65536) := by
  intro n
  induction n with
  | zero => intro d crc _; rfl
  | succ n ih =>
    intro d crc hd
    have : 4 + d < 21 := by omega
    simp only [calcIntelHexCRCLoop, readBin, readAt, binData, binSize, this, if_true]
    rw [ih (d + 1) _ (by omega)]
    by_cases hn : n = 0
    · subst hn; simp [sumFrom, binData]
    · simp only [hn, if_false, Nat.succ_ne_zero, sumFrom, binData]
      congr 1
      omega

theorem calcIntelHexCRCLoop_bound (bin : Mem) : ∀ n d crc r,
    calcIntelHexCRCLoop bin n d crc = .ok r → n = 0 ∨ d + n ≤ 17 := by
  intro n
  induction n with
  | zero => intro d crc r _; exact Or.inl rfl
  | succ n ih =>
    intro d crc r h
    right
    simp only [calcIntelHexCRCLoop, readBin, readAt, binData, binSize] at h
    by_cases h4 : 4 + d < 21
    · simp only [h4, if_true] at h
      rcases ih _ _ _ h with h0 | h0
      · omega
      · omega
    · simp [h4] at h

theorem and_255 (x : Nat) : x &&& 0xFF = x % 256 := by
  have := Nat.and_pow_two_sub_one_eq_mod x 8
  simpa using this

theorem calcIntelHexCRC_eq (bin : Mem) (h : bin binByteCount ≤ 17) :
    calcIntelHexCRC bin = .ok (twosComplement (fieldSum bin)) := by
  unfold calcIntelHexCRC
  simp only []
  rw [calcIntelHexCRCLoop_eq bin _ 0 _ (by omega)]
  simp only [and_255, twosComplement, fieldSum]
  congr 1
  generalize bin binByteCount = bc
  generalize bin binAddress0 = a0
  generalize bin binAddress1 = a1
  generalize bin binRecordType = rt
  generalize hS : sumFrom bin 0 bc = S
  have hz : bc = 0 → S = 0 := by
    intro h0; subst h0; rw [← hS]; rfl
  have key : (if bc = 0 then ((((0 + bc) % 65536 + a0) % 65536 + a1) % 65536 + rt) % 65536
      else (((((0 + bc) % 65536 + a0) % 65536 + a1) % 65536 + rt) % 65536 + S) % 65536) % 256
      = (bc + a0 + a1 + rt + S) % 256 := by
    split_ifs with h0
    · have := hz h0; omega
    · omega
  rw [key]
  split_ifs <;> omega

theorem calcIntelHexCRC_bound (bin : Mem) (r : Nat) (h : calcIntelHexCRC bin = .ok r) :
    bin binByteCount ≤ 17 := by
  unfold calcIntelHexCRC at h
  simp only [] at h
  split at h
  · simp at h
  · rename_i crc hc
    rcases calcIntelHexCRCLoop_bound _ _ _ _ _ hc with h0 | h0
    · omega
    · omega

theorem sumFrom_congr (b1 b2 : Mem) : ∀ n d, (∀ k, d ≤ k → k < d + n → b1 (4 + k) = b2 (4 + k)) →
    sumFrom b1 d n = sumFrom b2 d n := by
  intro n
  induction n with
  | zero => intro d _; rfl
  | succ n ih =>
    intro d h
    simp only [sumFrom, binData]
    rw [h d (le_refl _) (by omega), ih (d + 1) (fun k h1 h2 => h k (by omega) (by omega))]

theorem fieldSum_congr (b1 b2 : Mem) (h0 : b1 0 = b2 0) (h1 : b1 1 = b2 1) (h2 : b1 2 = b2 2)
    (h3 : b1 3 = b2 3) (hd : ∀ k, k < b1 0 → b1 (4 + k) = b2 (4 + k)) :
    fieldSum b1 = fieldSum b2 := by
  simp only [fieldSum, binByteCount, binAddress0, binAddress1, binRecordType]
  rw [← h0, ← h1, ← h2, ← h3, sumFrom_congr b1 b2 (b1 0) 0 (fun k _ hk => hd k (by omega))]

theorem convertToBinaryLoop_spec (ascii : Mem) (val : Nat → Nat) : ∀ n c bin, c + n ≤ 17 →
    (∀ k, c ≤ k → k < c + n → charHex2uint8 ascii (9 + 2 * k) = .ok (val k)) →
    ∃ out, convertToBinaryLoop ascii n c bin = .ok out ∧
      (∀ j, (j < 4 + c ∨ 4 + c + n ≤ j) → out j = bin j) ∧
      (∀ k, c ≤ k → k < c + n → out (4 + k) = val k) := by
  intro n
  induction n with
  | zero =>
    intro c bin _ _
    exact ⟨bin, rfl, fun _ _ => rfl, fun k h1 h2 => by omega⟩
  | succ n ih =>
    intro c bin hc hv
    have hs : asciiData + (c <<< 1) = 9 + 2 * c := by
      simp only [asciiData, Nat.shiftLeft_eq]; omega
    have hlt : 4 + c < 21 := by omega
    obtain ⟨out, ho, hframe, hval⟩ := ih (c + 1) (setByte bin (4 + c) (val c)) (by omega)
      (fun k h1 h2 => hv k (by omega) (by omega))
    refine ⟨out, ?_, ?_, ?_⟩
    · simp only [convertToBinaryLoop, hs, hv c (le_refl _) (by omega), writeBin, writeAt, binData,
        binSize, hlt, if_true]
      exact ho
    · intro j hj
      rw [hframe j (by omega)]
      simp only [setByte_apply]
      rw [if_neg (by omega)]
    · intro k hk1 hk2
      by_cases hkc : k = c
      · subst hkc
        rw [hframe _ (by omega)]
        simp
      · exact hval k (by omega) (by omega)

theorem convertToBinaryLoop_inv (ascii : Mem) : ∀ n c bin out,
    convertToBinaryLoop ascii n c bin = .ok out →
    (n = 0 ∨ c + n ≤ 17) ∧ ∀ j, j < 4 + c → out j = bin j := by
  intro n
  induction n with
  | zero =>
    intro c bin out h
    simp only [convertToBinaryLoop, Except.ok.injEq] at h
    subst h
    exact ⟨Or.inl rfl, fun _ _ => rfl⟩
  | succ n ih =>
    intro c bin out h
    simp only [convertToBinaryLoop] at h
    split at h
    · simp at h
    · rename_i v hv
      simp only [writeBin, writeAt, binData, binSize] at h
      by_cases h4 : 4 + c < 21
      · simp only [h4, if_true] at h
        obtain ⟨hb, hf⟩ := ih _ _ _ h
        refine ⟨Or.inr (by omega), ?_⟩
        intro j hj
        rw [hf j (by omega)]
        simp only [setByte_apply]
        rw [if_neg (by omega)]
      · simp [h4] at h

/-- Forward description of `convertToBinary` on a line whose fields parse. -/
theorem convertToBinary_fields (ascii bin : Mem) (bc a0 a1 rt cs : Nat) (val : Nat → Nat)
    (hcolon : ascii 0 = 58) (hbc16 : bc ≤ 16)
    (hbc : charHex2uint8 ascii 1 = .ok bc) (ha1 : charHex2uint8 ascii 3 = .ok a1)
    (ha0 : charHex2uint8 ascii 5 = .ok a0) (hrt : charHex2uint8 ascii 7 = .ok rt)
    (hval : ∀ k, k < bc → charHex2uint8 ascii (9 + 2 * k) = .ok (val k))
    (hcs : charHex2uint8 ascii (9 + 2 * bc) = .ok cs) :
    ∃ out, convertToBinary ascii bin = .ok (decide (twosComplement (fieldSum out) = cs), out) ∧
      out 0 = bc ∧ out 1 = a0 ∧ out 2 = a1 ∧ out 3 = rt ∧ (∀ k, k < bc → out (4 + k) = val k) ∧
      out 20 = cs ∧ (∀ j, 4 + bc ≤ j → j ≠ 20 → out j = bin j) := by
  obtain ⟨b4, hb4, hframe, hvals⟩ := convertToBinaryLoop_spec ascii val bc 0
    (setByte (setByte (setByte (setByte bin 0 bc) 1 a0) 2 a1) 3 rt) (by omega)
    (fun k _ hk => hval k (by omega))
  have hb40 : b4 0 = bc := by rw [hframe 0 (by omega)]; simp
  have hcs' : (if b4 binByteCount = 16 then charHex2uint8 ascii asciiChecksum
      else charHex2uint8 ascii (asciiData + (b4 binByteCount <<< 1))) = .ok cs := by
    simp only [binByteCount, hb40, asciiChecksum, asciiData, Nat.shiftLeft_eq]
    split_ifs with h16
    · rw [← hcs, h16]
    · rw [← hcs]; congr 1; omega
  have hcalc : calcIntelHexCRC (setByte b4 20 cs)
      = .ok (twosComplement (fieldSum (setByte b4 20 cs))) :=
    calcIntelHexCRC_eq _ (by simp [binByteCount, hb40]; omega)
  refine ⟨setByte b4 binChecksum cs, ?_, ?_, ?_, ?_, ?_, ?_, ?_, ?_⟩
  · unfold convertToBinary
    simp only [asciiColon, hcolon, ne_eq, not_true_eq_false, if_false, asciiByteCount, hbc,
      asciiAddress, ha0, ha1, asciiRecordType, hrt, binByteCount, binAddress0, binAddress1,
      binRecordType]
    have e0 : setByte (setByte (setByte (setByte bin 0 bc) 1 a0) 2 a1) 3 rt 0 = bc := by simp
    rw [e0, hb4]
    simp only [binByteCount] at hcs'
    simp only [hcs', binChecksum, hcalc]
    by_cases hE : twosComplement (fieldSum (setByte b4 20 cs)) = cs
    · simp [hE]
    · simp [hE]
  · simp [binChecksum, hb40]
  · simp only [binChecksum, setByte_apply]; rw [if_neg (by omega), hframe 1 (by omega)]; simp
  · simp only [binChecksum, setByte_apply]; rw [if_neg (by omega), hframe 2 (by omega)]; simp
  · simp only [binChecksum, setByte_apply]; rw [if_neg (by omega), hframe 3 (by omega)]; simp
  · intro k hk
    simp only [binChecksum, setByte_apply]
    rw [if_neg (by omega)]
    exact hvals k (by omega) (by omega)
  · simp [binChecksum]
  · intro j hj hj20
    simp only [binChecksum]
    rw [setByte_other _ _ _ _ hj20, hframe j (by omega)]
    simp (disch := omega) only [setByte_other]

theorem convertToText_spec (bin ascii : Mem) (hn : bin 0 ≤ 16) :
    ∃ out, convertToText bin ascii = .ok out ∧ TextOf bin out := by
  obtain ⟨L, hL, hframe, hval⟩ := convertToTextLoop_spec bin (bin 0) 0
    (setByte (setByte (setByte (setByte (setByte (setByte (setByte (setByte (setByte
      (fun s => if s < 44 then 0 else ascii s) 0 58)
      2 (hexLo (bin 0))) 1 (hexHi (bin 0)))
      6 (hexLo (bin 1))) 5 (hexHi (bin 1)))
      4 (hexLo (bin 2))) 3 (hexHi (bin 2)))
      8 (hexLo (bin 3))) 7 (hexHi (bin 3))) (by omega)
  have hcalc := calcIntelHexCRC_eq bin (by simp only [binByteCount]; omega)
  have hpre : convertToText bin ascii =
      (if bin 0 = 16 then
        .ok (setByte (setByte (setByte L 42 (hexLo (twosComplement (fieldSum bin)))) 41
          (hexHi (twosComplement (fieldSum bin)))) 43 0)
      else
        .ok (setByte (setByte (setByte L (9 + bin 0 * 2 + 1)
          (hexLo (twosComplement (fieldSum bin)))) (9 + bin 0 * 2)
          (hexHi (twosComplement (fieldSum bin)))) (9 + (bin 0 * 2 + 2)) 0)) := by
    unfold convertToText
    simp only [uint2charHex8_eq, asciiByteCount, asciiAddress, asciiRecordType, asciiColon,
      asciiSize, binByteCount, binAddress0, binAddress1, binRecordType,
      show (1 + 1 < 44) = True from by simp, show (3 + 2 + 1 < 44) = True from by simp,
      show (3 + 0 + 1 < 44) = True from by simp, show (7 + 1 < 44) = True from by simp, if_true,
      show (3 + 2 + 1) = 6 from rfl, show 3 + 2 = 5 from rfl, show 3 + 0 + 1 = 4 from rfl,
      show 3 + 0 = 3 from rfl, show 1 + 1 = 2 from rfl, show 7 + 1 = 8 from rfl]
    simp only [hexHi, hexLo, binByteCount] at hL hcalc
    simp only [hL, hcalc, asciiChecksum, asciiNewLine, asciiData, hexHi, hexLo]
    by_cases h16 : bin 0 = 16
    · simp only [h16, if_true, show (41 + 1 < 44) = True from by simp, show 41 + 1 = 42 from rfl]
    · have h1 : 9 + bin 0 * 2 + 1 < 44 := by omega
      have h2 : 9 + (bin 0 * 2 + 2) < 44 := by omega
      simp only [h16, if_false, h1, h2, if_true, writeAscii, writeAt, asciiSize]
  by_cases h16 : bin 0 = 16
  · refine ⟨setByte (setByte (setByte L 42 (hexLo (twosComplement (fieldSum bin)))) 41
      (hexHi (twosComplement (fieldSum bin)))) 43 0, by rw [hpre, if_pos h16], ?_⟩
    · have f : ∀ j, j < 9 → L j = _ := fun j hj => hframe j (Or.inl (by omega))
      refine ⟨?_, ?_, ?_, ?_, ?_, ?_, ?_, ?_, ?_, ?_, ?_, ?_, ?_⟩
      · simp [f 0, setByte_apply]
      · simp [f 1, setByte_apply]
      · simp [f 2, setByte_apply]
      · simp [f 3, setByte_apply]
      · simp [f 4, setByte_apply]
      · simp [f 5, setByte_apply]
      · simp [f 6, setByte_apply]
      · simp [f 7, setByte_apply]
      · simp [f 8, setByte_apply]
      · intro k hk
        have := hval k (by omega) (by omega)
        simp (disch := omega) only [setByte_other]
        exact this
      · simp [h16, setByte_apply]
      · simp [h16, setByte_apply]
      · intro j h1 h2
        have : j = 43 := by omega
        simp [this, setByte_apply]
  · refine ⟨setByte (setByte (setByte L (9 + bin 0 * 2 + 1) (hexLo (twosComplement (fieldSum bin))))
      (9 + bin 0 * 2) (hexHi (twosComplement (fieldSum bin)))) (9 + (bin 0 * 2 + 2)) 0,
      by rw [hpre, if_neg h16], ?_⟩
    · have f : ∀ j, j < 9 → L j = _ := fun j hj => hframe j (Or.inl (by omega))
      have g : ∀ j, j < 9 → (setByte (setByte (setByte L (9 + bin 0 * 2 + 1)
          (hexLo (twosComplement (fieldSum bin)))) (9 + bin 0 * 2)
          (hexHi (twosComplement (fieldSum bin)))) (9 + (bin 0 * 2 + 2)) 0) j = L j := by
        intro j hj
        simp (disch := omega) only [setByte_other]
      refine ⟨?_, ?_, ?_, ?_, ?_, ?_, ?_, ?_, ?_, ?_, ?_, ?_, ?_⟩
      · rw [g 0 (by omega), f 0 (by omega)]; simp [setByte_apply]
      · rw [g 1 (by omega), f 1 (by omega)]; simp [setByte_apply]
      · rw [g 2 (by omega), f 2 (by omega)]; simp [setByte_apply]
      · rw [g 3 (by omega), f 3 (by omega)]; simp [setByte_apply]
      · rw [g 4 (by omega), f 4 (by omega)]; simp [setByte_apply]
      · rw [g 5 (by omega), f 5 (by omega)]; simp [setByte_apply]
      · rw [g 6 (by omega), f 6 (by omega)]; simp [setByte_apply]
      · rw [g 7 (by omega), f 7 (by omega)]; simp [setByte_apply]
      · rw [g 8 (by omega), f 8 (by omega)]; simp [setByte_apply]
      · intro k hk
        have := hval k (by omega) (by omega)
        simp (disch := omega) only [setByte_other]
        exact this
      · simp only [setByte_apply]
        rw [if_neg (by omega), if_pos (by omega)]
      · simp only [setByte_apply]
        rw [if_neg (by omega), if_neg (by omega), if_pos (by omega)]
      · intro j h1 h2
        simp only [setByte_apply]
        by_cases hj : j = 9 + (bin 0 * 2 + 2)
        · rw [if_pos hj]
        · rw [if_neg hj, if_neg (by omega), if_neg (by omega), hframe j (Or.inr (by omega))]
          simp (disch := omega) only [setByte_other]
          exact if_pos h2

theorem twosComplement_lt (t : Nat) : twosComplement t < 256 := by
  unfold twosComplement; omega

/-- A buffer holding the text of a record of bytes decodes to that record. -/
theorem convertToBinary_of_TextOf (r text bin : Mem) (ht : TextOf r text)
    (hn : r 0 ≤ 16) (h1 : r 1 < 256) (h2 : r 2 < 256) (h3 : r 3 < 256)
    (hd : ∀ c, c < r 0 → r (4 + c) < 256) :
    ∃ out, convertToBinary text bin = .ok (true, out) ∧
      out 0 = r 0 ∧ out 1 = r 1 ∧ out 2 = r 2 ∧ out 3 = r 3 ∧
      (∀ c, c < r 0 → out (4 + c) = r (4 + c)) ∧
      out 20 = twosComplement (fieldSum r) ∧ (∀ j, 4 + r 0 ≤ j → j ≠ 20 → out j = bin j) := by
  obtain ⟨t0, t1, t2, t3, t4, t5, t6, t7, t8, td, tc0, tc1, _⟩ := ht
  obtain ⟨out, ho, o0, o1, o2, o3, od, o20, ofr⟩ := convertToBinary_fields text bin (r 0) (r 1) (r 2)
    (r 3) (twosComplement (fieldSum r)) (fun k => r (4 + k)) t0 hn
    (charHex2uint8_hex text 1 _ (by omega) (by omega) t1 t2)
    (charHex2uint8_hex text 3 _ (by omega) h2 t3 t4)
    (charHex2uint8_hex text 5 _ (by omega) h1 t5 t6)
    (charHex2uint8_hex text 7 _ (by omega) h3 t7 t8)
    (fun k hk => charHex2uint8_hex text _ _ (by omega) (hd k hk) (td k hk).1 (td k hk).2)
    (charHex2uint8_hex text _ _ (by omega) (twosComplement_lt _) tc0 tc1)
  have hfs : fieldSum out = fieldSum r :=
    fieldSum_congr out r o0 o1 o2 o3 (fun k hk => od k (by omega))
  rw [hfs] at ho
  simp only [decide_True] at ho
  exact ⟨out, ho, o0, o1, o2, o3, od, o20, ofr⟩

/-- C1. Round trip record → line → record: for every record `r` of bytes
with byte count at most 16 whose checksum field equals `calcIntelHexCRC r`,
`convertToText` succeeds and `convertToBinary` accepts its text, returning the
byte count, both address bytes, the record type, the payload bytes and the
checksum of `r`. -/
theorem roundtrip_record_text_record (r ascii bin : Mem)
    (hn : r binByteCount ≤ 16)
    (hlo : r binAddress0 < 256) (hhi : r binAddress1 < 256) (hty : r binRecordType < 256)
    (hdata : ∀ c, c < r binByteCount → r (binData + c) < 256)
    (hcs : calcIntelHexCRC r = .ok (r binChecksum)) :
    ∃ text out, convertToText r ascii = .ok text ∧ convertToBinary text bin = .ok (true, out) ∧
      out binByteCount = r binByteCount ∧
      out binAddress0 = r binAddress0 ∧ out binAddress1 = r binAddress1 ∧
      addressHalf out = addressHalf r ∧
      out binRecordType = r binRecordType ∧
      (∀ c, c < r binByteCount → out (binData + c) = r (binData + c)) ∧
      out binChecksum = r binChecksum := by
  simp only [binByteCount, binAddress0, binAddress1, binRecordType, binData, binChecksum,
    addressHalf] at *
  obtain ⟨text, htext, ht⟩ := convertToText_spec r ascii hn
  obtain ⟨out, ho, o0, o1, o2, o3, od, o20, -⟩ :=
    convertToBinary_of_TextOf r text bin ht hn hlo hhi hty hdata
  have hc := calcIntelHexCRC_eq r (by simp only [binByteCount]; omega)
  rw [hc] at hcs
  have hcs' : twosComplement (fieldSum r) = r 20 := by simpa using hcs
  exact ⟨text, out, htext, ho, o0, o1, o2, by rw [o1, o2], o3, od, by rw [o20, hcs']⟩

theorem roundtrip_record_text_record_witness :
    ∃ text out, convertToText sampleRecord zeroMem = .ok text ∧
      convertToBinary text zeroMem = .ok (true, out) ∧
      out binByteCount = sampleRecord binByteCount ∧
      out binAddress0 = sampleRecord binAddress0 ∧ out binAddress1 = sampleRecord binAddress1 ∧
      addressHalf out = addressHalf sampleRecord ∧
      out binRecordType = sampleRecord binRecordType ∧
      (∀ c, c < sampleRecord binByteCount → out (binData + c) = sampleRecord (binData + c)) ∧
      out binChecksum = sampleRecord binChecksum :=
  roundtrip_record_text_record sampleRecord zeroMem zeroMem (by decide) (by decide) (by decide)
    (by decide) (by decide) (by decide!)

/-! ### Round trip from text -/

theorem upper_digit : ∀ c, c < 71 → isUpperHexDigit c = true →
    (hexVal c = some (digitVal c) ∧ digitVal c < 16 ∧ hexChar (digitVal c) = c) := by decide!

theorem hex_of_nibbles : ∀ d0, d0 < 16 → ∀ d1, d1 < 16 →
    (hexHi (16 * d0 + d1) = hexChar d0 ∧ hexLo (16 * d0 + d1) = hexChar d1) := by decide!

theorem upper_pair (c0 c1 : Nat) (h0 : isUpperHexDigit c0 = true)
    (h1 : isUpperHexDigit c1 = true) :
    hexVal c0 = some (digitVal c0) ∧ hexVal c1 = some (digitVal c1) ∧
    digitVal c0 < 16 ∧ digitVal c1 < 16 ∧
    hexHi (16 * digitVal c0 + digitVal c1) = c0 ∧
    hexLo (16 * digitVal c0 + digitVal c1) = c1 := by
  have l0 : c0 < 71 := by simp [isUpperHexDigit] at h0; omega
  have l1 : c1 < 71 := by simp [isUpperHexDigit] at h1; omega
  obtain ⟨a0, b0, e0⟩ := upper_digit c0 l0 h0
  obtain ⟨a1, b1, e1⟩ := upper_digit c1 l1 h1
  obtain ⟨n0, n1⟩ := hex_of_nibbles _ b0 _ b1
  exact ⟨a0, a1, b0, b1, by rw [n0, e0], by rw [n1, e1]⟩

theorem isUpperHexDigit_lt (c : Nat) (h : isUpperHexDigit c = true) : c < 71 ∧ c ≠ 0 := by
  simp [isUpperHexDigit] at h
  omega

theorem loadLine_lt (buf : Mem) (l : List Nat) (i : Nat) (h : i < l.length) :
    loadLine buf l i = l.getD i 0 := by
  simp [loadLine, h]

theorem loadLine_length (buf : Mem) (l : List Nat) : loadLine buf l l.length = 0 := by
  simp [loadLine]

/-- A two digit field of upper case digits is read as its value. -/
theorem charHex2uint8_pair (buf : Mem) (l : List Nat) (p : Nat) (hp : 1 ≤ p)
    (hlen : p + 1 < l.length) (h44 : l.length ≤ 43)
    (hdig : ∀ i, i < l.length → 1 ≤ i → isUpperHexDigit (l.getD i 0) = true) :
    charHex2uint8 (loadLine buf l) p = .ok (pairVal l p) ∧ pairVal l p < 256 ∧
      hexHi (pairVal l p) = l.getD p 0 ∧ hexLo (pairVal l p) = l.getD (p + 1) 0 := by
  have d0 := hdig p (by omega) hp
  have d1 := hdig (p + 1) hlen (by omega)
  obtain ⟨v0, v1, b0, b1, r0, r1⟩ := upper_pair _ _ d0 d1
  refine ⟨?_, ?_, r0, r1⟩
  · rw [charHex2uint8_eq, loadLine_lt buf l p (by omega), loadLine_lt buf l (p + 1) hlen]
    have e1 : p < 44 := by omega
    have e2 : p + 1 < 44 := by omega
    simp only [e1, e2, if_true, v0, v1]
    rw [nibbles_value _ b0 _ b1]
    rfl
  · unfold pairVal; omega

theorem cString_eq (ascii : Mem) : ∀ (l : List Nat) (n i : Nat),
    (∀ k, k < l.length → ascii (i + k) = l.getD k 0 ∧ l.getD k 0 ≠ 0) →
    ascii (i + l.length) = 0 → l.length < n → cString ascii n i = .ok l := by
  intro l
  induction l with
  | nil =>
    intro n i _ h0 hn
    cases n with
    | zero => simp at hn
    | succ n => simp only [cString]; simp at h0; simp [h0]
  | cons c cs ih =>
    intro n i hk h0 hn
    cases n with
    | zero => simp at hn
    | succ n =>
      have hc := hk 0 (by simp)
      simp only [Nat.add_zero, List.getD_cons_zero] at hc
      have htail := ih n (i + 1) (fun k hk' => by
        have := hk (k + 1) (by simp; omega)
        simpa [Nat.add_assoc, Nat.add_comm 1 k] using this)
        (by simpa [Nat.add_assoc, Nat.add_comm 1] using h0) (by simp at hn; omega)
      simp only [cString, hc.1, hc.2, if_false, htail]

theorem sumFrom_eq_sumPairs (out : Mem) (l : List Nat) : ∀ n d,
    (∀ k, d ≤ k → k < d + n → out (4 + k) = pairVal l (9 + 2 * k)) →
    sumFrom out d n = sumPairs l (9 + 2 * d) n := by
  intro n
  induction n with
  | zero => intro d _; rfl
  | succ n ih =>
    intro d h
    simp only [sumFrom, sumPairs, binData]
    rw [h d (le_refl _) (by omega), ih (d + 1) (fun k h1 h2 => h k (by omega) (by omega))]
    rfl

theorem sumPairs_header (l : List Nat) (n : Nat) :
    sumPairs l 1 (4 + n) =
      pairVal l 1 + pairVal l 3 + pairVal l 5 + pairVal l 7 + sumPairs l 9 n := by
  have e : 4 + n = n + 1 + 1 + 1 + 1 := by omega
  rw [e]
  simp only [sumPairs, show 1 + 2 = 3 from rfl, show 3 + 2 = 5 from rfl, show 5 + 2 = 7 from rfl,
    show 7 + 2 = 9 from rfl]
  omega

/-- A line of the grammar with upper case digits is accepted, and the decoded
record holds the values of its fields. -/
theorem convertToBinary_validLine (l : List Nat) (hv : ValidLine isUpperHexDigit l)
    (lineASCII lineInteger : Mem) :
    ∃ out, convertToBinary (loadLine lineASCII l) lineInteger = .ok (true, out) ∧
      out 0 = pairVal l 1 ∧ out 1 = pairVal l 5 ∧ out 2 = pairVal l 3 ∧ out 3 = pairVal l 7 ∧
      (∀ k, k < pairVal l 1 → out (4 + k) = pairVal l (9 + 2 * k)) ∧
      out 20 = pairVal l (9 + 2 * pairVal l 1) ∧
      fieldSum out = sumPairs l 1 (4 + pairVal l 1) ∧
      (∀ j, 4 + pairVal l 1 ≤ j → j ≠ 20 → out j = lineInteger j) := by
  obtain ⟨hcolon, hdig, hn, hlen, hcs⟩ := hv
  have h43 : l.length ≤ 43 := by omega
  have P := fun p (hp : 1 ≤ p) (hlt : p + 1 < l.length) =>
    charHex2uint8_pair lineASCII l p hp hlt h43 hdig
  have hc0 : loadLine lineASCII l 0 = 58 := by
    rw [loadLine_lt _ _ _ (by omega)]; exact hcolon
  obtain ⟨out, ho, o0, o1, o2, o3, od, o20, ofr⟩ := convertToBinary_fields (loadLine lineASCII l)
    lineInteger (pairVal l 1) (pairVal l 5) (pairVal l 3) (pairVal l 7)
    (pairVal l (9 + 2 * pairVal l 1)) (fun k => pairVal l (9 + 2 * k)) hc0 hn
    (P 1 (by omega) (by omega)).1 (P 3 (by omega) (by omega)).1 (P 5 (by omega) (by omega)).1
    (P 7 (by omega) (by omega)).1 (fun k hk => (P (9 + 2 * k) (by omega) (by omega)).1)
    (P (9 + 2 * pairVal l 1) (by omega) (by omega)).1
  have hfs : fieldSum out = sumPairs l 1 (4 + pairVal l 1) := by
    rw [sumPairs_header]
    simp only [fieldSum, binByteCount, binAddress0, binAddress1, binRecordType]
    rw [o0, o1, o2, o3, sumFrom_eq_sumPairs out l (pairVal l 1) 0
      (fun k _ hk => od k (by omega))]
    simp only [Nat.mul_zero, Nat.add_zero]
    omega
  rw [hfs, ← hcs] at ho
  simp only [decide_True] at ho
  exact ⟨out, ho, o0, o1, o2, o3, od, o20, hfs, ofr⟩

/-- C2 (as amended). Round trip line → record → line: every line of the
grammar `:BBAAAATT[DD...]CC` written with the digits `0-9`, `A-F`, with
`BB ≤ 16`, exactly `2*BB` payload digits and a correct checksum is accepted
by `convertToBinary`, and `convertToText` of the decoded record writes the
same line, character for character. -/
theorem roundtrip_text_record_text (l : List Nat) (hv : ValidLine isUpperHexDigit l)
    (lineASCII lineInteger iha : Mem) :
    recodeLine lineASCII lineInteger iha l = .ok (true, l) := by
  obtain ⟨out, ho, o0, o1, o2, o3, od, o20, hfs, -⟩ :=
    convertToBinary_validLine l hv lineASCII lineInteger
  obtain ⟨hcolon, hdig, hn, hlen, hcs⟩ := hv
  have h43 : l.length ≤ 43 := by omega
  have P := fun p (hp : 1 ≤ p) (hlt : p + 1 < l.length) =>
    charHex2uint8_pair lineASCII l p hp hlt h43 hdig
  obtain ⟨text, htext, t0, t1, t2, t3, t4, t5, t6, t7, t8, td, tc0, tc1, tz⟩ :=
    convertToText_spec out iha (by rw [o0]; exact hn)
  rw [hfs, ← hcs] at tc0 tc1
  rw [o0] at t1 t2 td tc0 tc1 tz
  rw [o1] at t5 t6
  rw [o2] at t3 t4
  rw [o3] at t7 t8
  have hpt : ∀ k, k < l.length → text k = l.getD k 0 := by
    intro k hk
    by_cases h9 : k < 9
    · have Q1 := (P 1 (by omega) (by omega)).2.2
      have Q3 := (P 3 (by omega) (by omega)).2.2
      have Q5 := (P 5 (by omega) (by omega)).2.2
      have Q7 := (P 7 (by omega) (by omega)).2.2
      interval_cases k
      · rw [t0, hcolon]
      · rw [t1]; exact Q1.1
      · rw [t2]; exact Q1.2
      · rw [t3]; exact Q3.1
      · rw [t4]; exact Q3.2
      · rw [t5]; exact Q5.1
      · rw [t6]; exact Q5.2
      · rw [t7]; exact Q7.1
      · rw [t8]; exact Q7.2
    · by_cases hd : k < 9 + 2 * pairVal l 1
      · have hj : (k - 9) / 2 < pairVal l 1 := by omega
        have Q := (P (9 + 2 * ((k - 9) / 2)) (by omega) (by omega)).2.2
        have T := td _ hj
        rw [od _ hj] at T
        rcases Nat.mod_two_eq_zero_or_one (k - 9) with h2 | h2
        · have e : k = 9 + 2 * ((k - 9) / 2) := by omega
          rw [e, T.1]; exact Q.1
        · have e : k = 9 + 2 * ((k - 9) / 2) + 1 := by omega
          rw [e, T.2]; exact Q.2
      · have Q := (P (9 + 2 * pairVal l 1) (by omega) (by omega)).2.2
        by_cases he : k = 9 + 2 * pairVal l 1
        · rw [he, tc0]; exact Q.1
        · have e : k = 9 + 2 * pairVal l 1 + 1 := by omega
          rw [e, tc1]; exact Q.2
  have hnz : ∀ k, k < l.length → l.getD k 0 ≠ 0 := by
    intro k hk
    by_cases h0 : k = 0
    · rw [h0, hcolon]; decide
    · exact (isUpperHexDigit_lt _ (hdig k hk (by omega))).2
  have htxt : asciiText text = .ok l :=
    cString_eq text l 44 0 (fun k hk => by rw [Nat.zero_add]; exact ⟨hpt k hk, hnz k hk⟩)
      (by rw [Nat.zero_add]; exact tz _ (by omega) (by omega)) (by omega)
  unfold recodeLine
  simp only [ho, htext, htxt]

theorem roundtrip_text_record_text_witness :
    recodeLine zeroMem zeroMem zeroMem (strBytes ":0200000048694D")
      = .ok (true, strBytes ":0200000048694D") :=
  roundtrip_text_record_text (strBytes ":0200000048694D") (by decide!) zeroMem zeroMem zeroMem

/-- C2 (as stated) fails for lower case digits: the line `:0200000048694d`
is in the grammar with the hexadecimal digits that the decoder reads and is
accepted, but it is written back as `:0200000048694D`. -/
theorem roundtrip_text_lowercase_counterexample :
    ValidLine isHexDigit (strBytes ":0200000048694d") ∧
    recodeLine zeroMem zeroMem zeroMem (strBytes ":0200000048694d")
      = .ok (true, strBytes ":0200000048694D") ∧
    strBytes ":0200000048694D" ≠ strBytes ":0200000048694d" := by decide!

/-! ### The line checksum -/

theorem exists_of_map_fst {α β : Type} (r : Except Fault (α × β)) (a : α)
    (h : r.map Prod.fst = .ok a) : ∃ b, r = .ok (a, b) := by
  cases r with
  | error f => simp [Except.map] at h
  | ok p =>
    obtain ⟨x, y⟩ := p
    simp only [Except.map, Except.ok.injEq] at h
    exact ⟨y, by rw [← h]⟩

theorem sumFrom_eq_sum (bin : Mem) : ∀ n d,
    sumFrom bin d n = ((List.range n).map (fun c => bin (binData + (d + c)))).sum := by
  intro n
  induction n with
  | zero => intro d; rfl
  | succ n ih =>
    intro d
    rw [sumFrom, ih (d + 1), List.range_succ_eq_map]
    simp only [List.map_cons, List.sum_cons, List.map_map, Nat.add_zero]
    congr 2
    apply List.map_congr_left
    intro c _
    simp only [Function.comp, Nat.succ_eq_add_one]
    congr 1
    omega

theorem fieldSum_eq (bin : Mem) :
    fieldSum bin = bin binByteCount + bin binAddress0 + bin binAddress1 + bin binRecordType
      + payloadSum bin := by
  unfold fieldSum payloadSum
  rw [sumFrom_eq_sum]
  simp only [Nat.zero_add]

/-- What acceptance by `convertToBinary` means: a colon, a byte count that
keeps the accesses inside the record, and a checksum field equal to
`calcIntelHexCRC`. -/
theorem convertToBinary_accept (ascii bin out : Mem)
    (h : convertToBinary ascii bin = .ok (true, out)) :
    ascii asciiColon = 58 ∧ out binByteCount ≤ 17 ∧
      calcIntelHexCRC out = .ok (out binChecksum) := by
  unfold convertToBinary at h
  by_cases hc : ascii asciiColon = 58
  · simp only [hc, ne_eq, not_true_eq_false, if_false] at h
    split at h
    · simp at h
    · split at h
      · simp at h
      · split at h
        · simp at h
        · split at h
          · simp at h
          · split at h
            · simp at h
            · split at h
              · simp at h
              · split at h
                · simp at h
                · rename_i crc hcrc
                  rename_i b4 _ _ cs _ _
                  rw [setByte_same] at h
                  by_cases hne : crc = cs
                  · simp only [hne, ne_eq, not_true_eq_false, if_false, Except.ok.injEq,
                      Prod.mk.injEq, true_and] at h
                    rw [← h, setByte_same]
                    have hcrc' := hcrc
                    rw [hne] at hcrc'
                    exact ⟨hc, calcIntelHexCRC_bound _ _ hcrc, hcrc'⟩
                  · simp [hne] at h
  · simp [hc] at h

/-- C3. Checksum invariant: for every line that `convertToBinary` accepts,
the byte count, both address bytes, the record type, the `byteCount` payload
bytes and the checksum of the decoded record add up to 0 modulo 256, and
`calcIntelHexCRC` returns the two's complement modulo 256 of the sum of the
fields before the checksum, which is the checksum field. -/
theorem checksum_invariant (ascii bin out : Mem)
    (h : convertToBinary ascii bin = .ok (true, out)) :
    (out binByteCount + out binAddress1 + out binAddress0 + out binRecordType
      + payloadSum out + out binChecksum) % 256 = 0 ∧
    calcIntelHexCRC out = .ok (twosComplement (out binByteCount + out binAddress1
      + out binAddress0 + out binRecordType + payloadSum out)) ∧
    out binChecksum = twosComplement (out binByteCount + out binAddress1
      + out binAddress0 + out binRecordType + payloadSum out) := by
  obtain ⟨-, hn, hcalc⟩ := convertToBinary_accept ascii bin out h
  have heq := calcIntelHexCRC_eq out hn
  rw [fieldSum_eq] at heq
  have hE : out binByteCount + out binAddress1 + out binAddress0 + out binRecordType
      + payloadSum out = out binByteCount + out binAddress0 + out binAddress1
        + out binRecordType + payloadSum out := by omega
  rw [hE]
  have hcs : out binChecksum = twosComplement (out binByteCount + out binAddress0
      + out binAddress1 + out binRecordType + payloadSum out) := by
    rw [heq] at hcalc
    simpa using hcalc.symm
  refine ⟨?_, heq, hcs⟩
  rw [hcs]
  unfold twosComplement
  omega

theorem checksum_invariant_witness :
    ∃ out, convertToBinary (loadLine zeroMem (strBytes ":0200000048694D")) zeroMem
        = .ok (true, out) ∧
      (out binByteCount + out binAddress1 + out binAddress0 + out binRecordType
        + payloadSum out + out binChecksum) % 256 = 0 ∧
      calcIntelHexCRC out = .ok (twosComplement (out binByteCount + out binAddress1
        + out binAddress0 + out binRecordType + payloadSum out)) ∧
      out binChecksum = twosComplement (out binByteCount + out binAddress1
        + out binAddress0 + out binRecordType + payloadSum out) := by
  obtain ⟨out, ho⟩ := exists_of_map_fst
    (convertToBinary (loadLine zeroMem (strBytes ":0200000048694D")) zeroMem) true (by decide!)
  exact ⟨out, ho, checksum_invariant _ _ out ho⟩

/-! ### The CRC engine -/

theorem and_bit31 (x : Nat) : (x &&& (1 <<< 31) ≠ 0) ↔ x.testBit 31 = true := by
  rw [Nat.one_shiftLeft]
  constructor
  · intro h
    by_contra hb
    apply h
    apply Nat.eq_of_testBit_eq
    intro i
    simp only [Nat.testBit_and, Nat.testBit_two_pow, Nat.zero_testBit]
    by_cases hi : 31 = i
    · subst hi; simp [hb]
    · simp [hi]
  · intro hb h
    have := congrArg (fun z => Nat.testBit z 31) h
    simp only [Nat.testBit_and, Nat.testBit_two_pow_self, hb, Nat.zero_testBit] at this
    simp at this

theorem crcRound_eq (p x : Nat) :
    crcRound p x = if x.testBit 31 = true then (x * 2 % 2 ^ 32) ^^^ p else x * 2 % 2 ^ 32 := by
  unfold crcRound
  have e : x <<< 1 = x * 2 := by rw [Nat.shiftLeft_eq]
  rw [e]
  by_cases hb : x.testBit 31 = true
  · rw [if_pos ((and_bit31 x).2 hb), if_pos hb]
  · rw [if_neg (fun h => hb ((and_bit31 x).1 h)), if_neg hb]

theorem shift_xor (x m : Nat) :
    (x ^^^ m) * 2 % 2 ^ 32 = (x * 2 % 2 ^ 32) ^^^ (m * 2 % 2 ^ 32) := by
  apply Nat.eq_of_testBit_eq
  intro i
  have e : ∀ z : Nat, z * 2 = z <<< 1 := fun z => by rw [Nat.shiftLeft_eq]
  simp only [e, Nat.testBit_mod_two_pow, Nat.testBit_xor, Nat.testBit_shiftLeft]
  by_cases h1 : i < 32 <;> by_cases h2 : i ≥ 1 <;> simp [h1, h2]

/-- One round on `x ^^^ m` is one bit-serial step on `x` with the top bit of
`m` as message bit, with the rest of `m` moved up. -/
theorem crcRound_xor (p x m : Nat) :
    crcRound p (x ^^^ m) = refCrcBit p x (m.testBit 31) ^^^ (m * 2 % 2 ^ 32) := by
  rw [crcRound_eq, shift_xor]
  unfold refCrcBit
  simp only [Nat.testBit_xor]
  cases hx : x.testBit 31 <;> cases hm : m.testBit 31 <;> simp
  · rw [Nat.xor_assoc, Nat.xor_assoc, Nat.xor_comm p]
  · rw [Nat.xor_assoc, Nat.xor_assoc, Nat.xor_comm p]

theorem crcRounds_xor (p : Nat) : ∀ n x m,
    crcRounds p n (x ^^^ m) = (msgBits n m).foldl (refCrcBit p) x ^^^ msgRest n m := by
  intro n
  induction n with
  | zero => intro x m; rfl
  | succ n ih =>
    intro x m
    simp only [crcRounds, msgBits, msgRest, List.foldl_cons]
    rw [crcRound_xor, ih]

theorem msgRest_eq : ∀ n m, msgRest n m = m * 2 ^ n % 2 ^ 32 ∨ (n = 0 ∧ msgRest n m = m) := by
  intro n
  induction n with
  | zero => intro m; exact Or.inr ⟨rfl, rfl⟩
  | succ n ih =>
    intro m
    left
    simp only [msgRest]
    rcases ih (m * 2 % 2 ^ 32) with h | ⟨h0, h⟩
    · rw [h, Nat.mod_mul_mod, Nat.pow_succ]
      congr 1
      rw [Nat.mul_assoc, Nat.mul_comm 2]
      rfl
    · subst h0
      rw [h]
      simp

theorem msgRest_32 (m : Nat) : msgRest 32 m = 0 := by
  rcases msgRest_eq 32 m with h | ⟨h0, _⟩
  · rw [h]; exact Nat.mul_mod_left _ _
  · simp at h0

theorem calculateDataCRC_eq (p init data : Nat) :
    calculateDataCRC p init data = (msgBits 32 data).foldl (refCrcBit p) init := by
  unfold calculateDataCRC
  rw [crcRounds_xor, msgRest_32, Nat.xor_zero]

theorem msgRest_testBit (k m : Nat) (hk : k ≤ 31) :
    (msgRest k m).testBit 31 = m.testBit (31 - k) := by
  rcases msgRest_eq k m with h | ⟨h0, h⟩
  · rw [h, ← Nat.shiftLeft_eq, Nat.testBit_mod_two_pow, Nat.testBit_shiftLeft]
    simp [hk]
  · subst h0; rw [h]

theorem msgBits_eq : ∀ n m, msgBits n m = (List.range n).map (fun k => (msgRest k m).testBit 31) := by
  intro n
  induction n with
  | zero => intro m; rfl
  | succ n ih =>
    intro m
    rw [msgBits, ih, List.range_succ_eq_map]
    simp only [List.map_cons, List.map_map, msgRest]
    congr 1

theorem testBit_byte (b j : Nat) (hb : b < 256) (hj : 8 ≤ j) : b.testBit j = false := by
  apply Nat.testBit_lt_two_pow
  calc b < 2 ^ 8 := hb
    _ ≤ 2 ^ j := Nat.pow_le_pow_right (by decide) hj

theorem leWord_testBit (img : Mem) (i j : Nat) (hj : j < 32)
    (h0 : img (i + 0) < 256) (h1 : img (i + 1) < 256) (h2 : img (i + 2) < 256) :
    (leWord img i).testBit j =
      if 24 ≤ j then (img (i + 3)).testBit (j - 24)
      else if 16 ≤ j then (img (i + 2)).testBit (j - 16)
      else if 8 ≤ j then (img (i + 1)).testBit (j - 8)
      else (img (i + 0)).testBit j := by
  unfold leWord
  simp only [Nat.add_zero] at h0 ⊢
  simp only [Nat.testBit_mod_two_pow, Nat.testBit_or, Nat.testBit_shiftLeft, hj, decide_True,
    Bool.true_and, ge_iff_le]
  by_cases c3 : 24 ≤ j
  · have a2 := testBit_byte _ (j - 16) h2 (by omega)
    have a1 := testBit_byte _ (j - 8) h1 (by omega)
    have a0 := testBit_byte _ j h0 (by omega)
    simp [c3, a2, a1, a0]
  · by_cases c2 : 16 ≤ j
    · have a1 := testBit_byte _ (j - 8) h1 (by omega)
      have a0 := testBit_byte _ j h0 (by omega)
      simp [c3, c2, a1, a0]
    · by_cases c1 : 8 ≤ j
      · have a0 := testBit_byte _ j h0 (by omega)
        simp [c3, c2, c1, a0]
      · simp [c3, c2, c1]

theorem msgBits_leWord (img : Mem) (i : Nat)
    (h0 : img (i + 0) < 256) (h1 : img (i + 1) < 256) (h2 : img (i + 2) < 256) :
    msgBits 32 (leWord img i) =
      byteBits (img (i + 3)) ++ byteBits (img (i + 2)) ++ byteBits (img (i + 1))
        ++ byteBits (img (i + 0)) := by
  have T := fun j (hj : j < 32) => leWord_testBit img i j hj h0 h1 h2
  have R := fun k (hk : k ≤ 31) => msgRest_testBit k (leWord img i) hk
  rw [msgBits_eq]
  have e : List.range 32 = [0, 1, 2, 3, 4, 5, 6, 7, 8, 9, 10, 11, 12, 13, 14, 15, 16, 17, 18, 19,
    20, 21, 22, 23, 24, 25, 26, 27, 28, 29, 30, 31] := by decide
  rw [e]
  simp only [List.map_cons, List.map_nil, byteBits, List.cons_append, List.nil_append]
  simp (disch := omega) only [R]
  simp (disch := omega) only [T]
  simp

theorem calculateDataCRC_bytes (p init : Nat) (img : Mem) (i : Nat)
    (h0 : img (i + 0) < 256) (h1 : img (i + 1) < 256) (h2 : img (i + 2) < 256) :
    calculateDataCRC p init (leWord img i) =
      refCrcBytes p init [img (i + 3), img (i + 2), img (i + 1), img (i + 0)] := by
  rw [calculateDataCRC_eq, msgBits_leWord img i h0 h1 h2]
  simp only [List.foldl_append, refCrcBytes]

theorem crcWords_ref (p : Nat) (img : Mem) : ∀ n i r,
    (∀ j, i ≤ j → j < i + 4 * n → img j < 256) →
    crcWords p img n i r = refCrcBytes p r (msbFirstBytes img n i) := by
  intro n
  induction n with
  | zero => intro i r _; rfl
  | succ n ih =>
    intro i r hb
    rw [crcWords, msbFirstBytes, ih (i + 4) _ (fun j h1 h2 => hb j (by omega) (by omega)),
      calculateDataCRC_bytes p r img i (hb _ (by omega) (by omega)) (hb _ (by omega) (by omega))
        (hb _ (by omega) (by omega))]
    rfl

/-- C4. The CRC engine equals the reference CRC-32: for every polynomial `p`
and every image of `4 * n` bytes, folding `calculateDataCRC` from the seed
`0xFFFFFFFF` over the little-endian words of the image gives the bit-serial,
most significant bit first, non-reflected CRC-32 (polynomial `p`, initial
value `0xFFFFFFFF`, no final XOR) of the byte stream that takes the bytes of
each word most significant first. -/
theorem crc_engine_eq_reference (p : Nat) (img : Mem) (n : Nat)
    (hbytes : ∀ j, j < 4 * n → img j < 256) :
    crcWords p img n 0 0xFFFFFFFF = refCrc32 p (msbFirstBytes img n 0) := by
  unfold refCrc32
  exact crcWords_ref p img n 0 _ (fun j _ h => hbytes j (by omega))

theorem crc_engine_eq_reference_witness :
    crcWords 0x04C11DB7 sampleRecord 2 0 0xFFFFFFFF
      = refCrc32 0x04C11DB7 (msbFirstBytes sampleRecord 2 0) :=
  crc_engine_eq_reference 0x04C11DB7 sampleRecord 2 (by decide)

/-! ### The image assembler -/

theorem gapFillLoop_noop (first cur room : Nat) (m : Mem) (idx : Nat) (f : Bool)
    (h : ¬ (first + idx) % 2 ^ 32 < cur) :
    gapFillLoop first cur room m idx f = .ok (m, idx, f) := by
  unfold gapFillLoop
  rw [if_neg h]

/-- Whatever the gap loop returns: the index only grows, by at most `room`,
the bytes below the old index are kept and the bytes in between are `0xFF`. -/
theorem gapFillLoop_inv (first cur : Nat) : ∀ room m idx f m1 idx1 f1,
    gapFillLoop first cur room m idx f = .ok (m1, idx1, f1) →
    idx ≤ idx1 ∧ idx1 ≤ idx + room ∧ ¬ (first + idx1) % 2 ^ 32 < cur ∧
      (∀ j, j < idx ∨ idx1 ≤ j → m1 j = m j) ∧ (∀ j, idx ≤ j → j < idx1 → m1 j = 0xFF) := by
  intro room
  induction room with
  | zero =>
    intro m idx f m1 idx1 f1 h
    unfold gapFillLoop at h
    by_cases hc : (first + idx) % 2 ^ 32 < cur
    · rw [if_pos hc] at h
      simp at h
    · rw [if_neg hc] at h
      simp only [Except.ok.injEq, Prod.mk.injEq] at h
      obtain ⟨rfl, rfl, -⟩ := h
      exact ⟨le_refl _, by omega, hc, fun _ _ => rfl, fun j h1 h2 => by omega⟩
  | succ r ih =>
    intro m idx f m1 idx1 f1 h
    unfold gapFillLoop at h
    by_cases hc : (first + idx) % 2 ^ 32 < cur
    · rw [if_pos hc] at h
      obtain ⟨h1, h2, h3, h4, h5⟩ := ih _ _ _ _ _ _ h
      refine ⟨by omega, by omega, h3, ?_, ?_⟩
      · intro j hj
        rw [h4 j (by omega), setByte_other _ _ _ _ (by omega)]
      · intro j hj1 hj2
        by_cases hji : j = idx
        · rw [h4 j (by omega), hji, setByte_same]
        · exact h5 j (by omega) hj2
    · rw [if_neg hc] at h
      simp only [Except.ok.injEq, Prod.mk.injEq] at h
      obtain ⟨rfl, rfl, -⟩ := h
      exact ⟨le_refl _, by omega, hc, fun _ _ => rfl, fun j h1 h2 => by omega⟩

/-- The gap loop reaches the target offset when there is room for it. -/
theorem gapFillLoop_spec (first cur : Nat) (hcur : cur < 2 ^ 32) : ∀ room m idx f,
    first + idx ≤ cur → cur - first ≤ idx + room →
    ∃ m1 f1, gapFillLoop first cur room m idx f = .ok (m1, cur - first, f1) := by
  intro room
  induction room with
  | zero =>
    intro m idx f h1 h2
    have hc : ¬ (first + idx) % 2 ^ 32 < cur := by
      rw [Nat.mod_eq_of_lt (by omega)]; omega
    rw [gapFillLoop_noop _ _ _ _ _ _ hc]
    have : idx = cur - first := by omega
    exact ⟨m, f, by rw [this]⟩
  | succ r ih =>
    intro m idx f h1 h2
    by_cases hc : first + idx < cur
    · have hc' : (first + idx) % 2 ^ 32 < cur := by
        rw [Nat.mod_eq_of_lt (by omega)]; exact hc
      obtain ⟨m1, f1, hr⟩ := ih (setByte m idx 0xFF) (idx + 1) true (by omega) (by omega)
      exact ⟨m1, f1, by unfold gapFillLoop; rw [if_pos hc']; exact hr⟩
    · have hc' : ¬ (first + idx) % 2 ^ 32 < cur := by
        rw [Nat.mod_eq_of_lt (by omega)]; exact hc
      rw [gapFillLoop_noop _ _ _ _ _ _ hc']
      have : idx = cur - first := by omega
      exact ⟨m, f, by rw [this]⟩

/-- The gap loop stores outside `pgmData` when the target offset lies beyond
the room that is left. -/
theorem gapFillLoop_overflow (first cur : Nat) (hcur : cur < 2 ^ 32) : ∀ room m idx f,
    first + idx ≤ cur → idx + room < cur - first →
    gapFillLoop first cur room m idx f = .error (Fault.pgmDataOutOfBounds (idx + room)) := by
  intro room
  induction room with
  | zero =>
    intro m idx f h1 h2
    have hc' : (first + idx) % 2 ^ 32 < cur := by
      rw [Nat.mod_eq_of_lt (by omega)]; omega
    unfold gapFillLoop
    rw [if_pos hc']
    rfl
  | succ r ih =>
    intro m idx f h1 h2
    have hc' : (first + idx) % 2 ^ 32 < cur := by
      rw [Nat.mod_eq_of_lt (by omega)]; omega
    unfold gapFillLoop
    rw [if_pos hc']
    have e : idx + 1 + r = idx + (r + 1) := by omega
    simp only []
    rw [ih _ _ _ (by omega) (by omega), e]

theorem copyLoop_spec (bin : Mem) : ∀ n c m idx, c + n ≤ 17 → idx + n ≤ pgmDataSize →
    ∃ m1, copyLoop bin n c m idx = .ok (m1, idx + n) ∧
      (∀ j, j < idx ∨ idx + n ≤ j → m1 j = m j) ∧
      (∀ k, k < n → m1 (idx + k) = bin (binData + (c + k))) := by
  intro n
  induction n with
  | zero =>
    intro c m idx _ _
    exact ⟨m, rfl, fun _ _ => rfl, fun k hk => by omega⟩
  | succ n ih =>
    intro c m idx hc hcap
    have hr : 4 + c < 21 := by omega
    have hw : idx < pgmDataSize := by omega
    obtain ⟨m1, h1, h2, h3⟩ := ih (c + 1) (setByte m idx (bin (4 + c))) (idx + 1) (by omega)
      (by omega)
    refine ⟨m1, ?_, ?_, ?_⟩
    · simp only [copyLoop, readBin, readAt, binData, binSize, hr, if_true, writeAt, hw]
      have e : idx + 1 + n = idx + (n + 1) := by omega
      rw [h1, e]
    · intro j hj
      rw [h2 j (by omega), setByte_other _ _ _ _ (by omega)]
    · intro k hk
      by_cases hk0 : k = 0
      · subst hk0
        rw [Nat.add_zero, h2 idx (by omega), setByte_same, binData, Nat.add_zero]
      · have := h3 (k - 1) (by omega)
        have e1 : idx + 1 + (k - 1) = idx + k := by omega
        have e2 : c + 1 + (k - 1) = c + k := by omega
        rw [e1, e2] at this
        exact this

/-- Whatever the copy loop returns: the index grew by the number of bytes,
which fit into `pgmData`, and the bytes below the old index are kept. -/
theorem copyLoop_inv (bin : Mem) : ∀ n c m idx m1 idx1,
    copyLoop bin n c m idx = .ok (m1, idx1) →
    idx1 = idx + n ∧ (n = 0 ∨ idx + n ≤ pgmDataSize) ∧ (∀ j, j < idx → m1 j = m j) := by
  intro n
  induction n with
  | zero =>
    intro c m idx m1 idx1 h
    simp only [copyLoop, Except.ok.injEq, Prod.mk.injEq] at h
    obtain ⟨rfl, rfl⟩ := h
    exact ⟨rfl, Or.inl rfl, fun _ _ => rfl⟩
  | succ n ih =>
    intro c m idx m1 idx1 h
    simp only [copyLoop, readBin, readAt, writeAt] at h
    by_cases hr : binData + c < binSize
    · by_cases hw : idx < pgmDataSize
      · simp only [hr, hw, if_true] at h
        obtain ⟨h1, h2, h3⟩ := ih _ _ _ _ _ h
        refine ⟨by omega, Or.inr (by omega), ?_⟩
        intro j hj
        rw [h3 j (by omega), setByte_other _ _ _ _ (by omega)]
      · simp [hr, hw] at h
    · simp [hr] at h

/-- The copy loop stores outside `pgmData` when the image is full. -/
theorem copyLoop_full (bin : Mem) (n c : Nat) (m : Mem) (idx : Nat) (hc : c < 17)
    (hfull : pgmDataSize ≤ idx) :
    copyLoop bin (n + 1) c m idx = .error (Fault.pgmDataOutOfBounds idx) := by
  have hr : 4 + c < 21 := by omega
  have hw : ¬ idx < pgmDataSize := by omega
  simp only [copyLoop, readBin, readAt, binData, binSize, hr, if_true, writeAt, hw, if_false]

theorem exists_of_map_fields {α : Type} [DecidableEq α] (r : Except Fault (Bool × Mem))
    (f : Mem → α) (b : Bool) (v : α)
    (h : r.map (fun x => (x.1, f x.2)) = .ok (b, v)) : ∃ bin, r = .ok (b, bin) ∧ f bin = v := by
  cases r with
  | error e => simp [Except.map] at h
  | ok p =>
    obtain ⟨x, y⟩ := p
    simp only [Except.map, Except.ok.injEq, Prod.mk.injEq] at h
    exact ⟨y, by rw [h.1], h.2⟩

theorem setBase_lt (w v : Nat) (hw : w < 2 ^ 32) : setBase w v < 2 ^ 32 := by
  unfold setBase
  omega

/-- The read loop body at an accepted data record: the address is taken, then
the gap is filled and the payload copied. -/
theorem lineBody_data (s : MainState) (bin : Mem)
    (hdec : convertToBinary s.lineASCII s.lineInteger = .ok (true, bin))
    (hty : bin binRecordType = addr16bitAndData) :
    lineBody s = fillAndCopy { s with lineInteger := bin, currentAddress := linearAfter s bin,
                                      firstAddress := firstAfter s bin,
                                      baseAddrInitDone := true } := by
  unfold lineBody
  rw [hdec]
  simp only [hty]
  have e1 : (addr16bitAndData = endOfFile) = False := by decide
  have e2 : (addr16bitAndData = start20bit) = False := by decide
  have e3 : (addr16bitAndData = start32bit) = False := by decide
  simp only [e1, e2, e3, if_false, if_true, linearAfter, firstAfter]
  cases hb : s.baseAddrInitDone <;> simp [hb]

/-- C6. Gap filling: when the target offset `t = linear_address - first_address`
of an accepted data record is greater than the current image length, then
after the record is processed the length is `t + byteCount`, the offsets from
the old length up to `t` hold the fill byte `0xFF`, the offsets from `t` on
hold the payload in order and the offsets below the old length are unchanged.
The record ends inside the capacity of the image. -/
theorem gap_filling (s : MainState) (bin : Mem)
    (hdec : convertToBinary s.lineASCII s.lineInteger = .ok (true, bin))
    (hty : bin binRecordType = addr16bitAndData)
    (hcur : s.currentAddress < 2 ^ 32)
    (hgap : s.pgmDataIdx < linearAfter s bin - firstAfter s bin)
    (hcap : linearAfter s bin - firstAfter s bin + bin binByteCount ≤ pgmDataSize) :
    ∃ s1, lineBody s = .ok (Control.next, s1) ∧
      s1.currentAddress = linearAfter s bin ∧ s1.firstAddress = firstAfter s bin ∧
      s1.pgmDataIdx = linearAfter s bin - firstAfter s bin + bin binByteCount ∧
      (∀ j, s.pgmDataIdx ≤ j → j < linearAfter s bin - firstAfter s bin →
        s1.pgmData j = 0xFF) ∧
      (∀ c, c < bin binByteCount →
        s1.pgmData (linearAfter s bin - firstAfter s bin + c) = bin (binData + c)) ∧
      (∀ j, j < s.pgmDataIdx → s1.pgmData j = s.pgmData j) := by
  obtain ⟨-, hbc, -⟩ := convertToBinary_accept _ _ _ hdec
  have hlin : linearAfter s bin < 2 ^ 32 := setBase_lt _ _ hcur
  rw [lineBody_data s bin hdec hty]
  generalize hL : linearAfter s bin = L at *
  generalize hF : firstAfter s bin = F at *
  obtain ⟨m1, f1, hg⟩ := gapFillLoop_spec F L hlin (pgmDataSize - s.pgmDataIdx) s.pgmData
    s.pgmDataIdx false (by omega) (by omega)
  obtain ⟨-, -, -, g4, g5⟩ := gapFillLoop_inv _ _ _ _ _ _ _ _ _ hg
  obtain ⟨m2, hcopy, c2, c3⟩ := copyLoop_spec bin (bin binByteCount) 0 m1 (L - F) (by omega) hcap
  refine ⟨{ s with lineInteger := bin, currentAddress := L, firstAddress := F,
                   baseAddrInitDone := true, pgmData := m2,
                   pgmDataIdx := L - F + bin binByteCount }, ?_, rfl, rfl, rfl, ?_, ?_, ?_⟩
  · unfold fillAndCopy
    simp only [hg, hty, if_true, hcopy]
  · intro j h1 h2
    show m2 j = 0xFF
    rw [c2 j (by omega)]
    exact g5 j h1 h2
  · intro c hc
    show m2 (L - F + c) = bin (binData + c)
    rw [c3 c hc, Nat.zero_add]
  · intro j hj
    show m2 j = s.pgmData j
    rw [c2 j (by omega), g4 j (by omega)]

theorem gap_filling_witness :
    ∃ bin s1, convertToBinary gapState.lineASCII gapState.lineInteger = .ok (true, bin) ∧
      lineBody gapState = .ok (Control.next, s1) ∧
      s1.pgmDataIdx = 18 ∧ (∀ j, 2 ≤ j → j < 16 → s1.pgmData j = 0xFF) ∧
      s1.pgmData 16 = 0xAA ∧ s1.pgmData 17 = 0xBB ∧
      s1.pgmData 0 = 0x48 ∧ s1.pgmData 1 = 0x69 := by
  obtain ⟨bin, hdec, hf⟩ := exists_of_map_fields
    (convertToBinary gapState.lineASCII gapState.lineInteger)
    (fun b => [b 0, b 1, b 2, b 3, b 4, b 5]) true [2, 16, 0, 0, 0xAA, 0xBB] (by decide!)
  simp only [List.cons.injEq, and_true] at hf
  obtain ⟨b0, b1, b2, b3, b4, b5⟩ := hf
  have hL : linearAfter gapState bin = 16 := by
    simp [linearAfter, gapState, setBase, addressHalf, binAddress0, binAddress1, b1, b2]
  have hF : firstAfter gapState bin = 0 := by
    simp [firstAfter, gapState]
  have hidx : gapState.pgmDataIdx = 2 := rfl
  obtain ⟨s1, h1, -, -, h4, h5, h6, h7⟩ := gap_filling gapState bin hdec b3 (by decide)
    (by rw [hL, hF, hidx]; decide)
    (by rw [hL, hF]; simp only [binByteCount, b0, pgmDataSize]; decide)
  rw [hL, hF] at h4 h5 h6
  simp only [binByteCount, b0, hidx, Nat.sub_zero, binData] at h4 h5 h6 h7
  refine ⟨bin, s1, hdec, h1, h4, h5, ?_, ?_, ?_, ?_⟩
  · rw [← b4]; exact h6 0 (by decide)
  · rw [← b5]; exact h6 1 (by decide)
  · rw [h7 0 (by decide)]; rfl
  · rw [h7 1 (by decide)]; rfl

/-! ### Alignment -/

/-- The padding step on an image that fits into `pgmData`: the length becomes
the next multiple of 4, the old bytes are kept and the new bytes are `0xFF`. -/
theorem alignImage_spec (s : MainState) (hcap : s.pgmDataIdx ≤ pgmDataSize) :
    ∃ s1, alignImage s = .ok s1 ∧
      s1.pgmDataIdx % 4 = 0 ∧ s.pgmDataIdx ≤ s1.pgmDataIdx ∧ s1.pgmDataIdx < s.pgmDataIdx + 4 ∧
      s1.pgmDataIdx ≤ pgmDataSize ∧
      (∀ j, j < s.pgmDataIdx → s1.pgmData j = s.pgmData j) ∧
      (∀ j, s.pgmDataIdx ≤ j → j < s1.pgmDataIdx → s1.pgmData j = 0xFF) ∧
      s1.ret = s.ret ∧ s1.result = s.result ∧ s1.firstAddress = s.firstAddress := by
  unfold alignImage
  simp only [pgmDataSize] at hcap
  have hmod : s.pgmDataIdx % 4 = 0 ∨ s.pgmDataIdx % 4 = 1 ∨ s.pgmDataIdx % 4 = 2
      ∨ s.pgmDataIdx % 4 = 3 := by omega
  rcases hmod with h | h | h | h
  · refine ⟨s, by simp [h], h, le_refl _, by omega, by simpa [pgmDataSize] using hcap,
      fun _ _ => rfl, fun j h1 h2 => by omega, rfl, rfl, rfl⟩
  · have w0 : s.pgmDataIdx < 1048576 := by omega
    have w1 : s.pgmDataIdx + 1 < 1048576 := by omega
    have w2 : s.pgmDataIdx + 1 + 1 < 1048576 := by omega
    have r1 : (s.pgmDataIdx + 1) % 4 = 2 := by omega
    have r2 : (s.pgmDataIdx + 1 + 1) % 4 = 3 := by omega
    have r3 : (s.pgmDataIdx + 1 + 1 + 1) % 4 = 0 := by omega
    refine ⟨{ s with pgmData := setByte (setByte (setByte s.pgmData s.pgmDataIdx 0xFF)
                       (s.pgmDataIdx + 1) 0xFF) (s.pgmDataIdx + 1 + 1) 0xFF,
                     pgmDataIdx := s.pgmDataIdx + 1 + 1 + 1 }, ?_, r3, (by simp only; omega), (by simp only; omega),
      (by simp only [pgmDataSize]; omega), ?_, ?_, rfl, rfl, rfl⟩
    · simp [h, alignLoop, writeAt, pgmDataSize, w0, w1, w2, r1, r2, r3]
    · intro j hj
      simp (disch := omega) only [setByte_other]
    · intro j h1 h2
      simp only at h2
      have : j = s.pgmDataIdx ∨ j = s.pgmDataIdx + 1 ∨ j = s.pgmDataIdx + 1 + 1 := by omega
      rcases this with e | e | e <;> subst e <;> simp [setByte_apply]
  · have w0 : s.pgmDataIdx < 1048576 := by omega
    have w1 : s.pgmDataIdx + 1 < 1048576 := by omega
    have r1 : (s.pgmDataIdx + 1) % 4 = 3 := by omega
    have r2 : (s.pgmDataIdx + 1 + 1) % 4 = 0 := by omega
    refine ⟨{ s with pgmData := setByte (setByte s.pgmData s.pgmDataIdx 0xFF)
                       (s.pgmDataIdx + 1) 0xFF,
                     pgmDataIdx := s.pgmDataIdx + 1 + 1 }, ?_, r2, (by simp only; omega), (by simp only; omega),
      (by simp only [pgmDataSize]; omega), ?_, ?_, rfl, rfl, rfl⟩
    · simp [h, alignLoop, writeAt, pgmDataSize, w0, w1, r1, r2]
    · intro j hj
      simp (disch := omega) only [setByte_other]
    · intro j h1 h2
      simp only at h2
      have : j = s.pgmDataIdx ∨ j = s.pgmDataIdx + 1 := by omega
      rcases this with e | e <;> subst e <;> simp [setByte_apply]
  · have w0 : s.pgmDataIdx < 1048576 := by omega
    have r1 : (s.pgmDataIdx + 1) % 4 = 0 := by omega
    refine ⟨{ s with pgmData := setByte s.pgmData s.pgmDataIdx 0xFF,
                     pgmDataIdx := s.pgmDataIdx + 1 }, ?_, r1, (by simp only; omega), (by simp only; omega),
      (by simp only [pgmDataSize]; omega), ?_, ?_, rfl, rfl, rfl⟩
    · simp [h, alignLoop, writeAt, pgmDataSize, w0, r1]
    · intro j hj
      simp (disch := omega) only [setByte_other]
    · intro j h1 h2
      simp only at h2
      have : j = s.pgmDataIdx := by omega
      subst this
      simp [setByte_apply]

/-- Whatever `fillAndCopy` returns: the image stays inside `pgmData`, it only
grows and its old bytes are kept. -/
theorem fillAndCopy_inv (s s1 : MainState) (c : Control)
    (h : fillAndCopy s = .ok (c, s1)) (hcap : s.pgmDataIdx ≤ pgmDataSize) :
    s1.pgmDataIdx ≤ pgmDataSize ∧ s.pgmDataIdx ≤ s1.pgmDataIdx ∧
      (∀ j, j < s.pgmDataIdx → s1.pgmData j = s.pgmData j) := by
  unfold fillAndCopy at h
  split at h
  · simp at h
  · rename_i m1 idx1 f1 hg
    obtain ⟨g1, g2, -, g4, -⟩ := gapFillLoop_inv _ _ _ _ _ _ _ _ _ hg
    have hidx1 : idx1 ≤ pgmDataSize := by omega
    split_ifs at h
    · split at h
      · simp at h
      · rename_i m2 idx2 hcp
        obtain ⟨c1, c2, c3⟩ := copyLoop_inv _ _ _ _ _ _ _ hcp
        simp only [Except.ok.injEq, Prod.mk.injEq] at h
        obtain ⟨-, rfl⟩ := h
        refine ⟨?_, ?_, ?_⟩
        · show idx2 ≤ pgmDataSize
          rcases c2 with c2 | c2 <;> omega
        · show s.pgmDataIdx ≤ idx2
          omega
        · intro j hj
          show m2 j = s.pgmData j
          rw [c3 j (by omega), g4 j (by omega)]
    · simp only [Except.ok.injEq, Prod.mk.injEq] at h
      obtain ⟨-, rfl⟩ := h
      exact ⟨hidx1, g1, fun j hj => g4 j (by omega)⟩

/-- Whatever one pass of the read loop body returns: the image stays inside
`pgmData`, it only grows and its old bytes are kept. -/
theorem lineBody_inv (s s1 : MainState) (c : Control)
    (h : lineBody s = .ok (c, s1)) (hcap : s.pgmDataIdx ≤ pgmDataSize) :
    s1.pgmDataIdx ≤ pgmDataSize ∧ s.pgmDataIdx ≤ s1.pgmDataIdx ∧
      (∀ j, j < s.pgmDataIdx → s1.pgmData j = s.pgmData j) := by
  have same : ∀ (ctl : Control) (t : MainState),
      (Except.ok (ctl, t) : Except Fault (Control × MainState)) = Except.ok (c, s1) →
      t.pgmDataIdx = s.pgmDataIdx → t.pgmData = s.pgmData →
      s1.pgmDataIdx ≤ pgmDataSize ∧ s.pgmDataIdx ≤ s1.pgmDataIdx ∧
        (∀ j, j < s.pgmDataIdx → s1.pgmData j = s.pgmData j) := by
    intro ctl t h3 h1 h2
    simp only [Except.ok.injEq, Prod.mk.injEq] at h3
    rw [← h3.2, h1, h2]
    exact ⟨hcap, le_refl _, fun _ _ => rfl⟩
  have fill : ∀ t : MainState, fillAndCopy t = .ok (c, s1) →
      t.pgmDataIdx = s.pgmDataIdx → t.pgmData = s.pgmData →
      s1.pgmDataIdx ≤ pgmDataSize ∧ s.pgmDataIdx ≤ s1.pgmDataIdx ∧
        (∀ j, j < s.pgmDataIdx → s1.pgmData j = s.pgmData j) := by
    intro t h3 h1 h2
    have := fillAndCopy_inv t s1 c h3 (by rw [h1]; exact hcap)
    rw [h1, h2] at this
    exact this
  unfold lineBody at h
  split at h
  · simp at h
  · exact same _ _ h rfl rfl
  · simp only at h
    split_ifs at h
    all_goals first
      | exact same _ _ h rfl rfl
      | exact fill _ h rfl rfl

/-- The image stays inside `pgmData` through the read loop. -/
theorem readLoop_inv : ∀ (lines : List (List Nat)) (s s1 : MainState) (flag : Bool),
    readLoop lines s = .ok (flag, s1) → s.pgmDataIdx ≤ pgmDataSize →
    s1.pgmDataIdx ≤ pgmDataSize := by
  intro lines
  induction lines with
  | nil =>
    intro s s1 flag h hcap
    simp only [readLoop, Except.ok.injEq, Prod.mk.injEq] at h
    rw [← h.2]; exact hcap
  | cons line rest ih =>
    intro s s1 flag h hcap
    simp only [readLoop] at h
    split_ifs at h
    · split at h
      · simp at h
      · rename_i s2 hb
        exact ih _ _ _ h (lineBody_inv _ _ _ hb hcap).1
      · rename_i s2 hb
        simp only [Except.ok.injEq, Prod.mk.injEq] at h
        rw [← h.2]
        exact (lineBody_inv _ _ _ hb hcap).1
      · rename_i s2 hb
        simp only [Except.ok.injEq, Prod.mk.injEq] at h
        rw [← h.2]
        exact (lineBody_inv _ _ _ hb hcap).1
    · simp only [Except.ok.injEq, Prod.mk.injEq] at h
      rw [← h.2]; exact hcap

/-- C7. Alignment: for every input, with `L` the assembled length after the
read loop, the padding step succeeds and leaves the length equal to the least
multiple of 4 that is at least `L` (0 to 3 bytes added), leaves the offsets
below `L` unchanged and sets the added bytes to the fill byte `0xFF`; so the
length is a multiple of 4 when the CRC is computed. -/
theorem alignment (lines : List (List Nat)) (lineASCII lineInteger pgmData : Mem)
    (flag : Bool) (s : MainState)
    (h : readLoop lines (initialState lineASCII lineInteger pgmData) = .ok (flag, s)) :
    ∃ s1, alignImage s = .ok s1 ∧
      s1.pgmDataIdx % 4 = 0 ∧ s.pgmDataIdx ≤ s1.pgmDataIdx ∧ s1.pgmDataIdx < s.pgmDataIdx + 4 ∧
      s1.pgmDataIdx = (s.pgmDataIdx + 3) / 4 * 4 ∧
      (∀ j, j < s.pgmDataIdx → s1.pgmData j = s.pgmData j) ∧
      (∀ j, s.pgmDataIdx ≤ j → j < s1.pgmDataIdx → s1.pgmData j = 0xFF) := by
  have hcap : s.pgmDataIdx ≤ pgmDataSize :=
    readLoop_inv lines _ s flag h (by simp [initialState, pgmDataSize])
  obtain ⟨s1, h1, h2, h3, h4, -, h6, h7, -⟩ := alignImage_spec s hcap
  exact ⟨s1, h1, h2, h3, h4, by omega, h6, h7⟩

theorem alignment_witness :
    ∃ s s1, readLoop [strBytes ":0200000048694D", strBytes ":00000001FF"]
        (initialState zeroMem zeroMem zeroMem) = .ok (false, s) ∧
      s.pgmDataIdx = 2 ∧ alignImage s = .ok s1 ∧
      s1.pgmDataIdx % 4 = 0 ∧ s.pgmDataIdx ≤ s1.pgmDataIdx ∧ s1.pgmDataIdx < s.pgmDataIdx + 4 ∧
      s1.pgmDataIdx = (s.pgmDataIdx + 3) / 4 * 4 ∧
      (∀ j, j < s.pgmDataIdx → s1.pgmData j = s.pgmData j) ∧
      (∀ j, s.pgmDataIdx ≤ j → j < s1.pgmDataIdx → s1.pgmData j = 0xFF) := by
  have hrun : (readLoop [strBytes ":0200000048694D", strBytes ":00000001FF"]
      (initialState zeroMem zeroMem zeroMem)).map (fun r => (r.1, r.2.pgmDataIdx))
      = .ok (false, 2) := by decide!
  cases hr : readLoop [strBytes ":0200000048694D", strBytes ":00000001FF"]
      (initialState zeroMem zeroMem zeroMem) with
  | error f => rw [hr] at hrun; simp [Except.map] at hrun
  | ok r =>
    obtain ⟨flag, s⟩ := r
    rw [hr] at hrun
    simp only [Except.map, Except.ok.injEq, Prod.mk.injEq] at hrun
    obtain ⟨rfl, hidx⟩ := hrun
    obtain ⟨s1, hs1⟩ := alignment _ zeroMem zeroMem zeroMem false s hr
    exact ⟨s, s1, rfl, hidx, hs1⟩

/-! ### The CRC step -/

/-- The CRC loop over `k` whole words that lie inside `pgmData` is the fold of
`calculateDataCRC` over these words. -/
theorem crcLoop_eq (p : Nat) (m : Mem) : ∀ k w i r, k ≤ w → i + 4 * k ≤ pgmDataSize →
    crcLoop p m (i + 4 * k) w i r = .ok (crcWords p m k i r) := by
  intro k
  induction k with
  | zero =>
    intro w i r _ _
    unfold crcLoop
    simp [crcWords]
  | succ k ih =>
    intro w i r hw hcap
    cases w with
    | zero => omega
    | succ w =>
      have hlt : i < i + 4 * (k + 1) := by omega
      have hrd : i + 3 < pgmDataSize := by omega
      have hmod : (i + 4) % 2 ^ 32 = i + 4 := by
        apply Nat.mod_eq_of_lt
        simp only [pgmDataSize] at hcap
        omega
      have hb : i + 4 * (k + 1) = i + 4 + 4 * k := by omega
      unfold crcLoop
      rw [if_pos hlt]
      simp only [readAt, hrd, if_true, hmod, crcWords]
      rw [hb]
      exact ih w (i + 4) _ (by omega) (by omega)

theorem casterByte_lt (reg e : Nat) : casterByte reg e < 256 := by
  unfold casterByte
  omega

theorem crcAndPatch_eq_patchAt (cfg : Config) (s : MainState) :
    crcAndPatch cfg s = patchAt cfg.poly s ((2 ^ 32 + s.pgmDataIdx - 4) % 2 ^ 32)
      ((2 ^ 32 + s.pgmDataIdx - 3) % 2 ^ 32) ((2 ^ 32 + s.pgmDataIdx - 2) % 2 ^ 32)
      ((2 ^ 32 + s.pgmDataIdx - 1) % 2 ^ 32) := rfl

theorem patchAt_congr (poly : Nat) (s : MainState) (a4 a3 a2 a1 b4 b3 b2 b1 : Nat)
    (h4 : a4 = b4) (h3 : a3 = b3) (h2 : a2 = b2) (h1 : a1 = b1) :
    patchAt poly s a4 a3 a2 a1 = patchAt poly s b4 b3 b2 b1 := by
  subst h4 h3 h2 h1
  rfl

/-- The value of the accumulator after the CRC loop of an aligned image. -/
theorem patchAt_spec (poly : Nat) (s : MainState) (k : Nat) (i4 i3 i2 i1 : Nat)
    (hk : i4 = 0 + 4 * k) (hw : k ≤ pgmDataSize / 4) (h4 : i4 < pgmDataSize)
    (h3 : i3 < pgmDataSize) (h2 : i2 < pgmDataSize) (h1 : i1 < pgmDataSize) :
    patchAt poly s i4 i3 i2 i1 = .ok { s with
      pgmData := setByte (setByte (setByte (setByte s.pgmData i4
          (casterByte (crcWords poly s.pgmData k 0 s.result) 0)) i3
          (casterByte (crcWords poly s.pgmData k 0 s.result) 1)) i2
          (casterByte (crcWords poly s.pgmData k 0 s.result) 2)) i1
          (casterByte (crcWords poly s.pgmData k 0 s.result) 3),
      result := crcWords poly s.pgmData k 0 s.result } := by
  have hloop := crcLoop_eq poly s.pgmData k (pgmDataSize / 4) 0 s.result hw (by omega)
  rw [← hk] at hloop
  unfold patchAt
  simp only [hloop, writeAt, h4, h3, h2, h1, if_true]

/-- The CRC step on an aligned image of at least 4 bytes inside `pgmData`:
the accumulator is the fold over all words but the last, and its four bytes
are stored, least significant first, in the last four bytes. -/
theorem crcAndPatch_spec (cfg : Config) (s : MainState) (h4 : 4 ≤ s.pgmDataIdx)
    (hcap : s.pgmDataIdx ≤ pgmDataSize) (hal : s.pgmDataIdx % 4 = 0) :
    crcAndPatch cfg s = .ok { s with
      pgmData := setByte (setByte (setByte (setByte s.pgmData (s.pgmDataIdx - 4)
          (casterByte (crcWords cfg.poly s.pgmData (s.pgmDataIdx / 4 - 1) 0 s.result) 0))
          (s.pgmDataIdx - 3)
          (casterByte (crcWords cfg.poly s.pgmData (s.pgmDataIdx / 4 - 1) 0 s.result) 1))
          (s.pgmDataIdx - 2)
          (casterByte (crcWords cfg.poly s.pgmData (s.pgmDataIdx / 4 - 1) 0 s.result) 2))
          (s.pgmDataIdx - 1)
          (casterByte (crcWords cfg.poly s.pgmData (s.pgmDataIdx / 4 - 1) 0 s.result) 3),
      result := crcWords cfg.poly s.pgmData (s.pgmDataIdx / 4 - 1) 0 s.result } := by
  have hsz : s.pgmDataIdx ≤ 1048576 := by simpa [pgmDataSize] using hcap
  have e4 : (2 ^ 32 + s.pgmDataIdx - 4) % 2 ^ 32 = s.pgmDataIdx - 4 := by omega
  have e3 : (2 ^ 32 + s.pgmDataIdx - 3) % 2 ^ 32 = s.pgmDataIdx - 3 := by omega
  have e2 : (2 ^ 32 + s.pgmDataIdx - 2) % 2 ^ 32 = s.pgmDataIdx - 2 := by omega
  have e1 : (2 ^ 32 + s.pgmDataIdx - 1) % 2 ^ 32 = s.pgmDataIdx - 1 := by omega
  exact (crcAndPatch_eq_patchAt cfg s).trans
    ((patchAt_congr cfg.poly s _ _ _ _ _ _ _ _ e4 e3 e2 e1).trans
      (patchAt_spec cfg.poly s (s.pgmDataIdx / 4 - 1) _ _ _ _ (by omega)
        (by simp only [pgmDataSize]; omega) (by simp only [pgmDataSize]; omega)
        (by simp only [pgmDataSize]; omega) (by simp only [pgmDataSize]; omega)
        (by simp only [pgmDataSize]; omega)))

/-- The read loop body at an accepted end-of-file record. -/
theorem lineBody_eof (s : MainState) (bin : Mem)
    (hdec : convertToBinary s.lineASCII s.lineInteger = .ok (true, bin))
    (hty : bin binRecordType = endOfFile) :
    lineBody s = .ok (Control.stop, { s with lineInteger := bin }) := by
  unfold lineBody
  rw [hdec]
  simp only [hty, if_true]

/-- The read loop body at a line that `convertToBinary` rejects: `ret` is
`lineCRCerr` and the loop is left by `goto end`. -/
theorem lineBody_reject (s : MainState) (bin : Mem)
    (hdec : convertToBinary s.lineASCII s.lineInteger = .ok (false, bin)) :
    lineBody s = .ok (Control.abort, { s with lineInteger := bin, ret := lineCRCerr }) := by
  unfold lineBody
  rw [hdec]

/-- The CRC step on an aligned image of at least four bytes, by its effects. -/
theorem crcAndPatch_effect (cfg : Config) (s : MainState) (h4 : 4 ≤ s.pgmDataIdx)
    (hcap : s.pgmDataIdx ≤ pgmDataSize) (hal : s.pgmDataIdx % 4 = 0) :
    ∃ s2, crcAndPatch cfg s = .ok s2 ∧
      s2.result = crcWords cfg.poly s.pgmData (s.pgmDataIdx / 4 - 1) 0 s.result ∧
      s2.pgmDataIdx = s.pgmDataIdx ∧ s2.ret = s.ret ∧ s2.firstAddress = s.firstAddress ∧
      (∀ j, j < s.pgmDataIdx - 4 ∨ s.pgmDataIdx ≤ j → s2.pgmData j = s.pgmData j) ∧
      (∀ k, k < 4 → s2.pgmData (s.pgmDataIdx - 4 + k) = casterByte s2.result k) := by
  have h := crcAndPatch_spec cfg s h4 hcap hal
  obtain ⟨r, hr⟩ : ∃ r, r = crcWords cfg.poly s.pgmData (s.pgmDataIdx / 4 - 1) 0 s.result :=
    ⟨_, rfl⟩
  rw [← hr] at h
  refine ⟨_, h, hr, rfl, rfl, rfl, ?_, ?_⟩
  · intro j hj
    simp only [setByte_apply]
    rw [if_neg (by omega), if_neg (by omega), if_neg (by omega), if_neg (by omega)]
  · intro k hk
    simp only [setByte_apply]
    have : k = 0 ∨ k = 1 ∨ k = 2 ∨ k = 3 := by omega
    rcases this with e | e | e | e <;> subst e
    · rw [if_neg (by omega), if_neg (by omega), if_neg (by omega), if_pos (by omega)]
    · rw [if_neg (by omega), if_neg (by omega), if_pos (by omega)]
    · rw [if_neg (by omega), if_pos (by omega)]
    · rw [if_pos (by omega)]

/-- The run after a read loop that ended normally with a non-empty image:
alignment and the CRC step both complete. -/
theorem mainRun_after_read (cfg : Config) (lines : List (List Nat)) (s0 s : MainState)
    (hrun : readLoop lines s0 = .ok (false, s)) (hne : s.ret ≠ unsupportedFeature)
    (h1 : 1 ≤ s.pgmDataIdx) (hcap : s.pgmDataIdx ≤ pgmDataSize) :
    ∃ s1 s2, alignImage s = .ok s1 ∧ crcAndPatch cfg s1 = .ok s2 ∧
      mainRun cfg lines s0 = .ok (true, s2) := by
  obtain ⟨s1, hal, a1, a2, a3, a4, -⟩ := alignImage_spec s hcap
  obtain ⟨s2, hp, -⟩ := crcAndPatch_effect cfg s1 (by omega) a4 a1
  refine ⟨s1, s2, hal, hp, ?_⟩
  unfold mainRun
  rw [hrun]
  simp only [hne, if_false, hal, hp]

/-! ### Steps of the read loop -/

theorem readLoop_next (l : List Nat) (rest : List (List Nat)) (s s1 : MainState)
    (hlen : l.length < asciiSize)
    (hb : lineBody (afterGetline s l) = .ok (Control.next, s1)) :
    readLoop (l :: rest) s = readLoop rest s1 := by
  unfold afterGetline at hb
  simp only [readLoop, hlen, if_true, hb]

theorem readLoop_fault (l : List Nat) (rest : List (List Nat)) (s : MainState) (f : Fault)
    (hlen : l.length < asciiSize)
    (hb : lineBody (afterGetline s l) = .error f) :
    readLoop (l :: rest) s = .error f := by
  unfold afterGetline at hb
  simp only [readLoop, hlen, if_true, hb]

/-- The copy loop stores at `pgmData[1048576]` when the payload does not fit. -/
theorem copyLoop_overflow (bin : Mem) : ∀ n c m idx, c + n ≤ 17 → idx ≤ pgmDataSize →
    pgmDataSize < idx + n →
    copyLoop bin n c m idx = .error (Fault.pgmDataOutOfBounds pgmDataSize) := by
  intro n
  induction n with
  | zero => intro c m idx _ h1 h2; omega
  | succ n ih =>
    intro c m idx hc h1 h2
    by_cases hfull : idx = pgmDataSize
    · rw [copyLoop_full bin n c m idx (by omega) (by omega), hfull]
    · have hr : 4 + c < 21 := by omega
      have hw : idx < pgmDataSize := by omega
      simp only [copyLoop, readBin, readAt, binData, binSize, hr, if_true, writeAt, hw]
      exact ih (c + 1) _ (idx + 1) (by omega) (by omega) (by omega)

/-- The read loop body at an accepted extended-linear-address record. -/
theorem lineBody_ext (s : MainState) (bin : Mem)
    (hdec : convertToBinary s.lineASCII s.lineInteger = .ok (true, bin))
    (hty : bin binRecordType = addr32bit) :
    lineBody s = .ok (Control.next,
      { s with lineInteger := bin,
               currentAddress := setExt32bit s.currentAddress
                 ((bin (binData + 0) <<< 8) ||| bin (binData + 1)),
               firstAddress := if s.extAddrInitDone then s.firstAddress
                 else setExt32bit s.firstAddress ((bin (binData + 0) <<< 8) ||| bin (binData + 1)),
               extAddrInitDone := true }) := by
  unfold lineBody
  rw [hdec]
  simp only [hty]
  have e1 : (addr32bit = endOfFile) = False := by decide
  have e2 : (addr32bit = start20bit) = False := by decide
  have e3 : (addr32bit = start32bit) = False := by decide
  have e4 : (addr32bit = addr16bitAndData) = False := by decide
  have e5 : (addr32bit = addr20bit) = False := by decide
  simp only [e1, e2, e3, e4, e5, if_false, if_true]
  cases hb : s.extAddrInitDone <;> simp [hb]

/-- A data record that ends inside the image, at or after the current
length: the state after the read loop body. -/
theorem lineBody_data_spec (s : MainState) (bin : Mem)
    (hdec : convertToBinary s.lineASCII s.lineInteger = .ok (true, bin))
    (hty : bin binRecordType = addr16bitAndData)
    (hcur : s.currentAddress < 2 ^ 32)
    (hgap : firstAfter s bin + s.pgmDataIdx ≤ linearAfter s bin)
    (hcap : linearAfter s bin - firstAfter s bin + bin binByteCount ≤ pgmDataSize) :
    ∃ m, lineBody s = .ok (Control.next,
        { s with lineInteger := bin, currentAddress := linearAfter s bin,
                 firstAddress := firstAfter s bin, baseAddrInitDone := true, pgmData := m,
                 pgmDataIdx := linearAfter s bin - firstAfter s bin + bin binByteCount }) ∧
      (∀ j, s.pgmDataIdx ≤ j → j < linearAfter s bin - firstAfter s bin → m j = 0xFF) ∧
      (∀ c, c < bin binByteCount →
        m (linearAfter s bin - firstAfter s bin + c) = bin (binData + c)) ∧
      (∀ j, j < s.pgmDataIdx → m j = s.pgmData j) := by
  obtain ⟨-, hbc, -⟩ := convertToBinary_accept _ _ _ hdec
  have hlin : linearAfter s bin < 2 ^ 32 := setBase_lt _ _ hcur
  rw [lineBody_data s bin hdec hty]
  generalize linearAfter s bin = L at *
  generalize firstAfter s bin = F at *
  obtain ⟨m1, f1, hg⟩ := gapFillLoop_spec F L hlin (pgmDataSize - s.pgmDataIdx) s.pgmData
    s.pgmDataIdx false (by omega) (by omega)
  obtain ⟨-, -, -, g4, g5⟩ := gapFillLoop_inv _ _ _ _ _ _ _ _ _ hg
  obtain ⟨m2, hcopy, c2, c3⟩ := copyLoop_spec bin (bin binByteCount) 0 m1 (L - F) (by omega) hcap
  refine ⟨m2, ?_, ?_, ?_, ?_⟩
  · unfold fillAndCopy
    simp only [hg, hty, if_true, hcopy]
  · intro j h1 h2
    rw [c2 j (by omega)]
    exact g5 j h1 h2
  · intro c hc
    rw [c3 c hc, Nat.zero_add]
  · intro j hj
    rw [c2 j (by omega), g4 j (by omega)]

/-- A data record that ends beyond the 1 MiB of `pgmData`: the read loop body
stores at `pgmData[1048576]`, outside the array. -/
theorem lineBody_data_overflow (s : MainState) (bin : Mem)
    (hdec : convertToBinary s.lineASCII s.lineInteger = .ok (true, bin))
    (hty : bin binRecordType = addr16bitAndData)
    (hcur : s.currentAddress < 2 ^ 32)
    (hgap : firstAfter s bin + s.pgmDataIdx ≤ linearAfter s bin)
    (hidx : s.pgmDataIdx ≤ pgmDataSize)
    (hcap : pgmDataSize < linearAfter s bin - firstAfter s bin + bin binByteCount) :
    lineBody s = .error (Fault.pgmDataOutOfBounds pgmDataSize) := by
  obtain ⟨-, hbc, -⟩ := convertToBinary_accept _ _ _ hdec
  have hlin : linearAfter s bin < 2 ^ 32 := setBase_lt _ _ hcur
  rw [lineBody_data s bin hdec hty]
  generalize linearAfter s bin = L at *
  generalize firstAfter s bin = F at *
  unfold fillAndCopy
  by_cases hbig : pgmDataSize < L - F
  · have := gapFillLoop_overflow F L hlin (pgmDataSize - s.pgmDataIdx) s.pgmData
      s.pgmDataIdx false (by omega) (by omega)
    have e : s.pgmDataIdx + (pgmDataSize - s.pgmDataIdx) = pgmDataSize := by omega
    rw [e] at this
    simp only [this]
  · obtain ⟨m1, f1, hg⟩ := gapFillLoop_spec F L hlin (pgmDataSize - s.pgmDataIdx) s.pgmData
      s.pgmDataIdx false (by omega) (by omega)
    simp only [hg, hty, if_true]
    rw [copyLoop_overflow bin (bin binByteCount) 0 m1 (L - F) (by omega) (by omega) hcap]

theorem readLoop_stop (l : List Nat) (rest : List (List Nat)) (s s1 : MainState)
    (hlen : l.length < asciiSize)
    (hb : lineBody (afterGetline s l) = .ok (Control.stop, s1)) :
    readLoop (l :: rest) s = .ok (false, s1) := by
  unfold afterGetline at hb
  simp only [readLoop, hlen, if_true, hb]

theorem readLoop_abort (l : List Nat) (rest : List (List Nat)) (s s1 : MainState)
    (hlen : l.length < asciiSize)
    (hb : lineBody (afterGetline s l) = .ok (Control.abort, s1)) :
    readLoop (l :: rest) s = .ok (true, s1) := by
  unfold afterGetline at hb
  simp only [readLoop, hlen, if_true, hb]

theorem validLine_length (l : List Nat) (hv : ValidLine isUpperHexDigit l) :
    l.length < asciiSize := by
  obtain ⟨-, -, hn, hlen, -⟩ := hv
  simp only [asciiSize]
  omega

theorem setExt32bit_lt (w v : Nat) : setExt32bit w v < 2 ^ 32 := by
  unfold setExt32bit
  omega

/-- The decoded record of a valid line, in the state after `getline`. -/
theorem decode_validLine (s : MainState) (l : List Nat) (hv : ValidLine isUpperHexDigit l) :
    ∃ bin, convertToBinary (afterGetline s l).lineASCII (afterGetline s l).lineInteger
        = .ok (true, bin) ∧
      bin binByteCount = pairVal l 1 ∧ addressHalf bin = lineAddr l ∧
      bin binRecordType = pairVal l 7 ∧
      (∀ k, k < pairVal l 1 → bin (binData + k) = pairVal l (9 + 2 * k)) := by
  obtain ⟨bin, hd, o0, o1, o2, o3, od, -⟩ :=
    convertToBinary_validLine l hv s.lineASCII s.lineInteger
  refine ⟨bin, hd, o0, ?_, o3, od⟩
  simp only [addressHalf, binAddress0, binAddress1, lineAddr, o1, o2]

/-- The read loop body at a valid end-of-file line: the loop stops and
neither the tracker nor the image changes. -/
theorem step_eof (s : MainState) (l : List Nat) (hv : ValidLine isUpperHexDigit l)
    (hty : pairVal l 7 = 1) :
    ∃ s1, lineBody (afterGetline s l) = .ok (Control.stop, s1) ∧
      s1.currentAddress = s.currentAddress ∧ s1.firstAddress = s.firstAddress ∧
      s1.extAddrInitDone = s.extAddrInitDone ∧ s1.baseAddrInitDone = s.baseAddrInitDone ∧
      s1.pgmData = s.pgmData ∧ s1.pgmDataIdx = s.pgmDataIdx ∧
      s1.ret = s.ret ∧ s1.result = s.result := by
  obtain ⟨bin, hd, -, -, h3, -⟩ := decode_validLine s l hv
  exact ⟨_, lineBody_eof _ bin hd (by rw [h3, hty]; rfl), rfl, rfl, rfl, rfl, rfl, rfl, rfl, rfl⟩

/-- The read loop body at a valid data line that ends inside the image, at or
after the current length. -/
theorem step_data (s : MainState) (l : List Nat) (hv : ValidLine isUpperHexDigit l)
    (hty : pairVal l 7 = 0) (hcur : s.currentAddress < 2 ^ 32)
    (hgap : lineFirst s l + s.pgmDataIdx ≤ lineLinear s l)
    (hcap : lineLinear s l - lineFirst s l + pairVal l 1 ≤ pgmDataSize) :
    ∃ s1, lineBody (afterGetline s l) = .ok (Control.next, s1) ∧
      s1.currentAddress = lineLinear s l ∧ s1.firstAddress = lineFirst s l ∧
      s1.extAddrInitDone = s.extAddrInitDone ∧ s1.baseAddrInitDone = true ∧
      s1.pgmDataIdx = lineLinear s l - lineFirst s l + pairVal l 1 ∧
      s1.ret = s.ret ∧ s1.result = s.result ∧
      (∀ j, s.pgmDataIdx ≤ j → j < lineLinear s l - lineFirst s l → s1.pgmData j = 0xFF) ∧
      (∀ c, c < pairVal l 1 →
        s1.pgmData (lineLinear s l - lineFirst s l + c) = pairVal l (9 + 2 * c)) ∧
      (∀ j, j < s.pgmDataIdx → s1.pgmData j = s.pgmData j) := by
  obtain ⟨bin, hd, h0, h1, h3, hdat⟩ := decode_validLine s l hv
  have eL : linearAfter (afterGetline s l) bin = lineLinear s l := by
    simp only [linearAfter, lineLinear, afterGetline, h1]
  have eF : firstAfter (afterGetline s l) bin = lineFirst s l := by
    simp only [firstAfter, lineFirst, afterGetline, h1]
  obtain ⟨m, hm, f1, f2, f3⟩ := lineBody_data_spec (afterGetline s l) bin hd
    (by rw [h3, hty]; rfl) hcur (by rw [eL, eF]; exact hgap) (by rw [eL, eF, h0]; exact hcap)
  rw [eL, eF] at hm f1 f2
  rw [h0] at hm f2
  refine ⟨_, hm, rfl, rfl, rfl, rfl, rfl, rfl, rfl, f1, ?_, f3⟩
  intro c hc
  show m _ = _
  rw [f2 c hc, hdat c hc]

/-- The read loop body at a valid data line that ends beyond `pgmData`. -/
theorem step_data_overflow (s : MainState) (l : List Nat) (hv : ValidLine isUpperHexDigit l)
    (hty : pairVal l 7 = 0) (hcur : s.currentAddress < 2 ^ 32)
    (hgap : lineFirst s l + s.pgmDataIdx ≤ lineLinear s l)
    (hidx : s.pgmDataIdx ≤ pgmDataSize)
    (hcap : pgmDataSize < lineLinear s l - lineFirst s l + pairVal l 1) :
    lineBody (afterGetline s l) = .error (Fault.pgmDataOutOfBounds pgmDataSize) := by
  obtain ⟨bin, hd, h0, h1, h3, -⟩ := decode_validLine s l hv
  have eL : linearAfter (afterGetline s l) bin = lineLinear s l := by
    simp only [linearAfter, lineLinear, afterGetline, h1]
  have eF : firstAfter (afterGetline s l) bin = lineFirst s l := by
    simp only [firstAfter, lineFirst, afterGetline, h1]
  exact lineBody_data_overflow (afterGetline s l) bin hd (by rw [h3, hty]; rfl) hcur
    (by rw [eL, eF]; exact hgap) hidx (by rw [eL, eF, h0]; exact hcap)

/-- The read loop body at a valid extended-linear-address line with two
payload bytes: only the extension of the tracker changes, and the first
extension is latched once. -/
theorem step_ext (s : MainState) (l : List Nat) (hv : ValidLine isUpperHexDigit l)
    (hty : pairVal l 7 = 4) (hcount : pairVal l 1 = 2) :
    ∃ s1, lineBody (afterGetline s l) = .ok (Control.next, s1) ∧
      s1.currentAddress = setExt32bit s.currentAddress (lineExt l) ∧
      s1.firstAddress = (if s.extAddrInitDone then s.firstAddress
        else setExt32bit s.firstAddress (lineExt l)) ∧
      s1.extAddrInitDone = true ∧ s1.baseAddrInitDone = s.baseAddrInitDone ∧
      s1.pgmData = s.pgmData ∧ s1.pgmDataIdx = s.pgmDataIdx ∧
      s1.ret = s.ret ∧ s1.result = s.result := by
  obtain ⟨bin, hd, -, -, h3, hdat⟩ := decode_validLine s l hv
  have d0 := hdat 0 (by omega)
  have d1 := hdat 1 (by omega)
  have h := lineBody_ext (afterGetline s l) bin hd (by rw [h3, hty]; rfl)
  rw [d0, d1] at h
  exact ⟨_, h, rfl, rfl, rfl, rfl, rfl, rfl, rfl, rfl⟩

/-- A fault of the read loop is a fault of the run. -/
theorem mainRun_fault (cfg : Config) (lines : List (List Nat)) (s0 : MainState) (f : Fault)
    (hrun : readLoop lines s0 = .error f) : mainRun cfg lines s0 = .error f := by
  unfold mainRun
  rw [hrun]

/-- A read loop left by `goto end` ends the run there. -/
theorem mainRun_abort (cfg : Config) (lines : List (List Nat)) (s0 s : MainState)
    (hrun : readLoop lines s0 = .ok (true, s)) : mainRun cfg lines s0 = .ok (false, s) := by
  unfold mainRun
  rw [hrun]

/-- A read loop that ended with the unsupported-feature status ends the run
before alignment and CRC. -/
theorem mainRun_unsupported (cfg : Config) (lines : List (List Nat)) (s0 s : MainState)
    (hrun : readLoop lines s0 = .ok (false, s)) (hret : s.ret = unsupportedFeature) :
    mainRun cfg lines s0 = .ok (false, s) := by
  unfold mainRun
  rw [hrun]
  simp only [hret, if_true]

/-- The read loop over lines of which a prefix is consumed without leaving
the loop continues with the rest from the state after the prefix. -/
theorem readLoop_consumed (rest : List (List Nat)) : ∀ (pre : List (List Nat)) (s0 s : MainState),
    readPrefix pre s0 = some s → readLoop (pre ++ rest) s0 = readLoop rest s := by
  intro pre
  induction pre with
  | nil =>
    intro s0 s h
    simp only [readPrefix, Option.some.injEq] at h
    rw [h, List.nil_append]
  | cons l pre ih =>
    intro s0 s h
    unfold readPrefix at h
    by_cases hlen : l.length < asciiSize
    · rw [if_pos hlen] at h
      cases hb : lineBody (afterGetline s0 l) with
      | error f => rw [hb] at h; simp at h
      | ok r =>
        obtain ⟨c, s1⟩ := r
        rw [hb] at h
        cases c with
        | next =>
          simp only at h
          rw [List.cons_append, readLoop_next _ _ _ _ hlen hb]
          exact ih s1 s h
        | stop => simp at h
        | abort => simp at h
    · rw [if_neg hlen] at h
      simp at h

/-- A line without the leading `:` is rejected. -/
theorem convertToBinary_nocolon (ascii bin : Mem) (h : ascii 0 ≠ 58) :
    convertToBinary ascii bin = .ok (false, bin) := by
  unfold convertToBinary
  rw [if_pos (by simpa [asciiColon] using h)]
/-! ### The end-to-end example -/

/-- The read loop on the two lines of the example, from any contents of the
uninitialised arrays: two bytes are assembled and the loop ends at the
end-of-file record. -/
theorem readLoop_example (lineASCII lineInteger pgmData : Mem) :
    ∃ s, readLoop [strBytes ":0200000048694D", strBytes ":00000001FF"]
        (initialState lineASCII lineInteger pgmData) = .ok (false, s) ∧
      s.ret = success ∧ s.result = 0xFFFFFFFF ∧ s.pgmDataIdx = 2 ∧
      s.pgmData 0 = 0x48 ∧ s.pgmData 1 = 0x69 ∧ s.firstAddress = 0 := by
  have hv1 : ValidLine isUpperHexDigit (strBytes ":0200000048694D") := by decide!
  have hv2 : ValidLine isUpperHexDigit (strBytes ":00000001FF") := by decide!
  have eA : lineAddr (strBytes ":0200000048694D") = 0 := by decide
  have eN : pairVal (strBytes ":0200000048694D") 1 = 2 := by decide
  have eL : lineLinear (initialState lineASCII lineInteger pgmData)
      (strBytes ":0200000048694D") = 0 := by
    simp only [lineLinear, eA, initialState]; decide
  have eF : lineFirst (initialState lineASCII lineInteger pgmData)
      (strBytes ":0200000048694D") = 0 := by
    simp only [lineFirst, eA, initialState]; decide
  obtain ⟨s1, h1, -, f1, -, -, i1, r1, t1, -, hpay, -⟩ :=
    step_data (initialState lineASCII lineInteger pgmData) (strBytes ":0200000048694D") hv1
      (by decide) (by simp only [initialState]; decide)
      (by rw [eL, eF]; simp only [initialState]; decide)
      (by rw [eL, eF, eN]; simp only [pgmDataSize]; decide)
  rw [eL, eF, eN] at i1 hpay
  rw [eF] at f1
  obtain ⟨s2, h2, -, f2, -, -, m2, i2, r2, t2⟩ :=
    step_eof s1 (strBytes ":00000001FF") hv2 (by decide)
  have p0 := hpay 0 (by decide)
  have p1 := hpay 1 (by decide)
  refine ⟨s2, ?_, ?_, ?_, ?_, ?_, ?_, ?_⟩
  · rw [readLoop_next _ _ _ _ (validLine_length _ hv1) h1,
      readLoop_stop _ _ _ _ (validLine_length _ hv2) h2]
  · rw [r2, r1]; rfl
  · rw [t2, t1]; rfl
  · rw [i2, i1]
  · rw [m2, p0]; decide
  · rw [m2, p1]; decide
  · rw [f2, f1]

theorem switchEndian_ones (b : Mem) : switchEndian 4 b 0xFFFFFFFF = 0xFFFFFFFF := by
  simp [switchEndian, switchEndianLoop, casterReg, casterByte, setByte_apply]

/-- C5 (as amended). End-to-end example: processing the two-line input
`:0200000048694D` then `:00000001FF` with the default polynomial `0x04C11DB7`
and the default fill succeeds, from any contents of the uninitialised arrays:
both lines decode, the exit status is success, the image has length 4, a
multiple of 4, and the CRC value is `0xFFFFFFFF`, which is also the content
of the four image bytes. -/
theorem end_to_end_example (lineASCII lineInteger pgmData : Mem) :
    ∃ s, mainRun defaultConfig [strBytes ":0200000048694D", strBytes ":00000001FF"]
        (initialState lineASCII lineInteger pgmData) = .ok (true, s) ∧
      s.ret = success ∧ s.pgmDataIdx = 4 ∧ s.pgmDataIdx % 4 = 0 ∧
      s.result = 0xFFFFFFFF ∧ (∀ b, switchEndian 4 b s.result = 0xFFFFFFFF) ∧
      (∀ j, j < 4 → s.pgmData j = 0xFF) := by
  obtain ⟨s, hrun, hret, hres, hidx, -, -, -⟩ := readLoop_example lineASCII lineInteger pgmData
  obtain ⟨s1, s2, hal, hp, hmain⟩ := mainRun_after_read defaultConfig _ _ s hrun
    (by rw [hret]; decide) (by omega) (by rw [hidx]; simp only [pgmDataSize]; decide)
  obtain ⟨t1, hal1, a1, a2, a3, a4, -, -, hret1, hres1, -⟩ :=
    alignImage_spec s (by rw [hidx]; simp only [pgmDataSize]; decide)
  obtain rfl : s1 = t1 := Except.ok.inj (hal.symm.trans hal1)
  have hidx1 : s1.pgmDataIdx = 4 := by omega
  obtain ⟨t2, hp2, r2, i2, e2, -, -, b2⟩ := crcAndPatch_effect defaultConfig s1 (by omega) a4 a1
  obtain rfl : s2 = t2 := Except.ok.inj (hp.symm.trans hp2)
  have hr : s2.result = 0xFFFFFFFF := by
    rw [r2, hidx1, hres1, hres]
    rfl
  refine ⟨s2, hmain, ?_, ?_, ?_, hr, ?_, ?_⟩
  · rw [e2, hret1, hret]
  · rw [i2, hidx1]
  · rw [i2, a1]
  · intro b
    rw [hr]
    exact switchEndian_ones b
  · intro j hj
    have c : ∀ e, e < 4 → casterByte 4294967295 e = 255 := by decide
    have := b2 j hj
    rw [hidx1, hr, c j hj] at this
    simpa using this

/-- C5 (as stated) fails: the first line of the example input,
`:0200000048690C`, carries the checksum `0C` where the fields add up to `4D`;
`convertToBinary` rejects it and the run ends with the line-checksum-error
status, before any byte is assembled and without a CRC. -/
theorem end_to_end_counterexample :
    (mainRun defaultConfig [strBytes ":0200000048690C", strBytes ":00000001FF"]
        (initialState zeroMem zeroMem zeroMem)).map
      (fun r => (r.1, r.2.ret, r.2.pgmDataIdx)) = .ok (false, lineCRCerr, 0) ∧
    lineCRCerr ≠ success := by decide!
/-! ### Capacity -/

/-- C9 fails on the code: a record stream that asks for more than 1 MiB is
not stopped.  On the input `:020000040000FA`, `:0200000048694D`,
`:020000040010EA`, `:02000000AABB99` (extension 0, two bytes at address 0,
extension `0x0010`, two bytes at address `0x00100000`) the gap loop fills the
array up to its last element and the copy loop then stores at
`pgmData[1048576]`, one past the end of the array, whatever the arrays held
before. -/
theorem capacity_overflow (lineASCII lineInteger pgmData : Mem) :
    mainRun defaultConfig
      [strBytes ":020000040000FA", strBytes ":0200000048694D", strBytes ":020000040010EA",
        strBytes ":02000000AABB99"]
      (initialState lineASCII lineInteger pgmData)
      = .error (Fault.pgmDataOutOfBounds 1048576) := by
  have hv1 : ValidLine isUpperHexDigit (strBytes ":020000040000FA") := by decide!
  have hv2 : ValidLine isUpperHexDigit (strBytes ":0200000048694D") := by decide!
  have hv3 : ValidLine isUpperHexDigit (strBytes ":020000040010EA") := by decide!
  have hv4 : ValidLine isUpperHexDigit (strBytes ":02000000AABB99") := by decide!
  -- line 1: extension 0, latched as the first extension
  obtain ⟨s1, h1, c1, f1, x1, b1, -, i1, -, -⟩ :=
    step_ext (initialState lineASCII lineInteger pgmData) (strBytes ":020000040000FA") hv1
      (by decide) (by decide)
  have c1v : s1.currentAddress = 0 := by rw [c1]; simp only [initialState]; decide
  have f1v : s1.firstAddress = 0 := by rw [f1]; simp only [initialState]; decide
  have i1v : s1.pgmDataIdx = 0 := by rw [i1]; rfl
  have b1v : s1.baseAddrInitDone = false := by rw [b1]; rfl
  -- line 2: two bytes at address 0
  have eL2 : lineLinear s1 (strBytes ":0200000048694D") = 0 := by
    simp only [lineLinear, c1v]; decide
  have eF2 : lineFirst s1 (strBytes ":0200000048694D") = 0 := by
    simp only [lineFirst, f1v, b1v]; decide
  obtain ⟨s2, h2, c2, f2, x2, b2, i2, -⟩ :=
    step_data s1 (strBytes ":0200000048694D") hv2 (by decide) (by rw [c1v]; decide)
      (by rw [eL2, eF2, i1v]) (by rw [eL2, eF2]; simp only [pgmDataSize]; decide)
  rw [eL2] at c2
  rw [eF2] at f2
  rw [eL2, eF2] at i2
  -- line 3: extension 0x0010, the first address keeps extension 0
  obtain ⟨s3, h3, c3, f3, -, b3, -, i3, -, -⟩ :=
    step_ext s2 (strBytes ":020000040010EA") hv3 (by decide) (by decide)
  have c3v : s3.currentAddress = 0x100000 := by rw [c3, c2]; decide
  have f3v : s3.firstAddress = 0 := by rw [f3, x2, x1, if_pos rfl, f2]
  have i3v : s3.pgmDataIdx = 2 := by rw [i3, i2]; decide
  have b3v : s3.baseAddrInitDone = true := by rw [b3, b2]
  -- line 4: two bytes at address 0x00100000
  have eL4 : lineLinear s3 (strBytes ":02000000AABB99") = 0x100000 := by
    simp only [lineLinear, c3v]; decide
  have eF4 : lineFirst s3 (strBytes ":02000000AABB99") = 0 := by
    simp only [lineFirst, f3v, b3v, if_true]
  have h4 := step_data_overflow s3 (strBytes ":02000000AABB99") hv4 (by decide)
    (by rw [c3v]; decide) (by rw [eL4, eF4, i3v]; decide)
    (by rw [i3v]; simp only [pgmDataSize]; decide)
    (by rw [eL4, eF4]; simp only [pgmDataSize]; decide)
  apply mainRun_fault
  rw [readLoop_next _ _ _ _ (validLine_length _ hv1) h1,
    readLoop_next _ _ _ _ (validLine_length _ hv2) h2,
    readLoop_next _ _ _ _ (validLine_length _ hv3) h3,
    readLoop_fault _ _ _ _ (validLine_length _ hv4) h4]
  rfl
/-! ### The fill value -/

/-- The run does not read `fillment`. -/
theorem mainRun_fillment (cfg : Config) (v : Nat) (lines : List (List Nat)) (s0 : MainState) :
    mainRun { cfg with fillment := v } lines s0 = mainRun cfg lines s0 := rfl

/-- C8 fails on the code: the fill value is ignored.  With any value `v` of
`fillment` (for instance `-f 0x00`) and the input `:0200000048694D`,
`:02001000AABB89`, `:00000001FF`, the fourteen gap bytes at offsets 2..15 of
the image are `0xFF`, not the low byte of `v`: the gap loop and the padding
loop store the literal `0xFF`. -/
theorem fill_value_ignored (v : Nat) :
    (mainRun { poly := 0x04C11DB7, fillment := v }
        [strBytes ":0200000048694D", strBytes ":02001000AABB89", strBytes ":00000001FF"]
        (initialState zeroMem zeroMem zeroMem)).map
      (fun r => (r.1, r.2.ret, r.2.pgmDataIdx, bytesOf r.2.pgmData 16)) =
    .ok (true, success, 20,
      [0x48, 0x69, 0xFF, 0xFF, 0xFF, 0xFF, 0xFF, 0xFF, 0xFF, 0xFF, 0xFF, 0xFF, 0xFF, 0xFF,
        0xFF, 0xFF]) := by
  have h : (mainRun defaultConfig
        [strBytes ":0200000048694D", strBytes ":02001000AABB89", strBytes ":00000001FF"]
        (initialState zeroMem zeroMem zeroMem)).map
      (fun r => (r.1, r.2.ret, r.2.pgmDataIdx, bytesOf r.2.pgmData 16)) =
    .ok (true, success, 20,
      [0x48, 0x69, 0xFF, 0xFF, 0xFF, 0xFF, 0xFF, 0xFF, 0xFF, 0xFF, 0xFF, 0xFF, 0xFF, 0xFF,
        0xFF, 0xFF]) := by decide!
  rw [← mainRun_fillment defaultConfig v] at h
  exact h
/-! ### Malformed lines -/

theorem afterGetline_head (s : MainState) (l : List Nat) (h : l.headD 0 ≠ 58) :
    (afterGetline s l).lineASCII 0 ≠ 58 := by
  cases l with
  | nil => simp [afterGetline, loadLine]
  | cons a t => simpa [afterGetline, loadLine] using h

/-- C10 (as amended). A line is rejected when it lacks the leading `:`, and
every line that `convertToBinary` rejects, wherever it stands in the input
after lines that were consumed, aborts the run with the line-checksum-error
status, without a CRC and with the image as it was before the line.  (The
digits of the fields are not checked: see the counterexample.) -/
theorem rejected_line_aborts (cfg : Config) (pre rest : List (List Nat)) (l : List Nat)
    (s0 s : MainState) (hpre : readPrefix pre s0 = some s) (hlen : l.length < asciiSize)
    (hrej : l.headD 0 ≠ 58 ∨
      (convertToBinary (afterGetline s l).lineASCII (afterGetline s l).lineInteger).map
        Prod.fst = .ok false) :
    ∃ s1, mainRun cfg (pre ++ l :: rest) s0 = .ok (false, s1) ∧ s1.ret = lineCRCerr ∧
      lineCRCerr = -5 ∧ s1.pgmData = s.pgmData ∧ s1.pgmDataIdx = s.pgmDataIdx ∧
      s1.result = s.result := by
  have hdec : ∃ bin, convertToBinary (afterGetline s l).lineASCII (afterGetline s l).lineInteger
      = .ok (false, bin) := by
    rcases hrej with h | h
    · exact ⟨_, convertToBinary_nocolon _ _ (afterGetline_head s l h)⟩
    · exact exists_of_map_fst _ _ h
  obtain ⟨bin, hd⟩ := hdec
  have hb := lineBody_reject (afterGetline s l) bin hd
  refine ⟨{ afterGetline s l with lineInteger := bin, ret := lineCRCerr }, ?_, rfl, rfl, rfl,
    rfl, rfl⟩
  apply mainRun_abort
  rw [readLoop_consumed _ _ _ _ hpre]
  exact readLoop_abort _ _ _ _ hlen hb

theorem rejected_line_aborts_witness :
    ∃ s1, mainRun defaultConfig ([] ++ strBytes "0200000048694D" :: [strBytes ":00000001FF"])
        (initialState zeroMem zeroMem zeroMem) = .ok (false, s1) ∧
      s1.ret = lineCRCerr ∧ lineCRCerr = -5 ∧
      s1.pgmData = (initialState zeroMem zeroMem zeroMem).pgmData ∧
      s1.pgmDataIdx = (initialState zeroMem zeroMem zeroMem).pgmDataIdx ∧
      s1.result = (initialState zeroMem zeroMem zeroMem).result :=
  rejected_line_aborts defaultConfig [] [strBytes ":00000001FF"]
    (strBytes "0200000048694D") (initialState zeroMem zeroMem zeroMem)
    (initialState zeroMem zeroMem zeroMem) rfl (by decide) (Or.inl (by decide))

/-- C10 (as stated) fails: `charHex2uint` stops at a character that is not a
hexadecimal digit and returns what it has read, so such lines are accepted
when the checksum comparison happens to hold.  `:02000000G1ZZFE` (no
hexadecimal digit in the payload field) is accepted as two bytes `00 00`, and
`:0200000011ED` (two payload digits where the byte count announces four, and
no checksum) is accepted as the bytes `11 ED` with checksum `00`; the run on
the latter ends with status success. -/
theorem malformed_line_accepted :
    (convertToBinary (loadLine zeroMem (strBytes ":02000000G1ZZFE")) zeroMem).map
      (fun r => (r.1, bytesOf r.2 6)) = .ok (true, [2, 0, 0, 0, 0, 0]) ∧
    (convertToBinary (loadLine zeroMem (strBytes ":0200000011ED")) zeroMem).map
      (fun r => (r.1, bytesOf r.2 6)) = .ok (true, [2, 0, 0, 0, 0x11, 0xED]) ∧
    (mainRun defaultConfig [strBytes ":0200000011ED", strBytes ":00000001FF"]
        (initialState zeroMem zeroMem zeroMem)).map (fun r => (r.1, r.2.ret)) =
      .ok (true, success) := by decide!
/-! ### More on the read loop body and the CRC step -/

/-- The read loop body at an accepted extended-segment-address record: `ret`
is set and the loop is left by `break`. -/
theorem lineBody_addr20 (s : MainState) (bin : Mem)
    (hdec : convertToBinary s.lineASCII s.lineInteger = .ok (true, bin))
    (hty : bin binRecordType = addr20bit) :
    lineBody s = .ok (Control.stop, { s with lineInteger := bin, ret := unsupportedFeature }) := by
  unfold lineBody
  rw [hdec]
  simp only [hty]
  have e1 : (addr20bit = endOfFile) = False := by decide
  have e2 : (addr20bit = start20bit) = False := by decide
  have e3 : (addr20bit = start32bit) = False := by decide
  have e4 : (addr20bit = addr16bitAndData) = False := by decide
  simp only [e1, e2, e3, e4, if_false, if_true]

/-- The read loop body at an accepted start-address record (type 3 or 5):
`continue`. -/
theorem lineBody_start (s : MainState) (bin : Mem)
    (hdec : convertToBinary s.lineASCII s.lineInteger = .ok (true, bin))
    (hty : bin binRecordType = start20bit ∨ bin binRecordType = start32bit) :
    lineBody s = .ok (Control.next, { s with lineInteger := bin }) := by
  unfold lineBody
  rw [hdec]
  have e1 : (start20bit = endOfFile) = False := by decide
  have e2 : (start32bit = endOfFile) = False := by decide
  have e3 : (start32bit = start20bit) = False := by decide
  rcases hty with h | h
  · simp only [h, e1, if_false, if_true]
  · simp only [h, e2, e3, if_false, if_true]

/-- The CRC loop with a bound beyond the array reads all of `pgmData` and then
`pgmData[1048576 + 3]`. -/
theorem crcLoop_overrun (p : Nat) (m : Mem) (bound : Nat) (hb : pgmDataSize < bound) :
    ∀ w i r, i + 4 * w = pgmDataSize →
    crcLoop p m bound w i r = .error (Fault.pgmDataOutOfBounds (pgmDataSize + 3)) := by
  intro w
  induction w with
  | zero =>
    intro i r h
    unfold crcLoop
    rw [if_pos (by omega)]
    simp only []
    rw [show i = pgmDataSize by omega]
  | succ w ih =>
    intro i r h
    have hrd : i + 3 < pgmDataSize := by omega
    have hmod : (i + 4) % 2 ^ 32 = i + 4 := by
      apply Nat.mod_eq_of_lt
      simp only [pgmDataSize] at h
      omega
    unfold crcLoop
    rw [if_pos (by omega)]
    simp only [readAt, hrd, if_true, hmod]
    exact ih (i + 4) _ (by omega)

/-- A fault of the CRC step is a fault of the run. -/
theorem mainRun_crc_fault (cfg : Config) (lines : List (List Nat)) (s0 s s1 : MainState)
    (f : Fault) (hrun : readLoop lines s0 = .ok (false, s)) (hne : s.ret ≠ unsupportedFeature)
    (hal : alignImage s = .ok s1) (hp : crcAndPatch cfg s1 = .error f) :
    mainRun cfg lines s0 = .error f := by
  unfold mainRun
  rw [hrun]
  simp only [hne, if_false, hal, hp]

/-- The fold over `n` words reads the offsets `[i, i + 4 n)` only. -/
theorem crcWords_congr (p : Nat) (m1 m2 : Mem) : ∀ n i r,
    (∀ j, i ≤ j → j < i + 4 * n → m1 j = m2 j) → crcWords p m1 n i r = crcWords p m2 n i r := by
  intro n
  induction n with
  | zero => intro i r _; rfl
  | succ n ih =>
    intro i r h
    have hw : leWord m1 i = leWord m2 i := by
      unfold leWord
      rw [h (i + 3) (by omega) (by omega), h (i + 2) (by omega) (by omega),
        h (i + 1) (by omega) (by omega), h (i + 0) (by omega) (by omega)]
    simp only [crcWords, hw]
    exact ih (i + 4) _ (fun j h1 h2 => h j (by omega) (by omega))

/-- `switchEndian<uint32_t>` returns the four bytes of its argument in
reverse order, whatever the local union `b` held. -/
theorem switchEndian_four (b : Mem) (x : Nat) :
    switchEndian 4 b x = casterByte x 3 + casterByte x 2 * 2 ^ 8 + casterByte x 1 * 2 ^ 16
      + casterByte x 0 * 2 ^ 24 := by
  simp [switchEndian, switchEndianLoop, casterReg, setByte_apply, Nat.shiftLeft_eq]

/-- `switchEndian<uint16_t>` swaps the two bytes of its argument. -/
theorem switchEndian_two (b : Mem) (x : Nat) :
    switchEndian 2 b x = casterByte x 1 + casterByte x 0 * 2 ^ 8 := by
  simp [switchEndian, switchEndianLoop, casterReg, setByte_apply, Nat.shiftLeft_eq]
/-! ### The checksum patch -/

/-- Four bytes packed most significant first are read back by division. -/
theorem reversed_bytes (a0 a1 a2 a3 : Nat) (h0 : a0 < 256) (h1 : a1 < 256) (h2 : a2 < 256)
    (h3 : a3 < 256) :
    (a3 + a2 * 2 ^ 8 + a1 * 2 ^ 16 + a0 * 2 ^ 24) / 2 ^ 24 % 256 = a0 ∧
    (a3 + a2 * 2 ^ 8 + a1 * 2 ^ 16 + a0 * 2 ^ 24) / 2 ^ 16 % 256 = a1 ∧
    (a3 + a2 * 2 ^ 8 + a1 * 2 ^ 16 + a0 * 2 ^ 24) / 2 ^ 8 % 256 = a2 ∧
    (a3 + a2 * 2 ^ 8 + a1 * 2 ^ 16 + a0 * 2 ^ 24) % 256 = a3 := by
  refine ⟨?_, ?_, ?_, ?_⟩ <;> omega

/-- C15. Checksum patch: for every aligned image of length `N ≥ 4` inside
`pgmData`, the CRC step ends, leaves the length and the offsets `[0, N-4)`
unchanged, and writes at `N-4`, `N-3`, `N-2`, `N-1` the bytes of the displayed
value `switchEndian(result)` from most significant to least significant; the
displayed value is the byte reversal of the accumulator, so the stored bytes
are the bytes of the accumulator least significant first. -/
theorem checksum_patch (cfg : Config) (s : MainState) (b : Mem) (h4 : 4 ≤ s.pgmDataIdx)
    (hcap : s.pgmDataIdx ≤ pgmDataSize) (hal : s.pgmDataIdx % 4 = 0) :
    ∃ s2, crcAndPatch cfg s = .ok s2 ∧ s2.pgmDataIdx = s.pgmDataIdx ∧
      (∀ j, j < s.pgmDataIdx - 4 → s2.pgmData j = s.pgmData j) ∧
      s2.pgmData (s.pgmDataIdx - 4) = switchEndian 4 b s2.result / 2 ^ 24 % 256 ∧
      s2.pgmData (s.pgmDataIdx - 3) = switchEndian 4 b s2.result / 2 ^ 16 % 256 ∧
      s2.pgmData (s.pgmDataIdx - 2) = switchEndian 4 b s2.result / 2 ^ 8 % 256 ∧
      s2.pgmData (s.pgmDataIdx - 1) = switchEndian 4 b s2.result % 256 ∧
      switchEndian 4 b s2.result =
        s2.result % 256 * 2 ^ 24 + s2.result / 2 ^ 8 % 256 * 2 ^ 16
          + s2.result / 2 ^ 16 % 256 * 2 ^ 8 + s2.result / 2 ^ 24 % 256 ∧
      (∀ k, k < 4 → s2.pgmData (s.pgmDataIdx - 4 + k) = s2.result / 2 ^ (8 * k) % 256) := by
  obtain ⟨s2, hp, -, hidx, -, -, hkeep, hbytes⟩ := crcAndPatch_effect cfg s h4 hcap hal
  have c0 := hbytes 0 (by omega)
  have c1 := hbytes 1 (by omega)
  have c2 := hbytes 2 (by omega)
  have c3 := hbytes 3 (by omega)
  have e1 : s.pgmDataIdx - 4 + 1 = s.pgmDataIdx - 3 := by omega
  have e2 : s.pgmDataIdx - 4 + 2 = s.pgmDataIdx - 2 := by omega
  have e3 : s.pgmDataIdx - 4 + 3 = s.pgmDataIdx - 1 := by omega
  rw [Nat.add_zero] at c0
  rw [e1] at c1
  rw [e2] at c2
  rw [e3] at c3
  obtain ⟨r0, r1, r2, r3⟩ := reversed_bytes _ _ _ _ (casterByte_lt s2.result 0)
    (casterByte_lt s2.result 1) (casterByte_lt s2.result 2) (casterByte_lt s2.result 3)
  have v0 : casterByte s2.result 0 = s2.result % 256 := by
    simp [casterByte]
  have v1 : casterByte s2.result 1 = s2.result / 2 ^ 8 % 256 := by
    simp [casterByte, Nat.shiftRight_eq_div_pow]
  have v2 : casterByte s2.result 2 = s2.result / 2 ^ 16 % 256 := by
    simp [casterByte, Nat.shiftRight_eq_div_pow]
  have v3 : casterByte s2.result 3 = s2.result / 2 ^ 24 % 256 := by
    simp [casterByte, Nat.shiftRight_eq_div_pow]
  refine ⟨s2, hp, hidx, fun j hj => hkeep j (Or.inl hj), ?_, ?_, ?_, ?_, ?_, ?_⟩
  · rw [c0, switchEndian_four, r0]
  · rw [c1, switchEndian_four, r1]
  · rw [c2, switchEndian_four, r2]
  · rw [c3, switchEndian_four, r3]
  · rw [switchEndian_four, v0, v1, v2, v3]; omega
  · intro k hk
    rw [hbytes k hk]
    simp [casterByte, Nat.shiftRight_eq_div_pow]

theorem checksum_patch_witness :
    ∃ s2, crcAndPatch defaultConfig { initialState zeroMem zeroMem zeroMem with pgmDataIdx := 4 }
        = .ok s2 ∧
      s2.pgmDataIdx = 4 ∧ (∀ j, j < 4 - 4 → s2.pgmData j = zeroMem j) ∧
      s2.pgmData (4 - 4) = switchEndian 4 zeroMem s2.result / 2 ^ 24 % 256 ∧
      s2.pgmData (4 - 3) = switchEndian 4 zeroMem s2.result / 2 ^ 16 % 256 ∧
      s2.pgmData (4 - 2) = switchEndian 4 zeroMem s2.result / 2 ^ 8 % 256 ∧
      s2.pgmData (4 - 1) = switchEndian 4 zeroMem s2.result % 256 ∧
      switchEndian 4 zeroMem s2.result =
        s2.result % 256 * 2 ^ 24 + s2.result / 2 ^ 8 % 256 * 2 ^ 16
          + s2.result / 2 ^ 16 % 256 * 2 ^ 8 + s2.result / 2 ^ 24 % 256 ∧
      (∀ k, k < 4 → s2.pgmData (4 - 4 + k) = s2.result / 2 ^ (8 * k) % 256) :=
  checksum_patch defaultConfig { initialState zeroMem zeroMem zeroMem with pgmDataIdx := 4 }
    zeroMem (by decide) (by decide) (by decide)
/-! ### Unsupported records -/

/-- C16. Unsupported 20-bit segment records: when the lines before an
accepted type-2 record were consumed by the read loop without leaving it (each
decoded, none an end-of-file record), the run ends at the type-2 record with the
unsupported-feature status `-6`, whatever lines follow; the CRC steps are not
reached and the image and the accumulator are as they were before the
record. -/
theorem unsupported_segment_record (cfg : Config) (pre rest : List (List Nat)) (l : List Nat)
    (s0 s : MainState) (hpre : readPrefix pre s0 = some s) (hlen : l.length < asciiSize)
    (hdec : (convertToBinary (afterGetline s l).lineASCII (afterGetline s l).lineInteger).map
        (fun r => (r.1, r.2 binRecordType)) = .ok (true, addr20bit)) :
    ∃ s1, mainRun cfg (pre ++ l :: rest) s0 = .ok (false, s1) ∧ s1.ret = unsupportedFeature ∧
      unsupportedFeature = -6 ∧ s1.pgmData = s.pgmData ∧ s1.pgmDataIdx = s.pgmDataIdx ∧
      s1.result = s.result := by
  obtain ⟨bin, hd, hty⟩ := exists_of_map_fields _ (fun b => b binRecordType) true addr20bit hdec
  have hb := lineBody_addr20 (afterGetline s l) bin hd hty
  refine ⟨{ afterGetline s l with lineInteger := bin, ret := unsupportedFeature }, ?_, rfl, rfl,
    rfl, rfl, rfl⟩
  apply mainRun_unsupported _ _ _ _ _ rfl
  rw [readLoop_consumed _ _ _ _ hpre]
  exact readLoop_stop _ _ _ _ hlen hb

theorem unsupported_segment_record_witness :
    ∃ s1, mainRun defaultConfig ([] ++ strBytes ":020000021000EC" ::
        [strBytes ":0200000048694D", strBytes ":00000001FF"])
        (initialState zeroMem zeroMem zeroMem) = .ok (false, s1) ∧
      s1.ret = unsupportedFeature ∧ unsupportedFeature = -6 ∧
      s1.pgmData = (initialState zeroMem zeroMem zeroMem).pgmData ∧
      s1.pgmDataIdx = (initialState zeroMem zeroMem zeroMem).pgmDataIdx ∧
      s1.result = (initialState zeroMem zeroMem zeroMem).result :=
  unsupported_segment_record defaultConfig []
    [strBytes ":0200000048694D", strBytes ":00000001FF"] (strBytes ":020000021000EC")
    (initialState zeroMem zeroMem zeroMem) (initialState zeroMem zeroMem zeroMem) rfl
    (by decide) (by decide!)
/-! ### The byte count of an accepted record -/

/-- C17 fails on the code: `convertToBinary` does not check the byte count.
The 43 character line `:11000000EF00...00` announces 17 bytes; the seventeenth
is stored in `data.byte[16]`, which is the `checksum` member, the checksum is
then read at the terminating NUL as 0, and the line is accepted with byte
count 17; the run copies 17 bytes into the image and ends with status
success.  A line that announces 18 bytes makes the payload loop store outside
the `IntelHexBinary` object. -/
theorem byte_count_not_bounded :
    (convertToBinary (loadLine zeroMem (strBytes ":11000000EF00000000000000000000000000000000"))
        zeroMem).map (fun r => (r.1, r.2 binByteCount)) = .ok (true, 17) ∧
    (mainRun defaultConfig
        [strBytes ":11000000EF00000000000000000000000000000000", strBytes ":00000001FF"]
        (initialState zeroMem zeroMem zeroMem)).map
      (fun r => (r.1, r.2.ret, r.2.pgmDataIdx)) = .ok (true, success, 20) ∧
    (convertToBinary (loadLine zeroMem (strBytes ":12000000EE00000000000000000000000000000000"))
        zeroMem).map Prod.fst = .error (Fault.binOutOfBounds 21) := by decide!
/-! ### The CRC step on an empty image -/

/-- The CRC step on an empty image: the loop bound `pgmDataIdx-4` wraps to
`0xFFFFFFFC` and the loop reads past the end of `pgmData`. -/
theorem crcAndPatch_empty (cfg : Config) (s : MainState) (h : s.pgmDataIdx = 0) :
    crcAndPatch cfg s = .error (Fault.pgmDataOutOfBounds (pgmDataSize + 3)) := by
  have hb : (2 ^ 32 + 0 - 4) % 2 ^ 32 = 4294967292 := by decide
  unfold crcAndPatch
  rw [h, hb, crcLoop_overrun cfg.poly s.pgmData 4294967292 (by simp only [pgmDataSize]; decide)
    (pgmDataSize / 4) 0 s.result (by simp only [pgmDataSize])]

/-- C18 fails on the code: the CRC step has an error condition.  For the
input that holds the end-of-file record `:00000001FF` only, the image is
empty, `pgmDataIdx-4` wraps to `0xFFFFFFFC`, and the CRC loop runs through
all of `pgmData` and reads `pgmData[1048579]`, outside the array, for every
polynomial and whatever the arrays held before. -/
theorem crc_step_empty_image (cfg : Config) (lineASCII lineInteger pgmData : Mem) :
    mainRun cfg [strBytes ":00000001FF"] (initialState lineASCII lineInteger pgmData)
      = .error (Fault.pgmDataOutOfBounds 1048579) := by
  have hv : ValidLine isUpperHexDigit (strBytes ":00000001FF") := by decide!
  obtain ⟨s1, h1, -, -, -, -, -, i1, r1, -⟩ :=
    step_eof (initialState lineASCII lineInteger pgmData) (strBytes ":00000001FF") hv (by decide)
  have hidx : s1.pgmDataIdx = 0 := by rw [i1]; rfl
  have hal : alignImage s1 = .ok s1 := by
    unfold alignImage
    rw [hidx]
    simp
  exact mainRun_crc_fault cfg _ _ s1 s1 _ (readLoop_stop _ _ _ _ (validLine_length _ hv) h1)
    (by rw [r1]; simp only [initialState]; decide) hal (crcAndPatch_empty cfg s1 hidx)
/-! ### The checksum slot -/

/-- C19. The checksum slot is excluded from its own input: for every
polynomial, two aligned images of the same length `N ≥ 4` that agree on the
offsets `[0, N-4)` and start from the same accumulator get the same CRC; and
running the CRC step again on the patched image, from the accumulator the
first run started with, computes the same CRC and leaves every byte of the
image unchanged. -/
theorem checksum_slot_excluded (cfg : Config) (s t : MainState) (h4 : 4 ≤ s.pgmDataIdx)
    (hcap : s.pgmDataIdx ≤ pgmDataSize) (hal : s.pgmDataIdx % 4 = 0)
    (hlen : t.pgmDataIdx = s.pgmDataIdx) (hseed : t.result = s.result)
    (hagree : ∀ j, j < s.pgmDataIdx - 4 → t.pgmData j = s.pgmData j) :
    ∃ s2 t2 s3, crcAndPatch cfg s = .ok s2 ∧ crcAndPatch cfg t = .ok t2 ∧
      t2.result = s2.result ∧
      crcAndPatch cfg { s2 with result := s.result } = .ok s3 ∧
      s3.result = s2.result ∧ (∀ j, s3.pgmData j = s2.pgmData j) := by
  obtain ⟨s2, hs, rs, is, -, -, ks, bs⟩ := crcAndPatch_effect cfg s h4 hcap hal
  obtain ⟨t2, ht, rt, -⟩ := crcAndPatch_effect cfg t (by omega) (by omega) (by omega)
  obtain ⟨s3, hr, rr, -, -, -, kr, br⟩ := crcAndPatch_effect cfg { s2 with result := s.result }
    (by show 4 ≤ s2.pgmDataIdx; omega) (by show s2.pgmDataIdx ≤ pgmDataSize; omega)
    (by show s2.pgmDataIdx % 4 = 0; omega)
  have hwords : 4 * (s.pgmDataIdx / 4 - 1) = s.pgmDataIdx - 4 := by omega
  have e1 : t2.result = s2.result := by
    rw [rt, rs, hlen, hseed]
    exact crcWords_congr _ _ _ _ _ _ (fun j _ hj => hagree j (by omega))
  have e2 : s3.result = s2.result := by
    rw [rr, rs]
    show crcWords cfg.poly s2.pgmData (s2.pgmDataIdx / 4 - 1) 0 s.result = _
    rw [is]
    exact crcWords_congr _ _ _ _ _ _ (fun j _ hj => ks j (Or.inl (by omega)))
  refine ⟨s2, t2, s3, hs, ht, e1, hr, e2, ?_⟩
  intro j
  by_cases hj : j < s.pgmDataIdx - 4 ∨ s.pgmDataIdx ≤ j
  · exact kr j (by show j < s2.pgmDataIdx - 4 ∨ s2.pgmDataIdx ≤ j; rw [is]; exact hj)
  · obtain ⟨k, hk, rfl⟩ : ∃ k, k < 4 ∧ j = s.pgmDataIdx - 4 + k := ⟨j - (s.pgmDataIdx - 4),
      by omega, by omega⟩
    have h3 := br k hk
    have h2 := bs k hk
    rw [e2] at h3
    rw [h2]
    rw [← is]
    exact h3

theorem checksum_slot_excluded_witness :
    ∃ s2 t2 s3,
      crcAndPatch defaultConfig { initialState zeroMem zeroMem zeroMem with pgmDataIdx := 8 }
        = .ok s2 ∧
      crcAndPatch defaultConfig
        { initialState zeroMem zeroMem (setByte zeroMem 5 0x77) with pgmDataIdx := 8 } = .ok t2 ∧
      t2.result = s2.result ∧
      crcAndPatch defaultConfig { s2 with
        result := ({ initialState zeroMem zeroMem zeroMem with pgmDataIdx := 8 }).result }
        = .ok s3 ∧
      s3.result = s2.result ∧ (∀ j, s3.pgmData j = s2.pgmData j) :=
  checksum_slot_excluded defaultConfig
    { initialState zeroMem zeroMem zeroMem with pgmDataIdx := 8 }
    { initialState zeroMem zeroMem (setByte zeroMem 5 0x77) with pgmDataIdx := 8 }
    (by decide) (by decide) (by decide) rfl rfl
    (fun j hj => by
      have hj4 : j < 4 := hj
      show setByte zeroMem 5 0x77 j = zeroMem j
      rw [setByte_other _ _ _ _ (by omega)])
/-! ### Address records -/

/-- A value shifted left and combined with a smaller one by `|` is their sum. -/
theorem shiftLeft_or (a b i : Nat) (h : b < 2 ^ i) : (a <<< i) ||| b = a * 2 ^ i + b := by
  rw [Nat.shiftLeft_eq, Nat.mul_comm a, ← Nat.mul_add_lt_is_or h]

/-- C20. Extended-linear record transition: an accepted type-4 record with
payload bytes `b0`, `b1` sets the extension of the current address to
`b0*256 + b1` and keeps its base, so that the current address is
`(extension << 16) | base`; it sets the extension of the first address to the
same value when no type-4 record was processed before and leaves the first
address unchanged otherwise; image bytes and length are unchanged.  Accepted
type-3 and type-5 records change neither the tracker nor the image. -/
theorem extended_linear_transition (s : MainState) (bin : Mem)
    (hdec : convertToBinary s.lineASCII s.lineInteger = .ok (true, bin))
    (hb0 : bin (binData + 0) < 256) (hb1 : bin (binData + 1) < 256) :
    (bin binRecordType = addr32bit →
      ∃ s1, lineBody s = .ok (Control.next, s1) ∧
        addrExt32bit s1.currentAddress = bin (binData + 0) * 256 + bin (binData + 1) ∧
        addrBase s1.currentAddress = addrBase s.currentAddress ∧
        s1.currentAddress =
          ((bin (binData + 0) * 256 + bin (binData + 1)) <<< 16) ||| addrBase s.currentAddress ∧
        (s.extAddrInitDone = false →
          addrExt32bit s1.firstAddress = bin (binData + 0) * 256 + bin (binData + 1) ∧
          addrBase s1.firstAddress = addrBase s.firstAddress ∧
          s1.firstAddress =
            ((bin (binData + 0) * 256 + bin (binData + 1)) <<< 16) ||| addrBase s.firstAddress) ∧
        (s.extAddrInitDone = true → s1.firstAddress = s.firstAddress) ∧
        s1.extAddrInitDone = true ∧ s1.baseAddrInitDone = s.baseAddrInitDone ∧
        s1.pgmData = s.pgmData ∧ s1.pgmDataIdx = s.pgmDataIdx) ∧
    (bin binRecordType = start20bit ∨ bin binRecordType = start32bit →
      ∃ s1, lineBody s = .ok (Control.next, s1) ∧
        s1.currentAddress = s.currentAddress ∧ s1.firstAddress = s.firstAddress ∧
        s1.extAddrInitDone = s.extAddrInitDone ∧ s1.baseAddrInitDone = s.baseAddrInitDone ∧
        s1.pgmData = s.pgmData ∧ s1.pgmDataIdx = s.pgmDataIdx) := by
  constructor
  · intro hty
    have hext : (bin (binData + 0) <<< 8) ||| bin (binData + 1)
        = bin (binData + 0) * 256 + bin (binData + 1) := shiftLeft_or _ _ 8 hb1
    have hb := lineBody_ext s bin hdec hty
    rw [hext] at hb
    have hv : bin (binData + 0) * 256 + bin (binData + 1) < 65536 := by omega
    generalize bin (binData + 0) * 256 + bin (binData + 1) = v at hb hext hv ⊢
    refine ⟨_, hb, ?_, ?_, ?_, ?_, ?_, rfl, rfl, rfl, rfl⟩
    · show addrExt32bit (setExt32bit s.currentAddress v) = v
      unfold addrExt32bit setExt32bit
      omega
    · show addrBase (setExt32bit s.currentAddress v) = addrBase s.currentAddress
      unfold addrBase setExt32bit
      omega
    · show setExt32bit s.currentAddress v = (v <<< 16) ||| addrBase s.currentAddress
      rw [shiftLeft_or _ _ 16 (by unfold addrBase; omega)]
      unfold addrBase setExt32bit
      omega
    · intro hx
      show addrExt32bit (if s.extAddrInitDone then s.firstAddress
          else setExt32bit s.firstAddress v) = v ∧
        addrBase (if s.extAddrInitDone then s.firstAddress
          else setExt32bit s.firstAddress v) = addrBase s.firstAddress ∧
        (if s.extAddrInitDone then s.firstAddress
          else setExt32bit s.firstAddress v) = (v <<< 16) ||| addrBase s.firstAddress
      rw [hx]
      simp only [Bool.false_eq_true, if_false]
      rw [shiftLeft_or _ _ 16 (by unfold addrBase; omega)]
      unfold addrExt32bit addrBase setExt32bit
      omega
    · intro hx
      show (if s.extAddrInitDone then s.firstAddress
          else setExt32bit s.firstAddress v) = s.firstAddress
      rw [hx]
      simp only [if_true]
  · intro hty
    exact ⟨_, lineBody_start s bin hdec hty, rfl, rfl, rfl, rfl, rfl, rfl⟩

theorem extended_linear_transition_witness :
    ∃ bin s1, convertToBinary extState.lineASCII extState.lineInteger = .ok (true, bin) ∧
      lineBody extState = .ok (Control.next, s1) ∧
      s1.currentAddress = 0x0010FFF0 ∧ s1.firstAddress = 0x0010FFF0 ∧
      s1.pgmDataIdx = 2 := by
  obtain ⟨bin, hdec, hf⟩ := exists_of_map_fields
    (convertToBinary extState.lineASCII extState.lineInteger)
    (fun b => [b 3, b 4, b 5]) true [4, 0, 0x10] (by decide!)
  simp only [List.cons.injEq, and_true] at hf
  obtain ⟨b3, b4, b5⟩ := hf
  have e4 : bin (binData + 0) = 0 := b4
  have e5 : bin (binData + 1) = 0x10 := b5
  obtain ⟨s1, h1, -, -, hc, hf1, -, -, -, -, hi⟩ :=
    (extended_linear_transition extState bin hdec (by rw [e4]; decide)
      (by rw [e5]; decide)).1 b3
  obtain ⟨-, -, f3⟩ := hf1 rfl
  rw [e4, e5] at hc f3
  refine ⟨bin, s1, hdec, h1, ?_, ?_, hi⟩
  · rw [hc]; decide
  · rw [f3]; decide
/-! ### The format of an encoded line -/

theorem hex_digits_of_byte : ∀ v, v < 256 →
    (hexHi v = digitChar (v / 16) ∧ hexLo v = digitChar (v % 16) ∧
      isUpperHexDigit (digitChar (v / 16)) = true ∧
      isUpperHexDigit (digitChar (v % 16)) = true) := by decide!

theorem hexDigits_length : ∀ vs : List Nat, (hexDigits vs).length = 2 * vs.length := by
  intro vs
  induction vs with
  | nil => rfl
  | cons v vs ih => simp only [hexDigits, List.length_cons, ih]; omega

/-- A buffer that holds the two digits of every byte of `vs` from offset `i`
on holds the text `hexDigits vs` there. -/
theorem text_of_bytes (out : Mem) : ∀ (vs : List Nat) (i : Nat),
    (∀ k, k < vs.length → vs.getD k 0 < 256 ∧ out (i + 2 * k) = hexHi (vs.getD k 0) ∧
      out (i + 2 * k + 1) = hexLo (vs.getD k 0)) →
    ∀ j, j < (hexDigits vs).length →
      out (i + j) = (hexDigits vs).getD j 0 ∧
      isUpperHexDigit ((hexDigits vs).getD j 0) = true := by
  intro vs
  induction vs with
  | nil => intro i _ j hj; simp [hexDigits] at hj
  | cons v vs ih =>
    intro i h j hj
    obtain ⟨hv, h0, h1⟩ := h 0 (by simp)
    rw [List.getD_cons_zero] at hv h0 h1
    obtain ⟨e0, e1, u0, u1⟩ := hex_digits_of_byte v hv
    match j, hj with
    | 0, _ =>
      simp only [hexDigits, List.getD_cons_zero]
      exact ⟨by rw [← e0, ← h0], u0⟩
    | 1, _ =>
      simp only [hexDigits, List.getD_cons_succ, List.getD_cons_zero]
      exact ⟨by rw [← e1, ← h1], u1⟩
    | j + 2, hj =>
      simp only [hexDigits, List.getD_cons_succ]
      have := ih (i + 2) (fun k hk => by
        obtain ⟨a, b, c⟩ := h (k + 1) (by simp; omega)
        rw [List.getD_cons_succ] at a b c
        refine ⟨a, ?_, ?_⟩
        · rw [← b]; congr 1; omega
        · rw [← c]; congr 1; omega) j (by
        simp only [hexDigits, List.length_cons] at hj
        omega)
      rw [show i + (j + 2) = i + 2 + j by omega]
      exact this

theorem payloadOf_getD (bin : Mem) (q : Nat) (hq : q < bin binByteCount) :
    (payloadOf bin).getD q 0 = bin (binData + q) := by
  unfold payloadOf
  rw [List.getD_eq_getElem _ _ (by simpa using hq)]
  simp

theorem payloadOf_length (bin : Mem) : (payloadOf bin).length = bin binByteCount := by
  simp [payloadOf]

/-- The text that `convertToText` leaves in its buffer for a record of bytes
with byte count at most 16. -/
theorem convertToText_recordText (bin ascii : Mem) (hn : bin binByteCount ≤ 16)
    (hbytes : ∀ j, j < binData + bin binByteCount → bin j < 256) :
    ∃ out crc t, convertToText bin ascii = .ok out ∧ calcIntelHexCRC bin = .ok crc ∧
      crc = twosComplement (fieldSum bin) ∧ asciiText out = .ok t ∧
      t = recordText (bin binByteCount) (addressHalf bin) (bin binRecordType) (payloadOf bin)
        crc ∧
      t.length = 11 + 2 * bin binByteCount ∧
      (∀ i, 1 ≤ i → i < t.length → isUpperHexDigit (t.getD i 0) = true) ∧
      t.getD (9 + 2 * bin binByteCount) 0 = digitChar (crc / 16) ∧
      t.getD (9 + 2 * bin binByteCount + 1) 0 = digitChar (crc % 16) := by
  obtain ⟨out, hout, t0, t1, t2, t3, t4, t5, t6, t7, t8, td, tc0, tc1, tz⟩ :=
    convertToText_spec bin ascii hn
  have hcrc := calcIntelHexCRC_eq bin (by omega)
  have hc256 := twosComplement_lt (fieldSum bin)
  obtain ⟨crc, hcdef⟩ : ∃ crc, crc = twosComplement (fieldSum bin) := ⟨_, rfl⟩
  rw [← hcdef] at hcrc hc256 tc0 tc1
  have b0 : bin 0 < 256 := hbytes 0 (by simp only [binData]; omega)
  have b1 : bin 1 < 256 := hbytes 1 (by simp only [binData]; omega)
  have b2 : bin 2 < 256 := hbytes 2 (by simp only [binData]; omega)
  have b3 : bin 3 < 256 := hbytes 3 (by simp only [binData]; omega)
  have hn0 : bin 0 ≤ 16 := hn
  have hhi : addressHalf bin / 256 = bin 2 := by
    simp only [addressHalf, binAddress0, binAddress1]; omega
  have hlo : addressHalf bin % 256 = bin 1 := by
    simp only [addressHalf, binAddress0, binAddress1]; omega
  have hplen : (payloadOf bin ++ [crc]).length = bin 0 + 1 := by
    rw [List.length_append, payloadOf_length]; rfl
  have hlen : (recordText (bin binByteCount) (addressHalf bin) (bin binRecordType)
      (payloadOf bin) crc).length = 11 + 2 * bin binByteCount := by
    simp only [recordText, List.length_cons, hexDigits_length, hplen, binByteCount]
    omega
  have key := text_of_bytes out
    (bin binByteCount :: addressHalf bin / 256 :: addressHalf bin % 256 :: bin binRecordType ::
      (payloadOf bin ++ [crc])) 1 (by
    intro k hk
    simp only [List.length_cons, hplen] at hk
    match k, hk with
    | 0, _ => exact ⟨b0, t1, t2⟩
    | 1, _ =>
      simp only [List.getD_cons_succ, List.getD_cons_zero, hhi]
      exact ⟨b2, t3, t4⟩
    | 2, _ =>
      simp only [List.getD_cons_succ, List.getD_cons_zero, hlo]
      exact ⟨b1, t5, t6⟩
    | 3, _ =>
      simp only [List.getD_cons_succ, List.getD_cons_zero]
      exact ⟨b3, t7, t8⟩
    | q + 4, hq =>
      simp only [List.getD_cons_succ]
      by_cases hqn : q < bin 0
      · rw [List.getD_append _ _ _ _ (by rw [payloadOf_length]; exact hqn),
          payloadOf_getD bin q hqn]
        obtain ⟨d0, d1⟩ := td q hqn
        refine ⟨hbytes _ (by simp only [binData, binByteCount]; omega), ?_, ?_⟩
        · show out _ = hexHi (bin (4 + q))
          rw [← d0]; congr 1; omega
        · show out _ = hexLo (bin (4 + q))
          rw [← d1]; congr 1; omega
      · have hqe : q = bin 0 := by omega
        rw [List.getD_append_right _ _ _ _ (by rw [payloadOf_length]; exact Nat.le_of_eq hqe.symm),
          payloadOf_length]
        have : q - bin binByteCount = 0 := by rw [hqe]; exact Nat.sub_self _
        rw [this, List.getD_cons_zero]
        refine ⟨hc256, ?_, ?_⟩
        · rw [← tc0]; congr 1; omega
        · rw [← tc1]; congr 1; omega)
  have hdl : (hexDigits (bin binByteCount :: addressHalf bin / 256 :: addressHalf bin % 256 ::
      bin binRecordType :: (payloadOf bin ++ [crc]))).length = 10 + 2 * bin 0 := by
    simp only [hexDigits_length, List.length_cons, hplen]
    omega
  have hchar : ∀ k, k < (recordText (bin binByteCount) (addressHalf bin) (bin binRecordType)
      (payloadOf bin) crc).length →
      out k = (recordText (bin binByteCount) (addressHalf bin) (bin binRecordType)
        (payloadOf bin) crc).getD k 0 ∧
      (1 ≤ k → isUpperHexDigit ((recordText (bin binByteCount) (addressHalf bin)
        (bin binRecordType) (payloadOf bin) crc).getD k 0) = true) := by
    intro k hk
    rw [hlen] at hk
    match k, hk with
    | 0, _ => exact ⟨t0, fun h => absurd h (by decide)⟩
    | j + 1, hj =>
      obtain ⟨c1, c2⟩ := key j (by rw [hdl]; simp only [binByteCount] at hj; omega)
      simp only [recordText, List.getD_cons_succ]
      exact ⟨by rw [← c1]; congr 1; omega, fun _ => c2⟩
  have hd0 := (hchar (9 + 2 * bin binByteCount) (by rw [hlen]; omega)).1
  have hd1 := (hchar (9 + 2 * bin binByteCount + 1) (by rw [hlen]; omega)).1
  have hx := hex_digits_of_byte crc hc256
  have htext : asciiText out = .ok (recordText (bin binByteCount) (addressHalf bin)
      (bin binRecordType) (payloadOf bin) crc) :=
    cString_eq out _ 44 0
      (fun k hk => by
        rw [Nat.zero_add]
        refine ⟨(hchar k hk).1, ?_⟩
        match k, hk with
        | 0, _ => simp [recordText]
        | j + 1, hj => exact (isUpperHexDigit_lt _ ((hchar (j + 1) hj).2 (by omega))).2)
      (by rw [Nat.zero_add, hlen]; exact tz _ (by simp only [binByteCount]; omega)
            (by simp only [binByteCount]; omega))
      (by rw [hlen]; omega)
  refine ⟨out, crc, _, hout, hcrc, hcdef, htext, rfl, hlen, fun i h1 h2 => (hchar i h2).2 h1,
    ?_, ?_⟩
  · rw [← hd0]
    show out (9 + 2 * bin 0) = _
    rw [tc0, hx.1]
  · rw [← hd1]
    show out (9 + 2 * bin 0 + 1) = _
    rw [tc1, hx.2.1]

/-! ### The format of an encoded line: the claim -/

/-- C11. Encoded line format: for every record of bytes with byte count
`n ≤ 16`, `convertToText` returns and leaves in its buffer the string of
`11 + 2n` characters that consists of `:`, two digits for the byte count, four
for the address with the high byte first, two for the record type, two for
each of the `n` payload bytes in order and two for the recomputed checksum,
which therefore stands at offset `9 + 2n`, directly after the payload, in
both branches; every character after the colon is a digit `0-9` or `A-F`. -/
theorem encoded_line_format (bin ascii : Mem) (hn : bin binByteCount ≤ 16)
    (hbytes : ∀ j, j < binSize → bin j < 256) :
    ∃ out crc t, convertToText bin ascii = .ok out ∧ calcIntelHexCRC bin = .ok crc ∧
      asciiText out = .ok t ∧
      t = recordText (bin binByteCount) (addressHalf bin) (bin binRecordType) (payloadOf bin)
        crc ∧
      t.length = 11 + 2 * bin binByteCount ∧
      (∀ i, 1 ≤ i → i < t.length → isUpperHexDigit (t.getD i 0) = true) ∧
      t.getD (9 + 2 * bin binByteCount) 0 = digitChar (crc / 16) ∧
      t.getD (9 + 2 * bin binByteCount + 1) 0 = digitChar (crc % 16) := by
  obtain ⟨out, crc, t, h1, h2, -, h3, h4, h5, h6, h7, h8⟩ := convertToText_recordText bin ascii hn
    (fun j hj => hbytes j (by simp only [binData, binSize] at *; omega))
  exact ⟨out, crc, t, h1, h2, h3, h4, h5, h6, h7, h8⟩

theorem encoded_line_format_witness :
    ∃ out crc t, convertToText sampleRecord zeroMem = .ok out ∧
      calcIntelHexCRC sampleRecord = .ok crc ∧ asciiText out = .ok t ∧
      t = recordText (sampleRecord binByteCount) (addressHalf sampleRecord)
        (sampleRecord binRecordType) (payloadOf sampleRecord) crc ∧
      t.length = 11 + 2 * sampleRecord binByteCount ∧
      (∀ i, 1 ≤ i → i < t.length → isUpperHexDigit (t.getD i 0) = true) ∧
      t.getD (9 + 2 * sampleRecord binByteCount) 0 = digitChar (crc / 16) ∧
      t.getD (9 + 2 * sampleRecord binByteCount + 1) 0 = digitChar (crc % 16) :=
  encoded_line_format sampleRecord zeroMem (by decide) (by decide)
/-! ### The re-encoder -/

theorem setHalf_apply (bin : Mem) (off v j : Nat) :
    setHalf bin off v j =
      if j = off + 1 then v / 256 % 256 else if j = off then v % 256 else bin j := by
  simp only [setHalf, setByte_apply]

/-- The checksum that `convertToText` computes is the checksum of the line. -/
theorem lineChecksum_eq (bin : Mem) (h1 : bin 1 < 256) :
    twosComplement (fieldSum bin) =
      lineChecksum (bin binByteCount) (addressHalf bin) (bin binRecordType) (payloadOf bin) := by
  have e : (payloadOf bin).sum = payloadSum bin := rfl
  unfold lineChecksum
  rw [fieldSum_eq, e]
  simp only [addressHalf, binAddress0, binAddress1]
  congr 1
  omega

/-- One record written to the output: the text of `ihb` is appended. -/
theorem writeRecord_spec (t : WriterState) (hn : t.ihb binByteCount ≤ 16)
    (hbytes : ∀ j, j < binData + t.ihb binByteCount → t.ihb j < 256) :
    ∃ iha, writeRecord t = .ok { t with iha := iha, output := t.output ++
      [recordText (t.ihb binByteCount) (addressHalf t.ihb) (t.ihb binRecordType)
        (payloadOf t.ihb)
        (lineChecksum (t.ihb binByteCount) (addressHalf t.ihb) (t.ihb binRecordType)
          (payloadOf t.ihb))] } := by
  obtain ⟨out, crc, txt, h1, -, h3, h4, h5, -⟩ := convertToText_recordText t.ihb t.iha hn hbytes
  have e := lineChecksum_eq t.ihb (hbytes 1 (by simp only [binData]; omega))
  rw [h3, e] at h5
  rw [h5] at h4
  refine ⟨out, ?_⟩
  unfold writeRecord
  rw [h1]
  simp only [h4]

/-- One record written to the output, by the fields that `ihb` holds. -/
theorem writeRecord_fields (t : WriterState) (c a ty : Nat) (f : Nat → Nat)
    (hc : c ≤ 16) (ha : a < 65536) (hty : ty < 256) (hf : ∀ q, q < c → f q < 256)
    (h0 : t.ihb 0 = c) (h1 : t.ihb 1 = a % 256) (h2 : t.ihb 2 = a / 256) (h3 : t.ihb 3 = ty)
    (hp : ∀ q, q < c → t.ihb (4 + q) = f q) :
    ∃ t1, writeRecord t = .ok t1 ∧
      t1.output = t.output ++ [recordText c a ty ((List.range c).map f)
        (lineChecksum c a ty ((List.range c).map f))] ∧
      t1.w = t.w ∧ t1.writeExtAddr = t.writeExtAddr := by
  obtain ⟨iha, h⟩ := writeRecord_spec t (by rw [binByteCount, h0]; exact hc) (by
    intro j hj
    rw [binByteCount, h0, binData] at hj
    by_cases h4 : j < 4
    · have : j = 0 ∨ j = 1 ∨ j = 2 ∨ j = 3 := by omega
      rcases this with e | e | e | e <;> subst e
      · rw [h0]; omega
      · rw [h1]; omega
      · rw [h2]; omega
      · rw [h3]; omega
    · have := hp (j - 4) (by omega)
      rw [show 4 + (j - 4) = j by omega] at this
      rw [this]
      exact hf _ (by omega))
  have eA : addressHalf t.ihb = a := by
    simp only [addressHalf, binAddress0, binAddress1, h1, h2]
    omega
  have eP : payloadOf t.ihb = (List.range c).map f := by
    unfold payloadOf
    rw [binByteCount, h0]
    apply List.map_congr_left
    intro q hq
    rw [List.mem_range] at hq
    exact hp q hq
  have e0 : t.ihb binByteCount = c := h0
  have e3 : t.ihb binRecordType = ty := h3
  rw [eA, eP, e0, e3] at h
  exact ⟨_, h, rfl, rfl, rfl⟩

/-- The end-of-file branch appends `:00000001FF`, whatever `ihb` and `iha`
held. -/
theorem writeEndOfFile_spec (t : WriterState) :
    ∃ t1, writeEndOfFile t = .ok t1 ∧ t1.output = t.output ++ [eofLine] := by
  obtain ⟨t1, h, ho, -, -⟩ := writeRecord_fields
    { t with
        ihb := setByte (setHalf (setByte t.ihb binByteCount 0) binAddress0 0) binRecordType
          endOfFile }
    0 0 1 (fun _ => 0) (by decide) (by decide) (by decide)
    (fun _ _ => by show (0 : Nat) < 256; decide)
    (by simp [setHalf_apply, binByteCount, binRecordType, binAddress0])
    (by simp [setHalf_apply, binByteCount, binRecordType, binAddress0])
    (by simp [setHalf_apply, binByteCount, binRecordType, binAddress0])
    (by simp [setHalf_apply, binByteCount, binRecordType, binAddress0, endOfFile])
    (fun q hq => by omega)
  exact ⟨t1, h, ho⟩

/-- The extended-address branch appends the record that carries bits 16..31
of `firstAddress + w`, high byte first, and clears `writeExtAddr`. -/
theorem writeExtendedAddress_spec (first : Nat) (junk : Mem) (t : WriterState) :
    ∃ t1, writeExtendedAddress first junk t = .ok t1 ∧
      t1.output = t.output ++ [extLine (addrExt32bit ((first + t.w) % 2 ^ 32))] ∧
      t1.w = t.w ∧ t1.writeExtAddr = false := by
  have he : addrExt32bit ((first + t.w) % 2 ^ 32) < 65536 := by
    unfold addrExt32bit; omega
  generalize hE : addrExt32bit ((first + t.w) % 2 ^ 32) = e at he
  have hsw : switchEndian 2 junk e = e / 256 + e % 256 * 256 := by
    rw [switchEndian_two]
    simp only [casterByte, Nat.shiftRight_eq_div_pow]
    omega
  have hv0 : (e / 256 + e % 256 * 256) % 256 = e / 256 := by
    rw [Nat.add_mul_mod_self_right]
    exact Nat.mod_eq_of_lt (by omega)
  have hv1 : (e / 256 + e % 256 * 256) / 256 % 256 = e % 256 := by
    rw [Nat.add_mul_div_right _ _ (by decide), Nat.div_eq_of_lt (by omega), Nat.zero_add]
    exact Nat.mod_eq_of_lt (by omega)
  have hget : ∀ b : Mem, getHalf (setHalf b binData e) binData = e := by
    intro b
    simp only [getHalf, setHalf_apply, binData]
    simp
    omega
  obtain ⟨t1, h, ho, hw, -⟩ := writeRecord_fields
    { t with
        ihb := setHalf (setHalf (setByte (setHalf (setByte t.ihb binByteCount 2) binAddress0 0)
          binRecordType addr32bit) binData e) binData (e / 256 + e % 256 * 256),
        wrtAddr := (first + t.w) % 2 ^ 32 }
    2 0 4 (fun q => if q = 0 then e / 256 else e % 256) (by decide) (by decide) (by decide)
    (fun q _ => by dsimp only; split <;> omega)
    (by simp [setHalf_apply, binByteCount, binRecordType, binAddress0, binData])
    (by simp [setHalf_apply, binByteCount, binRecordType, binAddress0, binData])
    (by simp [setHalf_apply, binByteCount, binRecordType, binAddress0, binData])
    (by simp [setHalf_apply, binByteCount, binRecordType, binAddress0, binData, addr32bit])
    (fun q hq => by
      have : q = 0 ∨ q = 1 := by omega
      rcases this with e0 | e0 <;> subst e0
      · simp [setHalf_apply, binData, hv0]
      · simp [setHalf_apply, binData, hv1])
  refine ⟨{ t1 with writeExtAddr := false }, ?_, ho, hw, rfl⟩
  unfold writeExtendedAddress
  simp only [hE, hget, hsw, h]

/-- The payload loop copies `k` image bytes from offset `w + n` on into
`data.byte[n ..]` and changes nothing else. -/
theorem payloadLoop_spec (m : Mem) (w : Nat) : ∀ k n ihb, n + k ≤ 17 →
    w + n + k ≤ pgmDataSize →
    ∃ ihb1, payloadLoop m w k n ihb = .ok ihb1 ∧
      (∀ c, n ≤ c → c < n + k → ihb1 (4 + c) = m (w + c)) ∧
      (∀ j, j < 4 + n ∨ 4 + n + k ≤ j → ihb1 j = ihb j) := by
  intro k
  induction k with
  | zero =>
    intro n ihb _ _
    exact ⟨ihb, rfl, fun c h1 h2 => by omega, fun _ _ => rfl⟩
  | succ k ih =>
    intro n ihb h17 hcap
    have hsz : w + n < pgmDataSize := by omega
    have hmod : (w + n) % 2 ^ 32 = w + n := by
      apply Nat.mod_eq_of_lt
      simp only [pgmDataSize] at hsz
      omega
    have hwr : binData + n < binSize := by simp only [binData, binSize]; omega
    obtain ⟨ihb1, h1, h2, h3⟩ := ih (n + 1) (setByte ihb (binData + n) (m (w + n)))
      (by omega) (by omega)
    refine ⟨ihb1, ?_, ?_, ?_⟩
    · unfold payloadLoop
      simp only [readAt, writeBin, writeAt, hmod, hsz, hwr, if_true]
      exact h1
    · intro c hc1 hc2
      by_cases hc : c = n
      · subst hc
        rw [h3 (4 + c) (Or.inl (by omega))]
        simp [binData]
      · exact h2 c (by omega) (by omega)
    · intro j hj
      rw [h3 j (by omega)]
      simp only [setByte_apply, binData]
      rw [if_neg (by omega)]

/-- The data branch at an offset inside the image: the record with the next
`min(16, pgmDataIdx - w)` bytes is appended, `w` moves on by that number, and
`writeExtAddr` is set when the low 16 bits of the next address are zero. -/
theorem writeData_spec (m : Mem) (idx first : Nat) (t : WriterState) (hw : t.w < idx)
    (hcap : idx ≤ pgmDataSize) (hbytes : ∀ j, j < idx → m j < 256) :
    ∃ t1, writeData m idx first t = .ok t1 ∧
      t1.output = t.output ++
        [recordText (min 16 (idx - t.w)) (addrBase ((first + t.w) % 2 ^ 32)) 0
          ((List.range (min 16 (idx - t.w))).map (fun c => m (t.w + c)))
          (lineChecksum (min 16 (idx - t.w)) (addrBase ((first + t.w) % 2 ^ 32)) 0
            ((List.range (min 16 (idx - t.w))).map (fun c => m (t.w + c))))] ∧
      t1.w = t.w + min 16 (idx - t.w) ∧
      t1.writeExtAddr = (if addrBase ((first + (t.w + min 16 (idx - t.w))) % 2 ^ 32) = 0
        then true else t.writeExtAddr) := by
  have hsz : idx ≤ 1048576 := by simpa [pgmDataSize] using hcap
  have hb : (if (t.w + 16) % 2 ^ 32 ≤ idx then 16
      else (2 ^ 32 + idx % 256 - t.w) % 2 ^ 32 % 256) = min 16 (idx - t.w) := by
    have hmod : (t.w + 16) % 2 ^ 32 = t.w + 16 := Nat.mod_eq_of_lt (by omega)
    rw [hmod]
    by_cases h16 : t.w + 16 ≤ idx
    · rw [if_pos h16]; omega
    · rw [if_neg h16]; omega
  generalize hB : min 16 (idx - t.w) = B at hb
  have hB16 : B ≤ 16 := by omega
  have hBw : t.w + B ≤ idx := by omega
  have hA : addrBase ((first + t.w) % 2 ^ 32) < 65536 := by unfold addrBase; omega
  generalize hAdef : addrBase ((first + t.w) % 2 ^ 32) = A at hA
  obtain ⟨ihb1, hl, hl1, hl2⟩ := payloadLoop_spec m t.w B 0
    (setByte (setHalf (setByte t.ihb binByteCount B) binAddress0 A) binRecordType
      addr16bitAndData)
    (by omega) (by omega)
  obtain ⟨t1, h, ho, hw1, hx⟩ := writeRecord_fields
    { t with ihb := ihb1, wrtAddr := (first + t.w) % 2 ^ 32, bytes := B }
    B A 0 (fun c => m (t.w + c)) hB16 hA (by decide)
    (fun q hq => hbytes _ (by omega))
    (by
      show ihb1 0 = B
      rw [hl2 0 (Or.inl (by omega))]
      simp [setHalf_apply, binByteCount, binRecordType, binAddress0])
    (by
      show ihb1 1 = A % 256
      rw [hl2 1 (Or.inl (by omega))]
      simp [setHalf_apply, binByteCount, binRecordType, binAddress0])
    (by
      show ihb1 2 = A / 256
      rw [hl2 2 (Or.inl (by omega))]
      simp [setHalf_apply, binByteCount, binRecordType, binAddress0]
      omega)
    (by
      show ihb1 3 = 0
      rw [hl2 3 (Or.inl (by omega))]
      simp [setHalf_apply, binByteCount, binRecordType, binAddress0, addr16bitAndData])
    (fun q hq => hl1 q (by omega) (by omega))
  have hwm : (t.w + B) % 2 ^ 32 = t.w + B := Nat.mod_eq_of_lt (by omega)
  refine ⟨{ t1 with
      w := t.w + B, wrtAddr := (first + (t.w + B)) % 2 ^ 32,
      writeExtAddr := if addrBase ((first + (t.w + B)) % 2 ^ 32) = 0 then true
        else t.writeExtAddr }, ?_, ho, rfl, rfl⟩
  unfold writeData
  simp only [hb, hAdef, hl, h, hw1, hwm, hx]
theorem dataLine_eq (m : Mem) (first idx k : Nat) :
    recordText (min 16 (idx - 16 * k)) (addrBase ((first + 16 * k) % 2 ^ 32)) 0
      ((List.range (min 16 (idx - 16 * k))).map (fun c => m (16 * k + c)))
      (lineChecksum (min 16 (idx - 16 * k)) (addrBase ((first + 16 * k) % 2 ^ 32)) 0
        ((List.range (min 16 (idx - 16 * k))).map (fun c => m (16 * k + c))))
      = dataLine m first idx k := by
  have e : addrBase ((first + 16 * k) % 2 ^ 32) = (first + 16 * k) % 65536 := by
    unfold addrBase; omega
  rw [e]
  rfl

/-- The loop of the re-encoder from data record `k` on, `r` records
remaining: with more than `r` passes of fuel it ends, and it has written the
lines `emittedBody` and the end-of-file record. -/
theorem writeLoop_spec (m : Mem) (idx first : Nat) (junk : Mem) (hcap : idx ≤ pgmDataSize)
    (hbytes : ∀ j, j < idx → m j < 256) : ∀ r k fuel t,
    t.w = min idx (16 * k) → idx ≤ 16 * (k + r) → 16 * (k + r) < idx + 16 → r < fuel →
    ∃ t1, writeLoop m idx first junk fuel t = some (.ok t1) ∧
      t1.output = t.output ++ emittedBody m first idx r k t.writeExtAddr ++ [eofLine] := by
  intro r
  induction r with
  | zero =>
    intro k fuel t hw h1 h2 hf
    obtain ⟨fuel, rfl⟩ : ∃ f, fuel = f + 1 := ⟨fuel - 1, by omega⟩
    obtain ⟨t1, he, ho⟩ := writeEndOfFile_spec t
    refine ⟨t1, ?_, ?_⟩
    · unfold writeLoop
      rw [if_pos (by omega), he]
    · rw [ho]
      simp [emittedBody]
  | succ r ih =>
    intro k fuel t hw h1 h2 hf
    obtain ⟨fuel, rfl⟩ : ∃ f, fuel = f + 1 := ⟨fuel - 1, by omega⟩
    have hwk : t.w = 16 * k := by omega
    have hlt : t.w < idx := by omega
    have step : ∀ t0 : WriterState, t0.w = t.w →
        ∃ t2, writeData m idx first t0 = .ok t2 ∧
          t2.output = t0.output ++ [dataLine m first idx k] ∧
          t2.w = min idx (16 * (k + 1)) ∧
          t2.writeExtAddr = (if addrBase ((first + (16 * k + min 16 (idx - 16 * k))) % 2 ^ 32) = 0
            then true else t0.writeExtAddr) := by
      intro t0 h0
      obtain ⟨t2, hd, ho, hw2, hx⟩ := writeData_spec m idx first t0 (by omega) hcap hbytes
      rw [h0, hwk] at ho hw2 hx
      rw [dataLine_eq] at ho
      exact ⟨t2, hd, ho, by omega, hx⟩
    cases hflag : t.writeExtAddr with
    | false =>
      obtain ⟨t2, hd, ho, hw2, hx⟩ := step t rfl
      obtain ⟨t3, hl, ho3⟩ := ih (k + 1) fuel t2 hw2 (by omega) (by omega) (by omega)
      refine ⟨t3, ?_, ?_⟩
      · unfold writeLoop
        rw [if_neg (by omega), hflag]
        simp only [Bool.false_eq_true, if_false, hd]
        exact hl
      · rw [ho3, ho, hx, hflag]
        simp [emittedBody]
    | true =>
      obtain ⟨t1, he, hoe, hwe, hxe⟩ := writeExtendedAddress_spec first junk t
      obtain ⟨t2, hd, ho, hw2, hx⟩ := step t1 hwe
      obtain ⟨t3, hl, ho3⟩ := ih (k + 1) fuel t2 hw2 (by omega) (by omega) (by omega)
      refine ⟨t3, ?_, ?_⟩
      · unfold writeLoop
        rw [if_neg (by omega), hflag]
        simp only [if_true, he, hd]
        exact hl
      · rw [ho3, ho, hx, hoe, hxe, hwk]
        simp [emittedBody]
/-! ### The record stream of the re-encoder -/

theorem recordText_type (c a ty : Nat) (p : List Nat) (cs : Nat) :
    (recordText c a ty p cs).getD 7 0 = digitChar (ty / 16) ∧
    (recordText c a ty p cs).getD 8 0 = digitChar (ty % 16) := by
  simp only [recordText, hexDigits, List.getD_cons_succ, List.getD_cons_zero, and_self]

theorem isDataLine_dataLine (m : Mem) (first n k : Nat) :
    isDataLine (dataLine m first n k) = true := by
  unfold isDataLine dataLine
  rw [(recordText_type _ _ _ _ _).1, (recordText_type _ _ _ _ _).2]
  decide

theorem isDataLine_extLine (e : Nat) : isDataLine (extLine e) = false := by
  unfold isDataLine extLine
  rw [(recordText_type _ _ _ _ _).1, (recordText_type _ _ _ _ _).2]
  decide

/-- The data records among the lines before the end-of-file record are the
records `k, k+1, ..`, `r` of them, in this order. -/
theorem emittedBody_data (m : Mem) (first n : Nat) : ∀ r k ext,
    (emittedBody m first n r k ext).filter isDataLine
      = (List.range' k r).map (dataLine m first n) := by
  intro r
  induction r with
  | zero => intro k ext; rfl
  | succ r ih =>
    intro k ext
    cases ext <;>
      simp [emittedBody, List.range'_succ, List.filter_cons, isDataLine_dataLine,
        isDataLine_extLine, ih]

/-- No line before the end-of-file record is an end-of-file record. -/
theorem emittedBody_not_eof (m : Mem) (first n : Nat) : ∀ r k ext,
    ∀ l, l ∈ emittedBody m first n r k ext → l.getD 8 0 ≠ 49 := by
  intro r
  induction r with
  | zero => intro k ext l hl; simp [emittedBody] at hl
  | succ r ih =>
    intro k ext l hl
    have hd : (dataLine m first n k).getD 8 0 ≠ 49 := by
      unfold dataLine
      rw [(recordText_type _ _ _ _ _).2]
      decide
    have he : ∀ e, (extLine e).getD 8 0 ≠ 49 := by
      intro e
      unfold extLine
      rw [(recordText_type _ _ _ _ _).2]
      decide
    cases ext
    · simp only [emittedBody, Bool.false_eq_true, if_false, List.nil_append,
        List.mem_cons] at hl
      rcases hl with rfl | hl
      · exact hd
      · exact ih _ _ l hl
    · simp only [emittedBody, if_true, List.singleton_append, List.mem_cons] at hl
      rcases hl with rfl | rfl | hl
      · exact he _
      · exact hd
      · exact ih _ _ l hl

/-- The re-encoder on an image inside `pgmData`: what it writes. -/
theorem reencode_spec (s : MainState) (junk : Mem) (fuel : Nat) (t : WriterState)
    (hstart : t.w = 0) (hout : t.output = [])
    (hcap : s.pgmDataIdx ≤ pgmDataSize) (hbytes : ∀ j, j < s.pgmDataIdx → s.pgmData j < 256)
    (hfuel : (s.pgmDataIdx + 15) / 16 < fuel) :
    reencode s junk fuel t = some (.ok
      (emittedBody s.pgmData s.firstAddress s.pgmDataIdx ((s.pgmDataIdx + 15) / 16) 0
        t.writeExtAddr ++ [eofLine])) := by
  obtain ⟨t1, h, ho⟩ := writeLoop_spec s.pgmData s.pgmDataIdx s.firstAddress junk hcap hbytes
    ((s.pgmDataIdx + 15) / 16) 0 fuel t (by omega) (by omega) (by omega) hfuel
  unfold reencode
  rw [h]
  simp only [ho, hout, List.nil_append]

/-- C12. Re-encoder record stream: for every image of `N` bytes inside
`pgmData` and every first address, the re-encoding loop ends (with more than
`⌈N/16⌉` passes allowed) and writes lines of which the last is the
end-of-file record `:00000001FF` and no other is; the data records among the
lines before it are exactly `⌈N/16⌉`, the `k`-th carrying the
`min(16, N - 16k)` image bytes from offset `16k` on with the address field
`(first + 16k) mod 65536`, in increasing order of `k`. -/
theorem reencoder_record_stream (s : MainState) (junk iha ihb : Mem) (wrtAddr bytes fuel : Nat)
    (hcap : s.pgmDataIdx ≤ pgmDataSize) (hbytes : ∀ j, j < s.pgmDataIdx → s.pgmData j < 256)
    (hfuel : (s.pgmDataIdx + 15) / 16 < fuel) :
    ∃ body, reencode s junk fuel (writerStart iha ihb wrtAddr bytes)
        = some (.ok (body ++ [eofLine])) ∧
      eofLine ∉ body ∧
      body.filter isDataLine = (List.range ((s.pgmDataIdx + 15) / 16)).map
        (dataLine s.pgmData s.firstAddress s.pgmDataIdx) := by
  refine ⟨_, reencode_spec s junk fuel (writerStart iha ihb wrtAddr bytes) rfl rfl hcap hbytes
    hfuel, ?_, ?_⟩
  · intro hmem
    exact emittedBody_not_eof _ _ _ _ _ _ _ hmem (by decide)
  · rw [emittedBody_data, List.range_eq_range']

theorem reencoder_record_stream_witness :
    ∃ body, reencode sampleImage zeroMem 3 (writerStart zeroMem zeroMem 0 0)
        = some (.ok (body ++ [eofLine])) ∧
      eofLine ∉ body ∧
      body.filter isDataLine = (List.range ((sampleImage.pgmDataIdx + 15) / 16)).map
        (dataLine sampleImage.pgmData sampleImage.firstAddress sampleImage.pgmDataIdx) :=
  reencoder_record_stream sampleImage zeroMem zeroMem zeroMem 0 0 3 (by decide)
    (fun _ _ => by show (0 : Nat) < 256; decide) (by decide)
/-! ### Extended-address records on output -/

/-- C13 fails on the code: an extended-address record is written only when
the low 16 bits of the next address are exactly zero, so a 64 KiB boundary
that is crossed inside a data record gets none.  For the input
`:020000040000FA`, `:10FFF800..F9`, `:020000040001F9`, `:10000800..E8`,
`:00000001FF` (16 bytes at `0x0000FFF8`, 16 bytes at `0x00010008`) the output
has the extension record `0000`, the data record at `FFF8` and then the data
record with address field `0008` without the extension record `0001` before
it: under the address tracker it resolves to `0x00000008`, not
`0x00010008`. -/
theorem extended_address_record_missing :
    mainWrite defaultConfig
      [strBytes ":020000040000FA", strBytes ":10FFF80000000000000000000000000000000000F9",
        strBytes ":020000040001F9", strBytes ":1000080000000000000000000000000000000000E8",
        strBytes ":00000001FF"]
      (initialState zeroMem zeroMem zeroMem) zeroMem 4 (writerStart zeroMem zeroMem 0 0)
    = some (.ok
      [strBytes ":020000040000FA", strBytes ":10FFF80000000000000000000000000000000000F9",
        strBytes ":10000800000000000000000000000000FEF1116880", strBytes ":00000001FF"]) ∧
    addrExt32bit (0xFFF8 + 16) ≠ addrExt32bit 0xFFF8 := by decide!
/-! ### A gap that does not end inside the image -/

/-- The gap loop with a condition that holds at every length up to the
capacity stores at `pgmData[idx + room]`, outside the array. -/
theorem gapFillLoop_overrun (first cur : Nat) : ∀ room m idx f,
    (∀ i, i ≤ room → (first + (idx + i)) % 2 ^ 32 < cur) →
    gapFillLoop first cur room m idx f = .error (Fault.pgmDataOutOfBounds (idx + room)) := by
  intro room
  induction room with
  | zero =>
    intro m idx f h
    have hc := h 0 (le_refl _)
    rw [Nat.add_zero] at hc
    unfold gapFillLoop
    rw [if_pos hc]
    rfl
  | succ r ih =>
    intro m idx f h
    have hc := h 0 (by omega)
    rw [Nat.add_zero] at hc
    unfold gapFillLoop
    rw [if_pos hc]
    have e : idx + 1 + r = idx + (r + 1) := by omega
    simp only []
    rw [ih _ _ _ (fun i hi => by
      have := h (i + 1) (by omega)
      rw [show idx + 1 + i = idx + (i + 1) by omega]
      exact this), e]

/-- The read loop body at a valid data line whose address is not reached by
the gap loop before the end of `pgmData`. -/
theorem step_data_overrun (s : MainState) (l : List Nat) (hv : ValidLine isUpperHexDigit l)
    (hty : pairVal l 7 = 0) (hidx : s.pgmDataIdx ≤ pgmDataSize)
    (hgap : ∀ i, i ≤ pgmDataSize - s.pgmDataIdx →
      (lineFirst s l + (s.pgmDataIdx + i)) % 2 ^ 32 < lineLinear s l) :
    lineBody (afterGetline s l) = .error (Fault.pgmDataOutOfBounds pgmDataSize) := by
  obtain ⟨bin, hd, h0, h1, h3, -⟩ := decode_validLine s l hv
  have eL : linearAfter (afterGetline s l) bin = lineLinear s l := by
    simp only [linearAfter, lineLinear, afterGetline, h1]
  have eF : firstAfter (afterGetline s l) bin = lineFirst s l := by
    simp only [firstAfter, lineFirst, afterGetline, h1]
  rw [lineBody_data (afterGetline s l) bin hd (by rw [h3, hty]; rfl), eL, eF]
  unfold fillAndCopy
  have hg := gapFillLoop_overrun (lineFirst s l) (lineLinear s l) (pgmDataSize - s.pgmDataIdx)
    s.pgmData s.pgmDataIdx false hgap
  have e : s.pgmDataIdx + (pgmDataSize - s.pgmDataIdx) = pgmDataSize := by omega
  rw [e] at hg
  have hi : (afterGetline s l).pgmDataIdx = s.pgmDataIdx := rfl
  have hm : (afterGetline s l).pgmData = s.pgmData := rfl
  simp only [hi, hm, hg]
/-! ### Re-encoding closure -/

/-- C14 fails on the code: the re-encoded lines need not decode to the same
image.  For the input `:02000004FFFFFC`, `:10FFF800..F9`, `:020000040000FA`,
`:10000800..E8`, `:00000001FF` the image has 32 bytes and first address
`0xFFFFFFF8`; the output has no extension record before the data record with
address field `0008` (the next address `0x00000008` has non-zero low bits).
Read back, that record resolves to `0xFFFF0008`; the gap loop compares
`firstAddress + pgmDataIdx`, which has wrapped to 8, with it and fills until
it stores at `pgmData[1048576]`, outside the array, whatever the arrays held
before. -/
theorem reencoding_closure_fails (lineASCII lineInteger pgmData : Mem) :
    mainWrite defaultConfig
      [strBytes ":02000004FFFFFC", strBytes ":10FFF80000000000000000000000000000000000F9",
        strBytes ":020000040000FA", strBytes ":1000080000000000000000000000000000000000E8",
        strBytes ":00000001FF"]
      (initialState zeroMem zeroMem zeroMem) zeroMem 4 (writerStart zeroMem zeroMem 0 0)
    = some (.ok
      [strBytes ":02000004FFFFFC", strBytes ":10FFF80000000000000000000000000000000000F9",
        strBytes ":10000800000000000000000000000000FEF1116880", strBytes ":00000001FF"]) ∧
    mainRun defaultConfig
      [strBytes ":02000004FFFFFC", strBytes ":10FFF80000000000000000000000000000000000F9",
        strBytes ":10000800000000000000000000000000FEF1116880", strBytes ":00000001FF"]
      (initialState lineASCII lineInteger pgmData)
    = .error (Fault.pgmDataOutOfBounds 1048576) := by
  refine ⟨by decide!, ?_⟩
  have hv1 : ValidLine isUpperHexDigit (strBytes ":02000004FFFFFC") := by decide!
  have hv2 : ValidLine isUpperHexDigit
      (strBytes ":10FFF80000000000000000000000000000000000F9") := by decide!
  have hv3 : ValidLine isUpperHexDigit
      (strBytes ":10000800000000000000000000000000FEF1116880") := by decide!
  -- line 1: extension 0xFFFF, latched as the first extension
  obtain ⟨s1, h1, c1, f1, x1, b1, -, i1, -, -⟩ :=
    step_ext (initialState lineASCII lineInteger pgmData) (strBytes ":02000004FFFFFC") hv1
      (by decide) (by decide)
  have c1v : s1.currentAddress = 0xFFFF0000 := by rw [c1]; simp only [initialState]; decide
  have f1v : s1.firstAddress = 0xFFFF0000 := by rw [f1]; simp only [initialState]; decide
  have i1v : s1.pgmDataIdx = 0 := by rw [i1]; rfl
  have b1v : s1.baseAddrInitDone = false := by rw [b1]; rfl
  -- line 2: sixteen bytes at 0xFFFFFFF8, the first address
  have eL2 : lineLinear s1 (strBytes ":10FFF80000000000000000000000000000000000F9")
      = 0xFFFFFFF8 := by
    simp only [lineLinear, c1v]; decide
  have eF2 : lineFirst s1 (strBytes ":10FFF80000000000000000000000000000000000F9")
      = 0xFFFFFFF8 := by
    simp only [lineFirst, f1v, b1v]; decide
  have eN2 : pairVal (strBytes ":10FFF80000000000000000000000000000000000F9") 1 = 16 := by
    decide
  obtain ⟨s2, h2, c2, f2, -, b2, i2, -⟩ :=
    step_data s1 (strBytes ":10FFF80000000000000000000000000000000000F9") hv2 (by decide)
      (by rw [c1v]; decide) (by rw [eL2, eF2, i1v])
      (by rw [eL2, eF2, eN2]; simp only [pgmDataSize]; decide)
  rw [eL2] at c2
  rw [eF2] at f2
  rw [eL2, eF2, eN2] at i2
  have i2v : s2.pgmDataIdx = 16 := by rw [i2]
  -- line 3: address field 0008 under the extension 0xFFFF
  have eL3 : lineLinear s2 (strBytes ":10000800000000000000000000000000FEF1116880")
      = 0xFFFF0008 := by
    simp only [lineLinear, c2]; decide
  have eF3 : lineFirst s2 (strBytes ":10000800000000000000000000000000FEF1116880")
      = 0xFFFFFFF8 := by
    simp only [lineFirst, f2, b2, if_true]
  have h3 := step_data_overrun s2 (strBytes ":10000800000000000000000000000000FEF1116880") hv3
    (by decide) (by rw [i2v]; simp only [pgmDataSize]; decide)
    (by
      intro i hi
      rw [eL3, eF3, i2v]
      rw [i2v] at hi
      simp only [pgmDataSize] at hi
      omega)
  apply mainRun_fault
  rw [readLoop_next _ _ _ _ (validLine_length _ hv1) h1,
    readLoop_next _ _ _ _ (validLine_length _ hv2) h2,
    readLoop_fault _ _ _ _ (validLine_length _ hv3) h3]
  rfl
/-! ### Zero residue -/

theorem crcRounds_zero (p : Nat) : ∀ n, crcRounds p n 0 = 0 := by
  intro n
  induction n with
  | zero => rfl
  | succ n ih =>
    have e : crcRound p 0 = 0 := by simp [crcRound]
    simp only [crcRounds, e, ih]

/-- `calculateDataCRC(x, x) = 0`. -/
theorem calculateDataCRC_self (p x : Nat) : calculateDataCRC p x x = 0 := by
  unfold calculateDataCRC
  rw [Nat.xor_self, crcRounds_zero]

theorem crcRound_lt (p x : Nat) (hp : p < 2 ^ 32) : crcRound p x < 2 ^ 32 := by
  have hm : (x <<< 1) % 2 ^ 32 < 2 ^ 32 := Nat.mod_lt _ (by decide)
  unfold crcRound
  split
  · exact Nat.xor_lt_two_pow hm hp
  · exact hm

theorem crcRounds_lt (p : Nat) (hp : p < 2 ^ 32) : ∀ n x, x < 2 ^ 32 →
    crcRounds p n x < 2 ^ 32 := by
  intro n
  induction n with
  | zero => intro x hx; exact hx
  | succ n ih => intro x _; exact ih _ (crcRound_lt p x hp)

/-- The accumulator stays a 32 bit value. -/
theorem crcWords_lt (p : Nat) (m : Mem) (hp : p < 2 ^ 32) : ∀ n i r, r < 2 ^ 32 →
    crcWords p m n i r < 2 ^ 32 := by
  intro n
  induction n with
  | zero => intro i r hr; exact hr
  | succ n ih =>
    intro i r hr
    simp only [crcWords]
    apply ih
    unfold calculateDataCRC
    exact crcRounds_lt p hp 32 _ (Nat.xor_lt_two_pow hr (by unfold leWord; omega))

/-- The fold over `n + 1` words is the fold over `n` words followed by the
last word. -/
theorem crcWords_succ (p : Nat) (m : Mem) : ∀ n i r,
    crcWords p m (n + 1) i r
      = calculateDataCRC p (crcWords p m n i r) (leWord m (i + 4 * n)) := by
  intro n
  induction n with
  | zero => intro i r; rfl
  | succ n ih =>
    intro i r
    have e : i + 4 * (n + 1) = i + 4 + 4 * n := by omega
    rw [e]
    exact ih (i + 4) (calculateDataCRC p r (leWord m i))

/-- Four bytes that hold a 32 bit value least significant first are that
value when read as a little-endian word. -/
theorem leWord_casterBytes (m : Mem) (i x : Nat) (hx : x < 2 ^ 32)
    (hb : ∀ k, k < 4 → m (i + k) = casterByte x k) : leWord m i = x := by
  have b0 := hb 0 (by omega)
  have b1 := hb 1 (by omega)
  have b2 := hb 2 (by omega)
  have b3 := hb 3 (by omega)
  apply Nat.eq_of_testBit_eq
  intro j
  by_cases hj : j < 32
  · rw [leWord_testBit m i j hj (by rw [b0]; exact casterByte_lt _ _)
      (by rw [b1]; exact casterByte_lt _ _) (by rw [b2]; exact casterByte_lt _ _)]
    rw [b0, b1, b2, b3]
    simp only [casterByte, Nat.testBit_mod_two_pow, Nat.testBit_shiftRight,
      show (256 : Nat) = 2 ^ 8 by decide]
    by_cases c3 : 24 ≤ j
    · rw [if_pos c3, show 8 * 3 + (j - 24) = j by omega]
      simp; omega
    · by_cases c2 : 16 ≤ j
      · rw [if_neg c3, if_pos c2, show 8 * 2 + (j - 16) = j by omega]
        simp; omega
      · by_cases c1 : 8 ≤ j
        · rw [if_neg c3, if_neg c2, if_pos c1, show 8 * 1 + (j - 8) = j by omega]
          simp; omega
        · rw [if_neg c3, if_neg c2, if_neg c1, show 8 * 0 + j = j by omega]
          simp; omega
  · have h1 : (leWord m i).testBit j = false := by
      apply Nat.testBit_lt_two_pow
      calc leWord m i < 2 ^ 32 := by unfold leWord; omega
        _ ≤ 2 ^ j := Nat.pow_le_pow_right (by decide) (by omega)
    have h2 : x.testBit j = false := by
      apply Nat.testBit_lt_two_pow
      calc x < 2 ^ 32 := hx
        _ ≤ 2 ^ j := Nat.pow_le_pow_right (by decide) (by omega)
    rw [h1, h2]

/-- C21. Zero residue: for every 32 bit polynomial and every aligned image of
length `N ≥ 4` inside `pgmData`, after the CRC step has patched the checksum
into the last four bytes, the fold of `calculateDataCRC` from the seed
`0xFFFFFFFF` over all `N/4` little-endian words of the patched image, the
checksum word included, is 0: the stored word read little-endian is the
accumulator, and `calculateDataCRC(x, x) = 0`. -/
theorem zero_residue (cfg : Config) (s : MainState) (hp : cfg.poly < 2 ^ 32)
    (hseed : s.result = 0xFFFFFFFF) (h4 : 4 ≤ s.pgmDataIdx)
    (hcap : s.pgmDataIdx ≤ pgmDataSize) (hal : s.pgmDataIdx % 4 = 0) :
    ∃ s2, crcAndPatch cfg s = .ok s2 ∧
      leWord s2.pgmData (s.pgmDataIdx - 4) = s2.result ∧
      crcWords cfg.poly s2.pgmData (s.pgmDataIdx / 4) 0 0xFFFFFFFF = 0 := by
  obtain ⟨s2, hs, hr, -, -, -, hkeep, hbytes⟩ := crcAndPatch_effect cfg s h4 hcap hal
  have hlt : s2.result < 2 ^ 32 := by
    rw [hr]
    exact crcWords_lt cfg.poly s.pgmData hp _ _ _ (by rw [hseed]; decide)
  have hword : leWord s2.pgmData (s.pgmDataIdx - 4) = s2.result :=
    leWord_casterBytes s2.pgmData (s.pgmDataIdx - 4) s2.result hlt hbytes
  have hfold : crcWords cfg.poly s2.pgmData (s.pgmDataIdx / 4 - 1) 0 0xFFFFFFFF = s2.result := by
    rw [hr, hseed]
    exact crcWords_congr _ _ _ _ _ _ (fun j _ hj => hkeep j (Or.inl (by omega)))
  refine ⟨s2, hs, hword, ?_⟩
  obtain ⟨n, hn⟩ : ∃ n, s.pgmDataIdx / 4 = n + 1 := ⟨s.pgmDataIdx / 4 - 1, by omega⟩
  have hoff : 0 + 4 * n = s.pgmDataIdx - 4 := by omega
  rw [hn] at hfold ⊢
  rw [Nat.add_sub_cancel] at hfold
  rw [crcWords_succ, hoff, hfold, hword, calculateDataCRC_self]

theorem zero_residue_witness :
    ∃ s2, crcAndPatch defaultConfig sampleImage = .ok s2 ∧
      leWord s2.pgmData (sampleImage.pgmDataIdx - 4) = s2.result ∧
      crcWords defaultConfig.poly s2.pgmData (sampleImage.pgmDataIdx / 4) 0 0xFFFFFFFF = 0 :=
  zero_residue defaultConfig sampleImage (by decide) rfl (by decide) (by decide) (by decide)

end IntelHexCRC
